import Mathlib

/-!
# Root enumeration of the native-code runtime (`asmrun/roots.c`)

A shallow embedding of the frame-descriptor hash index, the registry of frame
tables, the layout of a frame table, the incremental darkening of the static global
roots and the passes over all the roots, followed by the properties established for
them.

Conventions of the embedding.

* A `frame_descr *` is a value of `frame_descr`: the address of the record (its
  identity) together with the fields read through the pointer.  Descriptors are never
  written after their creation, so comparing two such values is comparing pointers.
* A frame table `intnat *table` is a value of `frametable`: its base address and the
  descriptor records that follow the leading count, in layout order.  The count word
  is the length of that list.
* The hash index `caml_frame_descriptors` is a list of slots, `none` for `NULL`.
  The unallocated index (`caml_frame_descriptors == NULL`) is the empty list.
* The linked list `frametables` is the list of the `data` fields of its nodes, in
  link order.
* `Hash_retaddr` comes from `stack.h`; the raw hash of a return address is a
  parameter `hash` of every definition that needs it.
* A loop that may fail to terminate is run with fuel and returns `none` when the fuel
  is exhausted; a memory error (null dereference, read outside the index) is `none`
  as well.
* Descriptor counts are natural numbers: the width of `int` and `intnat` is not
  modelled for them.  Addresses in `next_frame_descr` and the unsigned counters of the
  slice are taken modulo the word size.
* A zero-terminated array of values is the list of its entries before the zero; a root
  slot is named by its indices, and a pass over the roots returns the list of its calls
  of the scanning action and of the collaborators, in order.
-/

namespace Roots

/-! ## Frame descriptors, frame tables, the index -/

/-- A frame descriptor seen through a pointer: `addr` is the address of the record,
the other fields are the members `retaddr`, `frame_size` and `num_live`. -/
structure frame_descr where
  addr : Nat
  retaddr : Nat
  frame_size : Nat
  num_live : Nat
  deriving DecidableEq, Repr

/-- A frame table: the address of its count word and its descriptor records. -/
structure frametable where
  base : Nat
  descrs : List frame_descr
  deriving DecidableEq, Repr

/-- The slots of `caml_frame_descriptors`. -/
abbrev Index := List (Option frame_descr)

/-- The process-wide state of the frame-descriptor module: `caml_frame_descriptors`,
`caml_frame_descriptors_mask`, `frametables` and `num_descr`. -/
structure State where
  caml_frame_descriptors : Index
  caml_frame_descriptors_mask : Nat
  frametables : List frametable
  num_descr : Nat
  deriving DecidableEq, Repr

/-- The state at program start: no index, mask `0`, empty registry, `num_descr = 0`. -/
def State.initial : State :=
  { caml_frame_descriptors := [], caml_frame_descriptors_mask := 0,
    frametables := [], num_descr := 0 }

/-- The capacity of the index, `caml_frame_descriptors_mask + 1` (`tblsize`). -/
def State.capacity (s : State) : Nat := s.caml_frame_descriptors_mask + 1

/-- Modelled from the spec: the macro `Hash_retaddr` is defined in `stack.h`, which is
not part of the sources; the spec gives the first probed slot as
`hash(return_address) mod capacity`, the capacity being the mask plus one. -/
def Hash_retaddr (hash : Nat → Nat) (mask : Nat) (retaddr : Nat) : Nat :=
  hash retaddr % (mask + 1)

/-- The function `count_descriptors`: the sum of the count words of the listed tables. -/
def count_descriptors : List frametable → Nat
  | [] => 0
  | t :: tl => t.descrs.length + count_descriptors tl

/-- The probe loop of `fill_hashtable`,
`while (caml_frame_descriptors[h] != NULL) h = (h+1) & mask;`, returning the slot at
which it stops. -/
def insert_probe (tbl : Index) (mask : Nat) : Nat → Nat → Option Nat
  | 0, _ => none
  | fuel + 1, h =>
    match tbl[h]? with
    | none => none
    | some none => some h
    | some (some _) => insert_probe tbl mask fuel ((h + 1) &&& mask)

/-- One iteration of the inner loop of `fill_hashtable`: probe from the hash of the
return address and store the descriptor in the empty slot found. -/
def insert_descr (hash : Nat → Nat) (mask : Nat) (tbl : Index) (d : frame_descr) :
    Option Index :=
  match insert_probe tbl mask tbl.length (Hash_retaddr hash mask d.retaddr) with
  | none => none
  | some h => some (tbl.set h (some d))

/-- The inner loop of `fill_hashtable` over the descriptors of one table. -/
def fill_table (hash : Nat → Nat) (mask : Nat) : List frame_descr → Index → Option Index
  | [], tbl => some tbl
  | d :: ds, tbl =>
    match insert_descr hash mask tbl d with
    | none => none
    | some tbl1 => fill_table hash mask ds tbl1

/-- The function `fill_hashtable`: insert every descriptor of every listed table. -/
def fill_hashtable (hash : Nat → Nat) (mask : Nat) : List frametable → Index → Option Index
  | [], tbl => some tbl
  | t :: ts, tbl =>
    match fill_table hash mask t.descrs tbl with
    | none => none
    | some tbl1 => fill_hashtable hash mask ts tbl1

/-- The loop `while (tblsize < 2 * num_descr) tblsize *= 2;` of
`init_frame_descriptors`. -/
def grow_tblsize (num_descr : Nat) : Nat → Nat → Option Nat
  | 0, _ => none
  | fuel + 1, tblsize =>
    if tblsize < 2 * num_descr then grow_tblsize num_descr fuel (tblsize * 2)
    else some tblsize

/-- The function `init_frame_descriptors`.  An empty `new_frametables` makes
`tail` null, and `tail->next` is then a null dereference in both branches. -/
def init_frame_descriptors (hash : Nat → Nat) (s : State)
    (new_frametables : List frametable) : Option State :=
  match new_frametables with
  | [] => none
  | _ :: _ =>
    let increase := count_descriptors new_frametables
    let tblsize := s.caml_frame_descriptors_mask + 1
    if tblsize < (s.num_descr + increase) * 2 then
      let merged := new_frametables ++ s.frametables
      let num_descr := count_descriptors merged
      match grow_tblsize num_descr (2 * num_descr + 1) 4 with
      | none => none
      | some tblsize1 =>
        match fill_hashtable hash (tblsize1 - 1) merged (List.replicate tblsize1 none) with
        | none => none
        | some tbl =>
          some { caml_frame_descriptors := tbl, caml_frame_descriptors_mask := tblsize1 - 1,
                 frametables := merged, num_descr := num_descr }
    else
      match fill_hashtable hash s.caml_frame_descriptors_mask new_frametables
          s.caml_frame_descriptors with
      | none => none
      | some tbl =>
        some { caml_frame_descriptors := tbl,
               caml_frame_descriptors_mask := s.caml_frame_descriptors_mask,
               frametables := new_frametables ++ s.frametables,
               num_descr := s.num_descr + increase }

/-- The function `caml_init_frame_descriptors`; `caml_frametable` is the
null-terminated array of the statically linked frame tables, consed one by one onto
the list handed to `init_frame_descriptors`. -/
def caml_init_frame_descriptors (hash : Nat → Nat) (caml_frametable : List frametable)
    (s : State) : Option State :=
  init_frame_descriptors hash s caml_frametable.reverse

/-- The function `caml_register_frametable`. -/
def caml_register_frametable (hash : Nat → Nat) (table : frametable) (s : State) :
    Option State :=
  init_frame_descriptors hash s [table]

/-- The search loop of `remove_entry`,
`while (caml_frame_descriptors[i] != d) i = (i+1) & mask;`. -/
def find_entry (tbl : Index) (mask : Nat) (d : frame_descr) : Nat → Nat → Option Nat
  | 0, _ => none
  | fuel + 1, i =>
    match tbl[i]? with
    | none => none
    | some slot =>
      if slot = some d then some i else find_entry tbl mask d fuel ((i + 1) &&& mask)

/-- The test of `remove_entry` deciding that the entry found at `i`, whose hash is
`r`, stays where it is while the gap is at `j`. -/
def stays (j r i : Nat) : Bool :=
  (decide (j < r) && decide (r ≤ i)) || (decide (i < j) && decide (j < r)) ||
    (decide (r ≤ i) && decide (i < j))

/-- The backward-shift loop of `remove_entry`, entered at label `r2` with the gap at
`j` (already cleared) and the scan at `i`. -/
def shift_entries (hash : Nat → Nat) (mask : Nat) : Nat → Index → Nat → Nat → Option Index
  | 0, _, _, _ => none
  | fuel + 1, tbl, j, i =>
    let i1 := (i + 1) &&& mask
    match tbl[i1]? with
    | none => none
    | some none => some tbl
    | some (some e) =>
      if stays j (Hash_retaddr hash mask e.retaddr) i1 then
        shift_entries hash mask fuel tbl j i1
      else
        shift_entries hash mask fuel ((tbl.set j (some e)).set i1 none) i1 i1

/-- The function `remove_entry`. -/
def remove_entry (hash : Nat → Nat) (mask : Nat) (tbl : Index) (d : frame_descr) :
    Option Index :=
  match find_entry tbl mask d tbl.length (Hash_retaddr hash mask d.retaddr) with
  | none => none
  | some i => shift_entries hash mask tbl.length (tbl.set i none) i i

/-- The first loop of `caml_unregister_frametable`: `remove_entry` on every descriptor
of the table. -/
def remove_entries (hash : Nat → Nat) (mask : Nat) : List frame_descr → Index → Option Index
  | [], tbl => some tbl
  | d :: ds, tbl =>
    match remove_entry hash mask tbl d with
    | none => none
    | some tbl1 => remove_entries hash mask ds tbl1

/-- The second loop of `caml_unregister_frametable` past the first node: `previous`
is the node before `rest`; the first node of `rest` whose `data` is `table` is
unlinked by `previous->next = lnk->next`. -/
def unlink_after (table : frametable) : List frametable → List frametable
  | [] => []
  | t :: tl => if t = table then tl else t :: unlink_after table tl

/-- The second loop of `caml_unregister_frametable`.  At the first node `previous` and
`lnk` are the same node, so `previous->next = lnk->next` writes the node's own link
into itself; the node is freed and `frametables` still points to it.  The freed node
is kept in the list, read as it was before `caml_stat_free`. -/
def unlink_frametable (table : frametable) : List frametable → List frametable
  | [] => []
  | t :: tl => if t = table then t :: tl else t :: unlink_after table tl

/-- The function `caml_unregister_frametable`. -/
def caml_unregister_frametable (hash : Nat → Nat) (table : frametable) (s : State) :
    Option State :=
  match remove_entries hash s.caml_frame_descriptors_mask table.descrs
      s.caml_frame_descriptors with
  | none => none
  | some tbl =>
    some { caml_frame_descriptors := tbl,
           caml_frame_descriptors_mask := s.caml_frame_descriptors_mask,
           frametables := unlink_frametable table s.frametables,
           num_descr := s.num_descr }

/-- A call of the registration interface. -/
inductive Op where
  | init (caml_frametable : List frametable)
  | register (table : frametable)
  | unregister (table : frametable)
  deriving DecidableEq, Repr

/-- The effect of one call on the state. -/
def Op.apply (hash : Nat → Nat) (s : State) : Op → Option State
  | Op.init ts => caml_init_frame_descriptors hash ts s
  | Op.register t => caml_register_frametable hash t s
  | Op.unregister t => caml_unregister_frametable hash t s

/-- The effect of a sequence of calls, in order. -/
def run (hash : Nat → Nat) : State → List Op → Option State
  | s, [] => some s
  | s, op :: ops =>
    match op.apply hash s with
    | none => none
    | some s1 => run hash s1 ops

/-- The tables registered and not yet unregistered after a sequence of calls, starting
from the tables `live`. -/
def live_tables : List frametable → List Op → List frametable
  | live, [] => live
  | live, Op.init ts :: ops => live_tables (ts.reverse ++ live) ops
  | live, Op.register t :: ops => live_tables (t :: live) ops
  | live, Op.unregister t :: ops => live_tables (live.erase t) ops

/-- The list of the descriptors stored in the index, by a scan of all its slots. -/
def scan_index (tbl : Index) : List frame_descr :=
  tbl.filterMap id

/-- Linear probing from slot `h`: does the probe reach a slot holding `d` before it
reaches an empty slot?  At most `fuel` slots are looked at. -/
def probe_finds (tbl : Index) (mask : Nat) (d : frame_descr) : Nat → Nat → Bool
  | 0, _ => false
  | fuel + 1, h =>
    match tbl[h]? with
    | some (some e) => if e = d then true else probe_finds tbl mask d fuel ((h + 1) &&& mask)
    | _ => false

/-- Descriptor `d` is reachable in the index of state `s`: its hash is below the
capacity and probing from it meets `d` before any empty slot. -/
def State.reachable (hash : Nat → Nat) (s : State) (d : frame_descr) : Bool :=
  decide (Hash_retaddr hash s.caml_frame_descriptors_mask d.retaddr < s.capacity) &&
    probe_finds s.caml_frame_descriptors s.caml_frame_descriptors_mask d s.capacity
      (Hash_retaddr hash s.caml_frame_descriptors_mask d.retaddr)


/-! ## Auxiliary notions for the index -/


/-- The position of slot `x` counted cyclically from the slot after `E`. -/
def rank (n E x : Nat) : Nat := if E < x then x - E - 1 else x + n - E - 1

/-- The number of occupied slots of the index. -/
def occupied (tbl : Index) : Nat := tbl.countP Option.isSome

/-- A registration call that the code accepts: `caml_register_frametable`, or
`caml_init_frame_descriptors` on a non-empty array of tables. -/
def Op.registers : Op → Bool
  | Op.init ts => !ts.isEmpty
  | Op.register _ => true
  | Op.unregister _ => false

/-- Shape of the index: the capacity is a power of two, the index has that many slots
(or is still unallocated, with nothing counted), the occupied slots are at most
`num_descr`, and the capacity is at least twice `num_descr`. -/
structure IndexInv (s : State) : Prop where
  pow : ∃ p, s.caml_frame_descriptors_mask + 1 = 2 ^ p
  len : s.caml_frame_descriptors.length = s.caml_frame_descriptors_mask + 1 ∨
    (s.caml_frame_descriptors = [] ∧ s.caml_frame_descriptors_mask = 0 ∧ s.num_descr = 0)
  occ : occupied s.caml_frame_descriptors ≤ s.num_descr
  cap : 2 * s.num_descr ≤ s.caml_frame_descriptors_mask + 1

/-- Every descriptor of every table of the registry is reachable by probing. -/
def RegistryReachable (hash : Nat → Nat) (s : State) : Prop :=
  ∀ t ∈ s.frametables, ∀ d ∈ t.descrs, s.reachable hash d = true

/-- The raw hash of the native-code runtimes: the return address shifted right by three
bits.  Used for the concrete instances only. -/
def shift_hash (retaddr : Nat) : Nat := retaddr >>> 3

/-- Slot `s` holds an entry with hash `h` and every slot from `h` up to `s`, in the order
counted from the slot after `E`, is occupied in `tbl`. -/
def RunTo (tbl : Index) (mask E h s : Nat) : Prop :=
  rank (mask + 1) E h ≤ rank (mask + 1) E s ∧
    ∀ x, x ≤ mask → rank (mask + 1) E h ≤ rank (mask + 1) E x →
      rank (mask + 1) E x < rank (mask + 1) E s → ∃ y, tbl[x]? = some (some y)

/-- The entry `e` sits in a slot `s` of `tbl` that was reachable in `tbl0`, and if the
scan at `i` has passed `s`, the gap `j` does not lie between the hash of `e` and `s`. -/
def Tracked (hash : Nat → Nat) (tbl0 tbl : Index) (mask E j i : Nat) (e : frame_descr) : Prop :=
  ∃ s, s ≤ mask ∧ tbl[s]? = some (some e) ∧
    RunTo tbl0 mask E (Hash_retaddr hash mask e.retaddr) s ∧
    (rank (mask + 1) E s ≤ rank (mask + 1) E i →
      ¬ (rank (mask + 1) E (Hash_retaddr hash mask e.retaddr) ≤ rank (mask + 1) E j ∧
        rank (mask + 1) E j < rank (mask + 1) E s))

/-- The tables a call hands to `init_frame_descriptors`. -/
def Op.tables : Op → List frametable
  | Op.init ts => ts.reverse
  | Op.register t => [t]
  | Op.unregister _ => []

/-- The test of `init_frame_descriptors` that selects the reallocation of the index:
`tblsize < (num_descr + increase) * 2`. -/
def Op.reallocates (s : State) (op : Op) : Bool :=
  decide (s.capacity < (s.num_descr + count_descriptors op.tables) * 2)

/-- A frame table of three descriptors whose return addresses all hash to slot `1` of an
index of capacity `8` under `shift_hash`. -/
def sample_a : frametable := ⟨0, [⟨8, 8, 0, 0⟩, ⟨16, 72, 0, 0⟩, ⟨24, 136, 0, 0⟩]⟩

/-- A frame table of one descriptor. -/
def sample_b : frametable := ⟨96, [⟨104, 16, 0, 0⟩]⟩

/-- Another frame table of one descriptor. -/
def sample_c : frametable := ⟨192, [⟨200, 24, 0, 0⟩]⟩

/-- A frame table of two descriptors. -/
def sample_d : frametable := ⟨288, [⟨296, 40, 0, 0⟩, ⟨312, 104, 0, 0⟩]⟩

/-! ## The static global roots and their incremental darkening -/

/-- The array `caml_globals`: a zero-terminated array of global tables, each a
zero-terminated array of container values, each container given by the list of its
fields (`Wosize_val` is the length of that list).  The terminating zeros are the ends of
the lists. -/
abbrev Globals := List (List (List Nat))

/-- A root slot `&Field (*glob, j)`: the index of the global table, the index of the
container in that table and the index of the field in that container. -/
structure Slot where
  table : Nat
  container : Nat
  field : Nat
  deriving DecidableEq, Repr

/-- The static locals `i`, `j` and `glob` of `caml_darken_all_roots_slice`; the pointer
`glob` is the pair of the table it points into and its offset in that table. -/
structure Cursor where
  i : Nat
  j : Nat
  glob : Nat × Nat
  deriving DecidableEq, Repr

/-- How the nested loops of `caml_darken_all_roots_slice` are left: by `goto suspend`,
or by running on to the end of the current loop.  Both carry the static locals,
`remaining_work` and the slots handed to `caml_darken` so far. -/
inductive Walk where
  | suspended (c : Cursor) (remaining_work : Int) (visited : List Slot)
  | running (c : Cursor) (remaining_work : Int) (visited : List Slot)
  deriving DecidableEq, Repr

/-- The innermost loop of `caml_darken_all_roots_slice` from its test
`j < Wosize_val (*glob)`, with `k` the number of fields from `j` to the end of the
container. -/
def slice_fields : Nat → Cursor → Int → List Slot → Walk
  | 0, c, remaining_work, visited => Walk.running c remaining_work visited
  | k + 1, c, remaining_work, visited =>
    let visited1 := visited ++ [⟨c.glob.1, c.glob.2, c.j⟩]
    let remaining1 := remaining_work - 1
    if remaining1 = 0 then Walk.suspended c remaining1 visited1
    else slice_fields k { c with j := c.j + 1 } remaining1 visited1

/-- The middle loop `for (...; *glob != 0; glob++)` from its test, over the containers
from `glob` to the end of its table. -/
def slice_containers : List (List Nat) → Cursor → Int → List Slot → Walk
  | [], c, remaining_work, visited => Walk.running c remaining_work visited
  | blk :: rest, c, remaining_work, visited =>
    match slice_fields blk.length { c with j := 0 } remaining_work visited with
    | Walk.suspended c1 remaining1 visited1 => Walk.suspended c1 remaining1 visited1
    | Walk.running c1 remaining1 visited1 =>
      slice_containers rest { c1 with glob := (c1.glob.1, c1.glob.2 + 1) } remaining1 visited1

/-- The outer loop `for (...; caml_globals[i] != 0; i++)` from its test, over the tables
from index `i` to the end of `caml_globals`. -/
def slice_tables : List (List (List Nat)) → Cursor → Int → List Slot → Walk
  | [], c, remaining_work, visited => Walk.running c remaining_work visited
  | t :: rest, c, remaining_work, visited =>
    match slice_containers t { c with glob := (c.i, 0) } remaining_work visited with
    | Walk.suspended c1 remaining1 visited1 => Walk.suspended c1 remaining1 visited1
    | Walk.running c1 remaining1 visited1 =>
      slice_tables rest { c1 with i := c1.i + 1 } remaining1 visited1

/-- The entry `goto resume`: the label stands at the end of the body of the innermost
loop, so the walk goes on with `j++` in the container under `glob`, then with the
containers after `glob`, then with the tables after `i`.  A cursor outside the arrays is
a read out of bounds. -/
def slice_resume (globals : Globals) (c : Cursor) (remaining_work : Int) : Option Walk :=
  match globals[c.i]?, globals[c.glob.1]? with
  | some _, some tg =>
    match tg[c.glob.2]? with
    | none => none
    | some blk =>
      match slice_fields (blk.length - (c.j + 1)) { c with j := c.j + 1 } remaining_work [] with
      | Walk.suspended c1 remaining1 visited1 => some (Walk.suspended c1 remaining1 visited1)
      | Walk.running c1 remaining1 visited1 =>
        match slice_containers (tg.drop (c.glob.2 + 1))
            { c1 with glob := (c1.glob.1, c1.glob.2 + 1) } remaining1 visited1 with
        | Walk.suspended c2 remaining2 visited2 => some (Walk.suspended c2 remaining2 visited2)
        | Walk.running c2 remaining2 visited2 =>
          some (slice_tables (globals.drop (c.i + 1)) { c2 with i := c2.i + 1 }
            remaining2 visited2)
  | _, _ => none

/-- The state kept between two calls of `caml_darken_all_roots_slice`: its static locals
and the global `caml_incremental_roots_count`. -/
structure SliceState where
  cursor : Cursor
  do_resume : Bool
  roots_count : Nat
  caml_incremental_roots_count : Nat
  deriving DecidableEq, Repr

/-- The value of an integer expression stored in an unsigned word (`mlsize_t`,
`uintnat`) of 64 bits. -/
def to_uintnat (x : Int) : Nat := (x % 2 ^ 64).toNat

/-- The outcome of one call of `caml_darken_all_roots_slice`: the state it leaves, the
value it returns and the slots it handed to `caml_darken`, in order. -/
structure SliceResult where
  state : SliceState
  ret : Int
  visited : List Slot
  deriving DecidableEq, Repr

/-- The function `caml_darken_all_roots_slice`. -/
def caml_darken_all_roots_slice (globals : Globals) (st : SliceState) (work : Int) :
    Option SliceResult :=
  let walk :=
    if st.do_resume then slice_resume globals st.cursor work
    else some (slice_tables globals { st.cursor with i := 0 } work [])
  match walk with
  | none => none
  | some (Walk.suspended c remaining_work visited) =>
    some { state := { cursor := c, do_resume := true,
                      roots_count := to_uintnat (st.roots_count + work),
                      caml_incremental_roots_count := st.caml_incremental_roots_count },
           ret := remaining_work, visited := visited }
  | some (Walk.running c remaining_work visited) =>
    some { state := { cursor := c, do_resume := false, roots_count := 0,
                      caml_incremental_roots_count :=
                        to_uintnat (st.roots_count + work - remaining_work) },
           ret := remaining_work, visited := visited }

/-- The slots of the fields `j`, `j + 1`, ... (`k` of them) of one container. -/
def fields_from (table container : Nat) : Nat → Nat → List Slot
  | 0, _ => []
  | k + 1, j => ⟨table, container, j⟩ :: fields_from table container k (j + 1)

/-- The middle loop of the static-global part of `caml_do_roots`: the slots visited
in the containers `cs`, the first of which has index `g` in table `i`. -/
def visit_containers (i : Nat) : Nat → List (List Nat) → List Slot
  | _, [] => []
  | g, blk :: rest => fields_from i g blk.length 0 ++ visit_containers i (g + 1) rest

/-- The outer loop of the static-global part of `caml_do_roots`: the slots visited in
the tables `ts`, the first of which has index `i`. -/
def visit_tables : Nat → List (List (List Nat)) → List Slot
  | _, [] => []
  | i, t :: rest => visit_containers i 0 t ++ visit_tables (i + 1) rest

/-- The static-global loop of `caml_do_roots` (taken when `do_globals` is non-zero): the
slots on which the visitor is called, in order. -/
def do_roots_globals (globals : Globals) : List Slot := visit_tables 0 globals

/-- The total number of fields of the static global roots. -/
def total_fields (globals : Globals) : Nat :=
  (globals.map (fun t => (t.map List.length).sum)).sum

/-- The slots that a walk suspended at cursor `c` has still to visit. -/
def pending_after (globals : Globals) (c : Cursor) : List Slot :=
  match globals[c.i]? with
  | none => []
  | some t =>
    match t[c.glob.2]? with
    | none => []
    | some blk =>
      fields_from c.i c.glob.2 (blk.length - (c.j + 1)) (c.j + 1) ++
        visit_containers c.i (c.glob.2 + 1) (t.drop (c.glob.2 + 1)) ++
        visit_tables (c.i + 1) (globals.drop (c.i + 1))

/-- The slots that the walk has still to visit in state `st`: all of them when idle. -/
def SliceState.pending (globals : Globals) (st : SliceState) : List Slot :=
  if st.do_resume then pending_after globals st.cursor else do_roots_globals globals

/-- The cursor of a suspended walk points at a field of a container of a table of
`globals`, and `glob` points into table `i`. -/
def Cursor.valid (globals : Globals) (c : Cursor) : Prop :=
  c.glob.1 = c.i ∧ ∃ t blk, globals[c.i]? = some t ∧ t[c.glob.2]? = some blk ∧ c.j < blk.length

/-- A state of the coordinator: idle, or suspended at a valid cursor. -/
def SliceState.valid (globals : Globals) (st : SliceState) : Prop :=
  st.do_resume = true → st.cursor.valid globals

/-- The caller's loop: call the slice with the successive budgets until it first returns
a strictly positive value, or the budgets are used up.  Returns the final state, the
slots visited by the successive calls, concatenated, and the values returned. -/
def drive (globals : Globals) : SliceState → List Int → Option (SliceState × List Slot × List Int)
  | st, [] => some (st, [], [])
  | st, work :: budgets =>
    match caml_darken_all_roots_slice globals st work with
    | none => none
    | some res =>
      if 0 < res.ret then some (res.state, res.visited, [res.ret])
      else
        match drive globals res.state budgets with
        | none => none
        | some (st1, visited, rets) => some (st1, res.visited ++ visited, res.ret :: rets)

/-- The idle state of the coordinator at program start. -/
def SliceState.idle : SliceState :=
  { cursor := { i := 0, j := 0, glob := (0, 0) }, do_resume := false, roots_count := 0,
    caml_incremental_roots_count := 0 }

/-! ## The layout of a frame table -/

/-- The function `next_frame_descr` for a pointer size of `P` bytes, on addresses: the
sum is taken in `uintnat` (`8 * P` bits) and masked with `-sizeof(frame_descr *)`; the
trailer of `8` bytes is skipped when `frame_size & 1` and `frame_size` is not
`(unsigned short)-1`. -/
def next_frame_descr (P : Nat) (d : frame_descr) : Nat :=
  let nextd := ((d.addr + P + 2 + 2 + 2 * d.num_live + P - 1) % 2 ^ (8 * P)) &&&
    (2 ^ (8 * P) - P)
  if d.frame_size &&& 1 ≠ 0 ∧ d.frame_size ≠ 65535 then (nextd + 8) % 2 ^ (8 * P) else nextd

/-- The walk over the descriptors of a table shared by `fill_hashtable` and
`caml_unregister_frametable`: `d` starts at a given address and is advanced `len` times
by `next_frame_descr`; `mem` gives the record read through a descriptor pointer. -/
def table_descrs (P : Nat) (mem : Nat → Option frame_descr) : Nat → Nat → Option (List frame_descr)
  | 0, _ => some []
  | len + 1, a =>
    match mem a with
    | none => none
    | some d =>
      match table_descrs P mem len (next_frame_descr P d) with
      | none => none
      | some ds => some (d :: ds)

/-- The memory of a frame table: the record that starts at address `a`, if any. -/
def frametable.mem (t : frametable) (a : Nat) : Option frame_descr :=
  t.descrs.find? (fun d => decide (d.addr = a))

/-- In the words of the spec: `x` rounded up to the next multiple of `P`. -/
def round_up (P x : Nat) : Nat := (x + P - 1) / P * P

/-- In the words of the spec: the end of a descriptor record.  The record is a word of
return address, two bytes of frame size and flags, two bytes of live-slot count and two
bytes per live slot, padded up to the next pointer-aligned address, followed by a
trailer of `8` bytes if the low bit of the frame size is set and the frame size is not
the all-ones value. -/
def descr_end (P : Nat) (d : frame_descr) : Nat :=
  round_up P (d.addr + P + 2 + 2 + 2 * d.num_live) +
    (if d.frame_size % 2 = 1 ∧ d.frame_size ≠ 0xFFFF then 8 else 0)

/-- In the words of the spec: the records `ds` are laid out back to back from address
`a`. -/
def laid_out (P : Nat) : Nat → List frame_descr → Bool
  | _, [] => true
  | a, d :: ds => decide (d.addr = a) && laid_out P (descr_end P d) ds

/-- The record and its padding and trailer end below the top of the address space of
`8 * P` bits. -/
def fits (P : Nat) (d : frame_descr) : Bool :=
  decide (d.addr + P + 2 + 2 + 2 * d.num_live + P + 8 ≤ 2 ^ (8 * P))

/-- A frame table of three records laid out for a pointer size of `8`: one with three
live slots, one with a trailer, one with the all-ones frame size. -/
def sample_layout : frametable :=
  ⟨4096, [⟨4104, 800, 16, 3⟩, ⟨4128, 808, 33, 0⟩, ⟨4152, 816, 65535, 2⟩]⟩

/-! ## The backward-shift loop with its final positions -/

/-- The backward-shift loop of `remove_entry`, as `shift_entries`, returning with the
index the values of `j` (the gap) and `i` (the scan) at the `return`. -/
def shift_scan (hash : Nat → Nat) (mask : Nat) :
    Nat → Index → Nat → Nat → Option (Index × Nat × Nat)
  | 0, _, _, _ => none
  | fuel + 1, tbl, j, i =>
    let i1 := (i + 1) &&& mask
    match tbl[i1]? with
    | none => none
    | some none => some (tbl, j, i1)
    | some (some e) =>
      if stays j (Hash_retaddr hash mask e.retaddr) i1 then
        shift_scan hash mask fuel tbl j i1
      else
        shift_scan hash mask fuel ((tbl.set j (some e)).set i1 none) i1 i1

/-- The descriptors of the listed tables, in the order in which `fill_hashtable` inserts
them. -/
def all_descrs : List frametable → List frame_descr
  | [] => []
  | t :: ts => t.descrs ++ all_descrs ts

/-! ## The passes over all the roots -/

/-- A root slot handed to a scanning action: a field of a container of a static global
table, a field of a container of a dynamic global table (`table` is the position of the
link in `caml_dyn_globals`), the variable `caml_current_stack`, or an item of a table of
a block of local roots (`table` is the position of the block in the list, `container`
the index of the table in the block, `field` the index of the item). -/
inductive Root where
  | static (slot : Slot)
  | dynamic (slot : Slot)
  | current_stack
  | local_root (slot : Slot)
  deriving DecidableEq, Repr

/-- What a pass over the roots does, as seen from outside: a call `f (v, &root)` of the
scanning action of `caml_do_roots`, an application `Oldify (&root)` where the slot holds
`v`, or a call of one of the collaborators `caml_scan_stack`, `caml_scan_global_roots`,
`caml_final_do_strong_roots`, `caml_scan_global_young_roots`,
`caml_final_do_young_roots` and `*caml_scan_roots_hook`, each with the scanning action of
the pass. -/
inductive Event where
  | visit (root : Root) (v : Nat)
  | oldify (root : Root) (v : Nat)
  | scan_stack (stack : Nat)
  | scan_global_roots
  | final_do_strong_roots
  | scan_global_young_roots
  | final_do_young_roots
  | hook (is_compaction : Int)
  deriving DecidableEq, Repr

/-- The memory of the roots: `caml_globals`, the `data` of the links of
`caml_dyn_globals` in link order, `caml_current_stack`, the blocks of
`caml_local_roots` in link order (each block is its `ntables` tables of `nitems` slots),
whether `caml_scan_roots_hook` is set, `caml_globals_inited`, `caml_globals_scanned`, and
the state of the frame descriptors. -/
structure RootSet where
  caml_globals : Globals
  caml_dyn_globals : List (List (List Nat))
  caml_current_stack : Nat
  caml_local_roots : List (List (List Nat))
  caml_scan_roots_hook : Bool
  caml_globals_inited : Nat
  caml_globals_scanned : Nat
  frames : State
  deriving DecidableEq, Repr

/-- An innermost loop `for (j = 0; j < n; j++) action (&slot[j])` over the slots of one
array: `ev j v` is the event of the action on slot `j` holding `v`, and `act v` is what
the action leaves in the slot.  Returns the slots afterwards and the events. -/
def scan_fields (act : Nat → Nat) (ev : Nat → Nat → Event) :
    Nat → List Nat → List Nat × List Event
  | _, [] => ([], [])
  | j, v :: rest =>
    let r := scan_fields act ev (j + 1) rest
    (act v :: r.1, ev j v :: r.2)

/-- A middle loop over the arrays of one table, each scanned by `scan_fields`. -/
def scan_containers (act : Nat → Nat) (ev : Nat → Nat → Nat → Event) :
    Nat → List (List Nat) → List (List Nat) × List Event
  | _, [] => ([], [])
  | g, blk :: rest =>
    let r1 := scan_fields act (ev g) 0 blk
    let r2 := scan_containers act ev (g + 1) rest
    (r1.1 :: r2.1, r1.2 ++ r2.2)

/-- An outer loop over tables, each scanned by `scan_containers`. -/
def scan_tables (act : Nat → Nat) (ev : Nat → Nat → Nat → Nat → Event) :
    Nat → List (List (List Nat)) → List (List (List Nat)) × List Event
  | _, [] => ([], [])
  | i, t :: rest =>
    let r1 := scan_containers act (ev i) 0 t
    let r2 := scan_tables act ev (i + 1) rest
    (r1.1 :: r2.1, r1.2 ++ r2.2)

/-- The function `caml_do_local_roots`: the stack walker unless `is_compaction`, then
the scanning action on `caml_current_stack`, then on every item of every table of every
block of `local_roots`.  Returns `caml_current_stack` and the blocks afterwards. -/
def caml_do_local_roots (act : Nat → Nat) (caml_current_stack : Nat)
    (local_roots : List (List (List Nat))) (is_compaction : Int) :
    (Nat × List (List (List Nat))) × List Event :=
  let ev1 := if is_compaction = 0 then [Event.scan_stack caml_current_stack] else []
  let ev2 := [Event.visit Root.current_stack caml_current_stack]
  let r := scan_tables act (fun b i j v => Event.visit (Root.local_root ⟨b, i, j⟩) v) 0
    local_roots
  ((act caml_current_stack, r.1), ev1 ++ ev2 ++ r.2)

/-- The statement `if (caml_frame_descriptors == NULL) caml_init_frame_descriptors ();`
of `caml_do_roots`. -/
def ensure_frame_descriptors (hash : Nat → Nat) (caml_frametable : List frametable)
    (s : State) : Option State :=
  if s.caml_frame_descriptors = [] then caml_init_frame_descriptors hash caml_frametable s
  else some s

/-- The function `caml_do_roots` for a scanning action `f` that leaves `act v` in a slot
holding `v`.  The collaborators are taken not to write to the roots modelled here.
Returns the roots afterwards and the events, in order. -/
def caml_do_roots (hash : Nat → Nat) (caml_frametable : List frametable) (act : Nat → Nat)
    (do_globals is_compaction : Int) (r : RootSet) : Option (RootSet × List Event) :=
  let g :=
    if do_globals ≠ 0 then
      scan_tables act (fun i g j v => Event.visit (Root.static ⟨i, g, j⟩) v) 0 r.caml_globals
    else (r.caml_globals, [])
  let d := scan_tables act (fun i g j v => Event.visit (Root.dynamic ⟨i, g, j⟩) v) 0
    r.caml_dyn_globals
  match ensure_frame_descriptors hash caml_frametable r.frames with
  | none => none
  | some frames =>
    let l := caml_do_local_roots act r.caml_current_stack r.caml_local_roots is_compaction
    let tl := [Event.scan_global_roots, Event.final_do_strong_roots]
    let h := if r.caml_scan_roots_hook then [Event.hook is_compaction] else []
    some ({ caml_globals := g.1, caml_dyn_globals := d.1, caml_current_stack := l.1.1,
            caml_local_roots := l.1.2, caml_scan_roots_hook := r.caml_scan_roots_hook,
            caml_globals_inited := r.caml_globals_inited,
            caml_globals_scanned := r.caml_globals_scanned, frames := frames },
          g.2 ++ d.2 ++ l.2 ++ tl ++ h)

/-- The field held by slot `s` of the tables `gl`. -/
def field_value (gl : List (List (List Nat))) (s : Slot) : Nat :=
  ((gl.getD s.table []).getD s.container []).getD s.field 0

/-- The roots on which a trace calls the scanning action, in order. -/
def visited_roots : List Event → List Root
  | [] => []
  | Event.visit root _ :: evs => root :: visited_roots evs
  | _ :: evs => visited_roots evs

/-- Two static global tables `[A]` and `[B]`, each a single container of two fields,
nothing else but `caml_current_stack`, no hook, no frame descriptors yet. -/
def sample_roots : RootSet :=
  { caml_globals := [[[101, 102]], [[103, 104]]], caml_dyn_globals := [],
    caml_current_stack := 500, caml_local_roots := [], caml_scan_roots_hook := false,
    caml_globals_inited := 1, caml_globals_scanned := 0, frames := State.initial }


/-! ## The index under registration -/

theorem land_mask_succ {mask p : Nat} (hp : mask + 1 = 2 ^ p) (i : Nat) (hi : i ≤ mask) :
    (i + 1) &&& mask = if i = mask then 0 else i + 1 := by
  have hm : mask = 2 ^ p - 1 := by omega
  have h1 : (i + 1) &&& mask = (i + 1) % (mask + 1) := by
    rw [hp, hm]; exact Nat.and_pow_two_sub_one_eq_mod _ _
  rw [h1]
  split
  · next h => rw [h, Nat.mod_self]
  · next h => exact Nat.mod_eq_of_lt (by omega)

theorem land_mask_le {mask p : Nat} (hp : mask + 1 = 2 ^ p) (i : Nat) (hi : i ≤ mask) :
    (i + 1) &&& mask ≤ mask := by
  rw [land_mask_succ hp i hi]; split <;> omega

theorem rank_lt {n E x : Nat} (hE : E < n) (hx : x < n) : rank n E x < n := by
  unfold rank; split <;> omega

theorem rank_eq_last {n E x : Nat} (hE : E < n) (hx : x < n) :
    rank n E x = n - 1 ↔ x = E := by
  unfold rank; split <;> omega

theorem rank_inj {n E x y : Nat} (hE : E < n) (hx : x < n) (hy : y < n)
    (h : rank n E x = rank n E y) : x = y := by
  unfold rank at h; split at h <;> split at h <;> omega

theorem rank_next {mask p E x : Nat} (hp : mask + 1 = 2 ^ p) (hE : E ≤ mask) (hx : x ≤ mask)
    (hne : x ≠ E) : rank (mask + 1) E ((x + 1) &&& mask) = rank (mask + 1) E x + 1 := by
  rw [land_mask_succ hp x hx]
  unfold rank
  split <;> split <;> split <;> omega

theorem exists_empty_slot (tbl : Index) (h : occupied tbl < tbl.length) :
    ∃ E, E < tbl.length ∧ tbl[E]? = some none := by
  unfold occupied at h
  have hne : ¬ (∀ a ∈ tbl, Option.isSome a = true) := by
    intro hall
    have := (List.countP_eq_length (p := Option.isSome) (l := tbl)).2 hall
    omega
  push_neg at hne
  obtain ⟨a, ha, hna⟩ := hne
  obtain ⟨E, hE⟩ := List.mem_iff_getElem?.1 ha
  have ha0 : a = none := by
    cases a with
    | none => rfl
    | some v => simp at hna
  subst ha0
  refine ⟨E, ?_, hE⟩
  rcases List.getElem?_eq_some.1 hE with ⟨hlt, _⟩
  exact hlt

theorem insert_probe_empty (tbl : Index) (mask : Nat) :
    ∀ (fuel h s : Nat), insert_probe tbl mask fuel h = some s → tbl[s]? = some none := by
  intro fuel
  induction fuel with
  | zero => intro h s hs; simp [insert_probe] at hs
  | succ f ih =>
    intro h s hs
    unfold insert_probe at hs
    split at hs
    · simp at hs
    · next heq => simp at hs; subst hs; exact heq
    · exact ih _ _ hs

theorem insert_probe_total {tbl : Index} {mask p E : Nat} (hlen : tbl.length = mask + 1)
    (hp : mask + 1 = 2 ^ p) (hE : E ≤ mask) (hempty : tbl[E]? = some none) :
    ∀ (fuel h : Nat), h ≤ mask → mask - rank (mask + 1) E h < fuel →
      ∃ s, insert_probe tbl mask fuel h = some s := by
  intro fuel
  induction fuel with
  | zero => intro h _ hf; omega
  | succ f ih =>
    intro h hh hf
    unfold insert_probe
    have hlt : h < tbl.length := by omega
    rcases hslot : tbl[h]? with _ | slot
    · rw [List.getElem?_eq_none_iff] at hslot; omega
    · cases slot with
      | none => exact ⟨h, rfl⟩
      | some e =>
        simp only
        have hne : h ≠ E := by
          intro heq; subst heq; rw [hempty] at hslot; simp at hslot
        have hr := rank_next hp hE hh hne
        have hrl := rank_lt (n := mask + 1) (E := E) (x := (h + 1) &&& mask) (by omega)
          (by have := land_mask_le hp h hh; omega)
        exact ih _ (land_mask_le hp h hh) (by omega)

theorem probe_finds_set_empty (tbl : Index) (mask : Nat) (e d : frame_descr) (s : Nat)
    (hs : tbl[s]? = some none) :
    ∀ (fuel h : Nat), probe_finds tbl mask e fuel h = true →
      probe_finds (tbl.set s (some d)) mask e fuel h = true := by
  intro fuel
  induction fuel with
  | zero => intro h hf; simp [probe_finds] at hf
  | succ f ih =>
    intro h hf
    unfold probe_finds at hf ⊢
    rcases hslot : tbl[h]? with _ | slot
    · rw [hslot] at hf; simp at hf
    · cases slot with
      | none => rw [hslot] at hf; simp at hf
      | some x =>
        rw [hslot] at hf
        have hne : s ≠ h := by
          intro heq; subst heq; rw [hs] at hslot; simp at hslot
        rw [List.getElem?_set_ne hne, hslot]
        simp only at hf ⊢
        split
        · rfl
        · next hx => rw [if_neg hx] at hf; exact ih _ hf

theorem probe_finds_inserted (tbl : Index) (mask : Nat) (d : frame_descr) :
    ∀ (fuel h s : Nat), insert_probe tbl mask fuel h = some s →
      probe_finds (tbl.set s (some d)) mask d fuel h = true := by
  intro fuel
  induction fuel with
  | zero => intro h s hs; simp [insert_probe] at hs
  | succ f ih =>
    intro h s hs
    have hsempty := insert_probe_empty tbl mask _ _ _ hs
    unfold insert_probe at hs
    unfold probe_finds
    rcases hslot : tbl[h]? with _ | slot
    · rw [hslot] at hs; simp at hs
    · cases slot with
      | none =>
        rw [hslot] at hs; simp at hs; subst hs
        have hlt : h < tbl.length := (List.getElem?_eq_some.1 hslot).1
        rw [List.getElem?_set_self hlt]
        simp
      | some x =>
        rw [hslot] at hs
        simp only at hs
        have hne : s ≠ h := by
          intro heq; subst heq; rw [hsempty] at hslot; simp at hslot
        rw [List.getElem?_set_ne hne, hslot]
        simp only
        split
        · rfl
        · exact ih _ _ hs

theorem Hash_retaddr_le (hash : Nat → Nat) (mask a : Nat) : Hash_retaddr hash mask a ≤ mask := by
  unfold Hash_retaddr
  have := Nat.mod_lt (hash a) (show 0 < mask + 1 by omega)
  omega

theorem occupied_set_some (tbl : Index) (s : Nat) (d : frame_descr)
    (hs : tbl[s]? = some none) : occupied (tbl.set s (some d)) = occupied tbl + 1 := by
  obtain ⟨hlt, hget⟩ := List.getElem?_eq_some.1 hs
  unfold occupied
  rw [List.countP_set _ _ _ _ hlt, hget]
  simp

theorem insert_descr_spec (hash : Nat → Nat) {tbl : Index} {mask p : Nat}
    (hlen : tbl.length = mask + 1) (hp : mask + 1 = 2 ^ p) (d : frame_descr)
    (hocc : occupied tbl < tbl.length) :
    ∃ tbl1, insert_descr hash mask tbl d = some tbl1 ∧ tbl1.length = tbl.length ∧
      occupied tbl1 = occupied tbl + 1 ∧
      (∀ e fuel h, probe_finds tbl mask e fuel h = true →
        probe_finds tbl1 mask e fuel h = true) ∧
      probe_finds tbl1 mask d tbl.length (Hash_retaddr hash mask d.retaddr) = true := by
  obtain ⟨E, hE, hempty⟩ := exists_empty_slot tbl hocc
  have hh := Hash_retaddr_le hash mask d.retaddr
  have hr := rank_lt (n := mask + 1) (E := E) (x := Hash_retaddr hash mask d.retaddr)
    (by omega) (by omega)
  obtain ⟨s, hs⟩ := insert_probe_total hlen hp (by omega) hempty tbl.length
    (Hash_retaddr hash mask d.retaddr) hh (by omega)
  have hsempty := insert_probe_empty tbl mask _ _ _ hs
  refine ⟨tbl.set s (some d), ?_, ?_, ?_, ?_, ?_⟩
  · unfold insert_descr; rw [hs]
  · simp
  · exact occupied_set_some tbl s d hsempty
  · intro e fuel h hf
    exact probe_finds_set_empty tbl mask e d s hsempty fuel h hf
  · exact probe_finds_inserted tbl mask d _ _ _ hs

theorem fill_table_spec (hash : Nat → Nat) {mask p : Nat} (hp : mask + 1 = 2 ^ p) :
    ∀ (ds : List frame_descr) (tbl : Index), tbl.length = mask + 1 →
      occupied tbl + ds.length < tbl.length →
      ∃ tbl1, fill_table hash mask ds tbl = some tbl1 ∧ tbl1.length = tbl.length ∧
        occupied tbl1 = occupied tbl + ds.length ∧
        (∀ e fuel h, probe_finds tbl mask e fuel h = true →
          probe_finds tbl1 mask e fuel h = true) ∧
        (∀ d ∈ ds, probe_finds tbl1 mask d tbl.length
          (Hash_retaddr hash mask d.retaddr) = true) := by
  intro ds
  induction ds with
  | nil =>
    intro tbl _ _
    exact ⟨tbl, rfl, rfl, by simp, fun e fuel h hf => hf, by simp⟩
  | cons d ds ih =>
    intro tbl hlen hocc
    simp only [List.length_cons] at hocc
    obtain ⟨t1, h1, hl1, ho1, hk1, hd1⟩ := insert_descr_spec hash hlen hp d (by omega)
    obtain ⟨t2, h2, hl2, ho2, hk2, hd2⟩ := ih t1 (by omega) (by omega)
    refine ⟨t2, ?_, by omega, ?_, ?_, ?_⟩
    · unfold fill_table; rw [h1]; exact h2
    · simp only [List.length_cons]; omega
    · intro e fuel h hf; exact hk2 _ _ _ (hk1 _ _ _ hf)
    · intro e he
      rcases List.mem_cons.1 he with rfl | hmem
      · exact hk2 _ _ _ hd1
      · rw [← hl1]; exact hd2 e hmem

theorem fill_hashtable_spec (hash : Nat → Nat) {mask p : Nat} (hp : mask + 1 = 2 ^ p) :
    ∀ (ts : List frametable) (tbl : Index), tbl.length = mask + 1 →
      occupied tbl + count_descriptors ts < tbl.length →
      ∃ tbl1, fill_hashtable hash mask ts tbl = some tbl1 ∧ tbl1.length = tbl.length ∧
        occupied tbl1 = occupied tbl + count_descriptors ts ∧
        (∀ e fuel h, probe_finds tbl mask e fuel h = true →
          probe_finds tbl1 mask e fuel h = true) ∧
        (∀ t ∈ ts, ∀ d ∈ t.descrs, probe_finds tbl1 mask d tbl.length
          (Hash_retaddr hash mask d.retaddr) = true) := by
  intro ts
  induction ts with
  | nil =>
    intro tbl _ _
    exact ⟨tbl, rfl, rfl, by simp [count_descriptors], fun e fuel h hf => hf, by simp⟩
  | cons t ts ih =>
    intro tbl hlen hocc
    simp only [count_descriptors] at hocc
    obtain ⟨t1, h1, hl1, ho1, hk1, hd1⟩ := fill_table_spec hash hp t.descrs tbl hlen (by omega)
    obtain ⟨t2, h2, hl2, ho2, hk2, hd2⟩ := ih t1 (by omega) (by omega)
    refine ⟨t2, ?_, by omega, ?_, ?_, ?_⟩
    · unfold fill_hashtable; rw [h1]; exact h2
    · simp only [count_descriptors]; omega
    · intro e fuel h hf; exact hk2 _ _ _ (hk1 _ _ _ hf)
    · intro u hu d hd
      rcases List.mem_cons.1 hu with rfl | hmem
      · exact hk2 _ _ _ (hd1 d hd)
      · rw [← hl1]; exact hd2 u hmem d hd

theorem fill_hashtable_nothing (hash : Nat → Nat) (mask : Nat) :
    ∀ (ts : List frametable) (tbl : Index), count_descriptors ts = 0 →
      fill_hashtable hash mask ts tbl = some tbl := by
  intro ts
  induction ts with
  | nil => intro tbl _; rfl
  | cons t ts ih =>
    intro tbl h
    simp only [count_descriptors] at h
    have h1 : t.descrs = [] := List.length_eq_zero.1 (by omega)
    unfold fill_hashtable
    rw [h1]
    simp only [fill_table]
    exact ih tbl (by omega)

theorem grow_tblsize_total (n : Nat) :
    ∀ (fuel t : Nat), 0 < t → 0 < fuel → 2 * n < t + fuel →
      ∃ r, grow_tblsize n fuel t = some r := by
  intro fuel
  induction fuel with
  | zero =>
    intro t _ h0 _
    exact absurd h0 (by omega)
  | succ f ih =>
    intro t ht _ h
    unfold grow_tblsize
    split
    · exact ih (t * 2) (by omega) (by omega) (by omega)
    · exact ⟨t, rfl⟩

theorem grow_tblsize_spec (n : Nat) :
    ∀ (fuel t r : Nat), grow_tblsize n fuel t = some r →
      ∃ k, r = t * 2 ^ k ∧ 2 * n ≤ r ∧ ∀ j, j < k → t * 2 ^ j < 2 * n := by
  intro fuel
  induction fuel with
  | zero => intro t r h; simp [grow_tblsize] at h
  | succ f ih =>
    intro t r h
    unfold grow_tblsize at h
    split at h
    · next hlt =>
      obtain ⟨k, hk, hge, hmin⟩ := ih _ _ h
      refine ⟨k + 1, ?_, hge, ?_⟩
      · rw [hk, pow_succ]; ring
      · intro j hj
        cases j with
        | zero => simpa using hlt
        | succ j =>
          have := hmin j (by omega)
          rw [pow_succ]
          calc t * (2 ^ j * 2) = t * 2 * 2 ^ j := by ring
            _ < 2 * n := this
    · next hge =>
      simp at h; subst h
      exact ⟨0, by simp, by omega, fun j hj => absurd hj (by omega)⟩

theorem reachable_iff (hash : Nat → Nat) (s : State) (d : frame_descr) :
    s.reachable hash d = true ↔
      probe_finds s.caml_frame_descriptors s.caml_frame_descriptors_mask d
        (s.caml_frame_descriptors_mask + 1)
        (Hash_retaddr hash s.caml_frame_descriptors_mask d.retaddr) = true := by
  unfold State.reachable State.capacity
  have := Hash_retaddr_le hash s.caml_frame_descriptors_mask d.retaddr
  simp only [Bool.and_eq_true, decide_eq_true_eq]
  constructor
  · intro h; exact h.2
  · intro h; exact ⟨by omega, h⟩

theorem occupied_replicate (n : Nat) : occupied (List.replicate n none) = 0 := by
  unfold occupied
  rw [List.countP_eq_zero]
  intro a ha
  rw [List.eq_of_mem_replicate ha]
  simp

theorem count_descriptors_append (l1 l2 : List frametable) :
    count_descriptors (l1 ++ l2) = count_descriptors l1 + count_descriptors l2 := by
  induction l1 with
  | nil => simp [count_descriptors]
  | cons t tl ih =>
    rw [List.cons_append]
    simp only [count_descriptors]
    rw [ih]; omega

theorem init_rebuild (hash : Nat → Nat) (s : State) (ts : List frametable) (hne : ts ≠ [])
    (hbranch : s.caml_frame_descriptors_mask + 1 < (s.num_descr + count_descriptors ts) * 2) :
    ∃ k tbl, init_frame_descriptors hash s ts =
        some { caml_frame_descriptors := tbl, caml_frame_descriptors_mask := 4 * 2 ^ k - 1,
               frametables := ts ++ s.frametables,
               num_descr := count_descriptors (ts ++ s.frametables) } ∧
      2 * count_descriptors (ts ++ s.frametables) ≤ 4 * 2 ^ k ∧
      (∀ j, j < k → 4 * 2 ^ j < 2 * count_descriptors (ts ++ s.frametables)) ∧
      tbl.length = 4 * 2 ^ k ∧
      occupied tbl = count_descriptors (ts ++ s.frametables) ∧
      (∀ t ∈ ts ++ s.frametables, ∀ d ∈ t.descrs,
        probe_finds tbl (4 * 2 ^ k - 1) d (4 * 2 ^ k)
          (Hash_retaddr hash (4 * 2 ^ k - 1) d.retaddr) = true) := by
  obtain ⟨r, hr⟩ := grow_tblsize_total (count_descriptors (ts ++ s.frametables))
    (2 * count_descriptors (ts ++ s.frametables) + 1) 4 (by omega) (by omega) (by omega)
  obtain ⟨k, hk, hge, hmin⟩ := grow_tblsize_spec _ _ _ _ hr
  subst hk
  have hpos : 0 < 2 ^ k := Nat.two_pow_pos k
  have hp : (4 * 2 ^ k - 1) + 1 = 2 ^ (k + 2) := by
    rw [pow_add]; omega
  have hlen : (List.replicate (4 * 2 ^ k) (none : Option frame_descr)).length
      = (4 * 2 ^ k - 1) + 1 := by
    rw [List.length_replicate]; omega
  obtain ⟨tbl, hfill, hl, ho, _, hreach⟩ := fill_hashtable_spec hash hp (ts ++ s.frametables)
    (List.replicate (4 * 2 ^ k) none) hlen
    (by rw [occupied_replicate, List.length_replicate]; omega)
  rw [List.length_replicate] at hl hreach
  rw [occupied_replicate] at ho
  refine ⟨k, tbl, ?_, hge, hmin, hl, by omega, hreach⟩
  unfold init_frame_descriptors
  cases ts with
  | nil => exact absurd rfl hne
  | cons t tl =>
    simp only
    rw [if_pos hbranch, hr]
    simp only
    rw [hfill]

theorem init_rebuild_inv (hash : Nat → Nat) (s : State) (ts : List frametable) (hne : ts ≠ [])
    (hbranch : s.caml_frame_descriptors_mask + 1 < (s.num_descr + count_descriptors ts) * 2) :
    ∃ s1, init_frame_descriptors hash s ts = some s1 ∧ IndexInv s1 ∧
      RegistryReachable hash s1 ∧ s1.frametables = ts ++ s.frametables := by
  obtain ⟨k, tbl, h, hge, _, hl, ho, hreach⟩ := init_rebuild hash s ts hne hbranch
  have hpos : 0 < 2 ^ k := Nat.two_pow_pos k
  refine ⟨_, h, ⟨⟨k + 2, ?_⟩, Or.inl ?_, ?_, ?_⟩, ?_, rfl⟩
  · simp only; rw [pow_add]; omega
  · simp only; omega
  · simp only; omega
  · simp only; omega
  · intro t ht d hd
    rw [reachable_iff]
    simp only at ht ⊢
    have : 4 * 2 ^ k - 1 + 1 = 4 * 2 ^ k := by omega
    rw [this]
    exact hreach t ht d hd

theorem init_inplace_inv (hash : Nat → Nat) (s : State) (ts : List frametable) (hne : ts ≠ [])
    (hinv : IndexInv s) (hreg : RegistryReachable hash s)
    (hbranch : ¬ s.caml_frame_descriptors_mask + 1 < (s.num_descr + count_descriptors ts) * 2) :
    ∃ s1, init_frame_descriptors hash s ts = some s1 ∧ IndexInv s1 ∧
      RegistryReachable hash s1 ∧ s1.frametables = ts ++ s.frametables ∧
      s1.caml_frame_descriptors_mask = s.caml_frame_descriptors_mask := by
  obtain ⟨⟨p, hp⟩, hlen, hocc, hcap⟩ := hinv
  have hunfold : ∀ tbl, fill_hashtable hash s.caml_frame_descriptors_mask ts
      s.caml_frame_descriptors = some tbl →
      init_frame_descriptors hash s ts =
        some { caml_frame_descriptors := tbl,
               caml_frame_descriptors_mask := s.caml_frame_descriptors_mask,
               frametables := ts ++ s.frametables,
               num_descr := s.num_descr + count_descriptors ts } := by
    intro tbl hfill
    unfold init_frame_descriptors
    cases ts with
    | nil => exact absurd rfl hne
    | cons t tl =>
      simp only
      rw [if_neg hbranch, hfill]
  rcases hlen with hlen | ⟨hnil, hmask, hzero⟩
  · obtain ⟨tbl, hfill, hl, ho, hkeep, hreach⟩ := fill_hashtable_spec hash hp ts
      s.caml_frame_descriptors hlen (by omega)
    refine ⟨_, hunfold tbl hfill, ⟨⟨p, hp⟩, Or.inl (by simp only; omega), by simp only; omega,
      by simp only; omega⟩, ?_, rfl, rfl⟩
    intro t ht d hd
    rw [reachable_iff]
    simp only at ht ⊢
    rcases List.mem_append.1 ht with hnew | hold
    · rw [← hlen]; exact hreach t hnew d hd
    · exact hkeep _ _ _ ((reachable_iff hash s d).1 (hreg t hold d hd))
  · have hcount : count_descriptors ts = 0 := by omega
    have hfill := fill_hashtable_nothing hash s.caml_frame_descriptors_mask ts
      s.caml_frame_descriptors hcount
    refine ⟨_, hunfold _ hfill, ⟨⟨p, hp⟩, Or.inr ⟨hnil, hmask, by simp only; omega⟩, by simp only; omega,
      by simp only; omega⟩, ?_, rfl, rfl⟩
    intro t ht d hd
    simp only at ht
    rcases List.mem_append.1 ht with hnew | hold
    · exfalso
      have hsub : ∀ (l : List frametable), count_descriptors l = 0 → t ∈ l → t.descrs = [] := by
        intro l
        induction l with
        | nil => intro _ hm; simp at hm
        | cons u us ih =>
          intro hc hm
          simp only [count_descriptors] at hc
          rcases List.mem_cons.1 hm with rfl | hm1
          · exact List.length_eq_zero.1 (by omega)
          · exact ih (by omega) hm1
      rw [hsub ts hcount hnew] at hd
      simp at hd
    · have := (reachable_iff hash s d).1 (hreg t hold d hd)
      rw [reachable_iff]
      exact this

theorem init_inv (hash : Nat → Nat) (s : State) (ts : List frametable) (hne : ts ≠ [])
    (hinv : IndexInv s) (hreg : RegistryReachable hash s) :
    ∃ s1, init_frame_descriptors hash s ts = some s1 ∧ IndexInv s1 ∧
      RegistryReachable hash s1 ∧ s1.frametables = ts ++ s.frametables := by
  by_cases hbranch : s.caml_frame_descriptors_mask + 1 < (s.num_descr + count_descriptors ts) * 2
  · exact init_rebuild_inv hash s ts hne hbranch
  · obtain ⟨s1, h1, h2, h3, h4, _⟩ := init_inplace_inv hash s ts hne hinv hreg hbranch
    exact ⟨s1, h1, h2, h3, h4⟩

theorem registers_step (hash : Nat → Nat) (s : State) (op : Op) (hop : op.registers = true)
    (hinv : IndexInv s) (hreg : RegistryReachable hash s) :
    ∃ s1, op.apply hash s = some s1 ∧ IndexInv s1 ∧ RegistryReachable hash s1 ∧
      s1.frametables = live_tables s.frametables [op] := by
  cases op with
  | init ts =>
    have hne : ts.reverse ≠ [] := by
      intro h
      have : ts = [] := by simpa using h
      subst this
      simp [Op.registers] at hop
    exact init_inv hash s ts.reverse hne hinv hreg
  | register t => exact init_inv hash s [t] (by simp) hinv hreg
  | unregister t => simp [Op.registers] at hop

theorem live_tables_cons (live : List frametable) (op : Op) (ops : List Op) :
    live_tables live (op :: ops) = live_tables (live_tables live [op]) ops := by
  cases op <;> rfl

theorem registers_run (hash : Nat → Nat) :
    ∀ (ops : List Op) (s : State), (∀ op ∈ ops, op.registers = true) → IndexInv s →
      RegistryReachable hash s →
      ∃ s1, run hash s ops = some s1 ∧ IndexInv s1 ∧ RegistryReachable hash s1 ∧
        s1.frametables = live_tables s.frametables ops := by
  intro ops
  induction ops with
  | nil => intro s _ hinv hreg; exact ⟨s, rfl, hinv, hreg, rfl⟩
  | cons op ops ih =>
    intro s hops hinv hreg
    obtain ⟨s1, h1, hinv1, hreg1, hft1⟩ :=
      registers_step hash s op (hops op (List.mem_cons_self _ _)) hinv hreg
    obtain ⟨s2, h2, hinv2, hreg2, hft2⟩ :=
      ih s1 (fun o ho => hops o (List.mem_cons_of_mem _ ho)) hinv1 hreg1
    refine ⟨s2, ?_, hinv2, hreg2, ?_⟩
    · unfold run; rw [h1]; exact h2
    · rw [hft2, hft1, ← live_tables_cons]

theorem initial_inv : IndexInv State.initial :=
  ⟨⟨0, rfl⟩, Or.inr ⟨rfl, rfl, rfl⟩, by decide, by decide⟩

theorem initial_reachable (hash : Nat → Nat) : RegistryReachable hash State.initial := by
  intro t ht
  simp [State.initial] at ht

/-- C1.  Lookup completeness after registration: every sequence of registration calls
(`caml_init_frame_descriptors` on a non-empty array, `caml_register_frametable`) run from
the initial state returns, and in the state reached every descriptor `d` of every
registered table has its hash below the capacity and is met by the linear probe from
`Hash_retaddr d.retaddr` before any empty slot. -/
theorem lookup_complete_after_registration (hash : Nat → Nat) (ops : List Op)
    (hops : ∀ op ∈ ops, op.registers = true) :
    ∃ s, run hash State.initial ops = some s ∧
      ∀ t ∈ live_tables [] ops, ∀ d ∈ t.descrs, s.reachable hash d = true := by
  obtain ⟨s, hrun, _, hreg, hft⟩ :=
    registers_run hash ops State.initial hops initial_inv (initial_reachable hash)
  refine ⟨s, hrun, ?_⟩
  intro t ht d hd
  have hft1 : s.frametables = live_tables [] ops := hft
  rw [← hft1] at ht
  exact hreg t ht d hd

theorem lookup_complete_after_registration_witness :
    (∀ op ∈ [Op.init [⟨0, [⟨8, 8, 0, 0⟩, ⟨16, 72, 0, 0⟩]⟩, ⟨100, [⟨108, 136, 0, 0⟩]⟩],
        Op.register ⟨200, [⟨208, 16, 0, 0⟩]⟩], op.registers = true) ∧
    ∃ s, run shift_hash State.initial
        [Op.init [⟨0, [⟨8, 8, 0, 0⟩, ⟨16, 72, 0, 0⟩]⟩, ⟨100, [⟨108, 136, 0, 0⟩]⟩],
          Op.register ⟨200, [⟨208, 16, 0, 0⟩]⟩] = some s ∧
      ∀ t ∈ live_tables []
          [Op.init [⟨0, [⟨8, 8, 0, 0⟩, ⟨16, 72, 0, 0⟩]⟩, ⟨100, [⟨108, 136, 0, 0⟩]⟩],
            Op.register ⟨200, [⟨208, 16, 0, 0⟩]⟩],
        ∀ d ∈ t.descrs, s.reachable shift_hash d = true :=
  ⟨by decide, lookup_complete_after_registration shift_hash _ (by decide)⟩


/-! ## Backward-shift deletion -/

theorem stays_iff_rank {n E j r i : Nat} (hE : E < n) (hj : j < n) (hr : r < n) (hi : i < n)
    (hji : rank n E j < rank n E i) :
    stays j r i = true ↔ rank n E j < rank n E r ∧ rank n E r ≤ rank n E i := by
  unfold stays
  simp only [Bool.or_eq_true, Bool.and_eq_true, decide_eq_true_eq]
  unfold rank at hji ⊢
  split_ifs at hji ⊢ <;> omega

theorem find_entry_total {tbl : Index} {mask p S : Nat} {d : frame_descr}
    (hlen : tbl.length = mask + 1) (hp : mask + 1 = 2 ^ p) (hS : S ≤ mask)
    (hd : tbl[S]? = some (some d)) :
    ∀ (fuel i : Nat), i ≤ mask → mask - rank (mask + 1) S i < fuel →
      ∃ k, find_entry tbl mask d fuel i = some k ∧ k ≤ mask ∧ tbl[k]? = some (some d) := by
  intro fuel
  induction fuel with
  | zero => intro i _ hf; omega
  | succ f ih =>
    intro i hi hf
    unfold find_entry
    rcases hslot : tbl[i]? with _ | slot
    · rw [List.getElem?_eq_none_iff] at hslot; omega
    · simp only
      by_cases hsd : slot = some d
      · rw [if_pos hsd]
        exact ⟨i, rfl, hi, by rw [hslot, hsd]⟩
      · rw [if_neg hsd]
        have hne : i ≠ S := by
          intro heq; subst heq; rw [hd] at hslot
          exact hsd (Option.some.inj hslot).symm
        have hr := rank_next hp hS hi hne
        have hrl := rank_lt (n := mask + 1) (E := S) (x := (i + 1) &&& mask) (by omega)
          (by have := land_mask_le hp i hi; omega)
        exact ih _ (land_mask_le hp i hi) (by omega)

theorem probe_finds_run {tbl : Index} {mask p E : Nat} (e : frame_descr)
    (hp : mask + 1 = 2 ^ p) (hE : E ≤ mask) (hempty : tbl[E]? = some none) :
    ∀ (fuel h : Nat), h ≤ mask → probe_finds tbl mask e fuel h = true →
      ∃ s, s ≤ mask ∧ tbl[s]? = some (some e) ∧ RunTo tbl mask E h s := by
  intro fuel
  induction fuel with
  | zero => intro h _ hf; simp [probe_finds] at hf
  | succ f ih =>
    intro h hh hf
    unfold probe_finds at hf
    rcases hslot : tbl[h]? with _ | slot
    · rw [hslot] at hf; simp at hf
    · cases slot with
      | none => rw [hslot] at hf; simp at hf
      | some x =>
        rw [hslot] at hf
        simp only at hf
        by_cases hx : x = e
        · subst hx
          exact ⟨h, hh, hslot, le_refl _, fun y _ h1 h2 => absurd h2 (by omega)⟩
        · rw [if_neg hx] at hf
          have hne : h ≠ E := by
            intro heq; subst heq; rw [hempty] at hslot; simp at hslot
          have hr := rank_next hp hE hh hne
          obtain ⟨s, hs, hse, hle, hrun⟩ := ih _ (land_mask_le hp h hh) hf
          refine ⟨s, hs, hse, by omega, ?_⟩
          intro y hy h1 h2
          by_cases hyh : rank (mask + 1) E y = rank (mask + 1) E h
          · have : y = h := rank_inj (by omega) (by omega) (by omega) hyh
            subst this
            exact ⟨x, hslot⟩
          · exact hrun y hy (by omega) h2

theorem run_probe_finds {tbl : Index} {mask p E : Nat} (e : frame_descr)
    (hp : mask + 1 = 2 ^ p) (hE : E ≤ mask)
    (hempty : tbl[E]? = some none) {s : Nat} (hs : s ≤ mask) (hse : tbl[s]? = some (some e)) :
    ∀ (fuel h : Nat), h ≤ mask → RunTo tbl mask E h s →
      rank (mask + 1) E s - rank (mask + 1) E h < fuel →
      probe_finds tbl mask e fuel h = true := by
  intro fuel
  induction fuel with
  | zero => intro h _ _ hf; omega
  | succ f ih =>
    intro h hh hrun hf
    obtain ⟨hle, hocc⟩ := hrun
    unfold probe_finds
    by_cases hhs : h = s
    · subst hhs; rw [hse]; simp
    · have hlt : rank (mask + 1) E h < rank (mask + 1) E s := by
        rcases Nat.lt_or_ge (rank (mask + 1) E h) (rank (mask + 1) E s) with h1 | h1
        · exact h1
        · have heq : rank (mask + 1) E h = rank (mask + 1) E s := by omega
          exact absurd (rank_inj (by omega) (by omega) (by omega) heq) hhs
      obtain ⟨y, hy⟩ := hocc h hh (le_refl _) hlt
      rw [hy]
      simp only
      split
      · rfl
      · have hne : h ≠ E := by
          intro heq; subst heq; rw [hempty] at hy; simp at hy
        have hr := rank_next hp hE hh hne
        refine ih _ (land_mask_le hp h hh) ⟨by omega, ?_⟩ (by omega)
        intro x hx h1 h2
        exact hocc x hx (by omega) h2

theorem shift_entries_spec (hash : Nat → Nat) {tbl0 : Index} {mask p E : Nat}
    (hp : mask + 1 = 2 ^ p) (hE : E ≤ mask) (hempty0 : tbl0[E]? = some none) :
    ∀ (fuel : Nat) (tbl : Index) (j i : Nat), tbl.length = mask + 1 → j ≤ mask → i ≤ mask →
      rank (mask + 1) E j ≤ rank (mask + 1) E i →
      tbl[j]? = some none →
      (∀ x, x ≤ mask → x ≠ j → (tbl[x]? = some none ↔ tbl0[x]? = some none)) →
      tbl0[j]? ≠ some none → tbl0[i]? ≠ some none →
      mask - rank (mask + 1) E i < fuel →
      ∃ tbl1, shift_entries hash mask fuel tbl j i = some tbl1 ∧ tbl1.length = mask + 1 ∧
        tbl1[E]? = some none ∧
        ∀ e, Tracked hash tbl0 tbl mask E j i e →
          ∃ s, s ≤ mask ∧ tbl1[s]? = some (some e) ∧
            RunTo tbl1 mask E (Hash_retaddr hash mask e.retaddr) s := by
  intro fuel
  induction fuel with
  | zero => intro tbl j i _ _ _ _ _ _ _ _ hf; omega
  | succ f ih =>
    intro tbl j i hlen hj hi hji hgap hocc h0j h0i hf
    have hiE : i ≠ E := by intro h; subst h; exact h0i hempty0
    have hjE : j ≠ E := by intro h; subst h; exact h0j hempty0
    have hr := rank_next hp hE hi hiE
    have hi1 := land_mask_le hp i hi
    have hrl := rank_lt (n := mask + 1) (E := E) (x := (i + 1) &&& mask) (by omega) (by omega)
    have hi1j : (i + 1) &&& mask ≠ j := by
      intro h; rw [h] at hr; omega
    unfold shift_entries
    simp only
    rcases hslot : tbl[(i + 1) &&& mask]? with _ | slot
    · rw [List.getElem?_eq_none_iff] at hslot; omega
    · cases slot with
      | none =>
        simp only
        refine ⟨tbl, rfl, hlen, (hocc E hE (Ne.symm hjE)).2 hempty0, ?_⟩
        rintro e ⟨s, hs, hse, ⟨hle, hrun⟩, hcond⟩
        refine ⟨s, hs, hse, hle, ?_⟩
        intro x hx h1 h2
        obtain ⟨y, hy⟩ := hrun x hx h1 h2
        by_cases hxj : x = j
        · exfalso
          subst hxj
          by_cases hsi : rank (mask + 1) E s ≤ rank (mask + 1) E i
          · exact hcond hsi ⟨h1, h2⟩
          · have hsne : s ≠ (i + 1) &&& mask := by
              intro h; rw [h, hslot] at hse; simp at hse
            have hrne : rank (mask + 1) E s ≠ rank (mask + 1) E ((i + 1) &&& mask) :=
              fun h => hsne (rank_inj (by omega) (by omega) (by omega) h)
            obtain ⟨z, hz⟩ := hrun ((i + 1) &&& mask) hi1 (by omega) (by omega)
            have := (hocc _ hi1 hi1j).1 hslot
            rw [this] at hz; simp at hz
        · rcases hx2 : tbl[x]? with _ | sl
          · rw [List.getElem?_eq_none_iff] at hx2; omega
          · cases sl with
            | none =>
              have := (hocc x hx hxj).1 hx2
              rw [this] at hy; simp at hy
            | some z => exact ⟨z, rfl⟩
      | some y =>
        simp only
        have hji1 : rank (mask + 1) E j < rank (mask + 1) E ((i + 1) &&& mask) := by omega
        have hst := stays_iff_rank (n := mask + 1) (E := E) (j := j)
          (r := Hash_retaddr hash mask y.retaddr) (i := (i + 1) &&& mask) (by omega) (by omega)
          (by have := Hash_retaddr_le hash mask y.retaddr; omega) (by omega) hji1
        have h0i1 : tbl0[(i + 1) &&& mask]? ≠ some none := by
          intro h
          have := (hocc _ hi1 hi1j).2 h
          rw [hslot] at this; simp at this
        by_cases hs : stays j (Hash_retaddr hash mask y.retaddr) ((i + 1) &&& mask) = true
        · rw [if_pos hs]
          obtain ⟨tbl1, h1, hl1, hE1, htr⟩ :=
            ih tbl j _ hlen hj hi1 (by omega) hgap hocc h0j h0i1 (by omega)
          refine ⟨tbl1, h1, hl1, hE1, ?_⟩
          intro e htrk
          apply htr e
          obtain ⟨s, hs1, hse, hrun, hcond⟩ := htrk
          refine ⟨s, hs1, hse, hrun, ?_⟩
          intro hsi1 hbad
          by_cases hsi : rank (mask + 1) E s ≤ rank (mask + 1) E i
          · exact hcond hsi hbad
          · have hreq : rank (mask + 1) E s = rank (mask + 1) E ((i + 1) &&& mask) := by omega
            have hseq : s = (i + 1) &&& mask := rank_inj (by omega) (by omega) (by omega) hreq
            rw [hseq, hslot] at hse
            have hye : y = e := Option.some.inj (Option.some.inj hse)
            subst hye
            have := (hst.1 hs).1
            omega
        · rw [if_neg hs]
          have hnst := fun h => hs (hst.2 h)
          have hgap2 : ((tbl.set j (some y)).set ((i + 1) &&& mask) none)[(i + 1) &&& mask]?
              = some none := by
            rw [List.getElem?_set_self (by rw [List.length_set]; omega)]
          have hocc2 : ∀ x, x ≤ mask → x ≠ (i + 1) &&& mask →
              (((tbl.set j (some y)).set ((i + 1) &&& mask) none)[x]? = some none ↔
                tbl0[x]? = some none) := by
            intro x hx hxi
            rw [List.getElem?_set_ne (Ne.symm hxi)]
            by_cases hxj : x = j
            · subst hxj
              rw [List.getElem?_set_self (by omega)]
              constructor
              · intro h; simp at h
              · intro h; exact absurd h h0j
            · rw [List.getElem?_set_ne (Ne.symm hxj)]
              exact hocc x hx hxj
          obtain ⟨tbl1, h1, hl1, hE1, htr⟩ :=
            ih ((tbl.set j (some y)).set ((i + 1) &&& mask) none) _ _
              (by rw [List.length_set, List.length_set]; exact hlen) hi1 hi1 (le_refl _)
              hgap2 hocc2 h0i1 h0i1 (by omega)
          refine ⟨tbl1, h1, hl1, hE1, ?_⟩
          intro e htrk
          apply htr e
          obtain ⟨s, hs1, hse, hrun, hcond⟩ := htrk
          by_cases hsi1 : s = (i + 1) &&& mask
          · rw [hsi1, hslot] at hse
            have hye : y = e := Option.some.inj (Option.some.inj hse)
            subst hye
            rw [hsi1] at hrun
            refine ⟨j, hj, ?_, ⟨?_, ?_⟩, ?_⟩
            · rw [List.getElem?_set_ne hi1j, List.getElem?_set_self (by omega)]
            · have := hrun.1
              by_contra hcon
              exact hnst ⟨by omega, this⟩
            · intro x hx h1 h2
              exact hrun.2 x hx h1 (by omega)
            · intro _ hbad; omega
          · have hsj : s ≠ j := by
              intro h; rw [h, hgap] at hse; simp at hse
            refine ⟨s, hs1, ?_, hrun, ?_⟩
            · rw [List.getElem?_set_ne (Ne.symm hsi1), List.getElem?_set_ne (Ne.symm hsj)]
              exact hse
            · intro hle hbad; omega

theorem mem_scan_index (tbl : Index) (e : frame_descr) :
    e ∈ scan_index tbl ↔ ∃ i : Nat, tbl[i]? = some (some e) := by
  unfold scan_index
  rw [List.mem_filterMap]
  constructor
  · rintro ⟨a, ha, hae⟩
    simp only [id] at hae
    subst hae
    exact List.mem_iff_getElem?.1 ha
  · rintro ⟨i, hi⟩
    exact ⟨some e, List.mem_iff_getElem?.2 ⟨i, hi⟩, rfl⟩

theorem getElem?_le_of_some {tbl : Index} {mask i : Nat} {v : Option frame_descr}
    (hlen : tbl.length = mask + 1) (h : tbl[i]? = some v) : i ≤ mask := by
  have := (List.getElem?_eq_some.1 h).1
  omega

theorem remove_entry_spec (hash : Nat → Nat) {tbl : Index} {mask p E S : Nat} {d : frame_descr}
    (hlen : tbl.length = mask + 1) (hp : mask + 1 = 2 ^ p)
    (hempty : tbl[E]? = some none) (hd : tbl[S]? = some (some d)) :
    ∃ tbl1, remove_entry hash mask tbl d = some tbl1 ∧ tbl1.length = mask + 1 ∧
      ∀ e, e ≠ d →
        probe_finds tbl mask e (mask + 1) (Hash_retaddr hash mask e.retaddr) = true →
        (∃ s : Nat, tbl1[s]? = some (some e)) ∧
          probe_finds tbl1 mask e (mask + 1) (Hash_retaddr hash mask e.retaddr) = true := by
  have hE := getElem?_le_of_some hlen hempty
  have hS := getElem?_le_of_some hlen hd
  have hhd := Hash_retaddr_le hash mask d.retaddr
  have hrd := rank_lt (n := mask + 1) (E := S) (x := Hash_retaddr hash mask d.retaddr)
    (by omega) (by omega)
  obtain ⟨i0, hfind, hi0, hi0d⟩ := find_entry_total hlen hp hS hd tbl.length
    (Hash_retaddr hash mask d.retaddr) hhd (by omega)
  have hri0 := rank_lt (n := mask + 1) (E := E) (x := i0) (by omega) (by omega)
  obtain ⟨tbl1, hshift, hl1, hE1, htr⟩ := shift_entries_spec hash hp hE hempty tbl.length
    (tbl.set i0 none) i0 i0 (by rw [List.length_set]; exact hlen) hi0 hi0 (le_refl _)
    (by rw [List.getElem?_set_self (by omega)])
    (by intro x _ hx; rw [List.getElem?_set_ne (Ne.symm hx)])
    (by rw [hi0d]; simp) (by rw [hi0d]; simp) (by omega)
  refine ⟨tbl1, ?_, hl1, ?_⟩
  · unfold remove_entry; rw [hfind]; exact hshift
  · intro e hed hreach
    have hhe := Hash_retaddr_le hash mask e.retaddr
    obtain ⟨s, hs, hse, hrun⟩ := probe_finds_run e hp hE hempty _ _ hhe hreach
    have hsi0 : s ≠ i0 := by
      intro h; rw [h, hi0d] at hse
      exact hed (Option.some.inj (Option.some.inj hse)).symm
    obtain ⟨s1, hs1, hs1e, hrun1⟩ := htr e
      ⟨s, hs, by rw [List.getElem?_set_ne (Ne.symm hsi0)]; exact hse, hrun,
        fun hle hbad => by omega⟩
    refine ⟨⟨s1, hs1e⟩, ?_⟩
    have hrs1 := rank_lt (n := mask + 1) (E := E) (x := s1) (by omega) (by omega)
    exact run_probe_finds e hp hE hE1 hs1 hs1e _ _ hhe hrun1 (by omega)

/-- C2.  Backward-shift deletion preserves probe reachability: in an index whose capacity
is a power of two, that has an empty slot, contains `d`, and in which every stored
descriptor is reachable by linear probing from its own hash before any empty slot,
`remove_entry d` terminates and every other stored descriptor is still stored and still
reachable by probing from its own hash before any empty slot. -/
theorem remove_entry_preserves_reachability (hash : Nat → Nat) (s : State) (d : frame_descr)
    (hlen : s.caml_frame_descriptors.length = s.capacity) (hp : ∃ p, s.capacity = 2 ^ p)
    (hinv : ∀ e ∈ scan_index s.caml_frame_descriptors, s.reachable hash e = true)
    (hempty : none ∈ s.caml_frame_descriptors)
    (hd : d ∈ scan_index s.caml_frame_descriptors) :
    ∃ tbl1, remove_entry hash s.caml_frame_descriptors_mask s.caml_frame_descriptors d
        = some tbl1 ∧
      ∀ e ∈ scan_index s.caml_frame_descriptors, e ≠ d →
        e ∈ scan_index tbl1 ∧
          State.reachable hash { s with caml_frame_descriptors := tbl1 } e = true := by
  obtain ⟨p, hp⟩ := hp
  obtain ⟨E, hE⟩ := List.mem_iff_getElem?.1 hempty
  obtain ⟨S, hS⟩ := (mem_scan_index _ _).1 hd
  obtain ⟨tbl1, hrem, _, hkeep⟩ := remove_entry_spec hash hlen hp hE hS
  refine ⟨tbl1, hrem, ?_⟩
  intro e he hed
  have hr := (reachable_iff hash s e).1 (hinv e he)
  obtain ⟨hmem, hreach⟩ := hkeep e hed hr
  exact ⟨(mem_scan_index _ _).2 hmem, (reachable_iff hash _ e).2 hreach⟩

theorem remove_entry_preserves_reachability_witness :
    (∃ tbl1, remove_entry shift_hash 7
        [none, some ⟨8, 8, 0, 0⟩, some ⟨16, 72, 0, 0⟩, some ⟨24, 136, 0, 0⟩,
          none, none, none, none] ⟨16, 72, 0, 0⟩ = some tbl1 ∧
      ∀ e ∈ scan_index [none, some ⟨8, 8, 0, 0⟩, some ⟨16, 72, 0, 0⟩, some ⟨24, 136, 0, 0⟩,
          none, none, none, none], e ≠ ⟨16, 72, 0, 0⟩ →
        e ∈ scan_index tbl1 ∧
          State.reachable shift_hash
            { caml_frame_descriptors := tbl1, caml_frame_descriptors_mask := 7,
              frametables := [⟨0, [⟨8, 8, 0, 0⟩, ⟨16, 72, 0, 0⟩, ⟨24, 136, 0, 0⟩]⟩],
              num_descr := 3 } e = true) ∧
    remove_entry shift_hash 7
        [none, some ⟨8, 8, 0, 0⟩, some ⟨16, 72, 0, 0⟩, some ⟨24, 136, 0, 0⟩,
          none, none, none, none] ⟨16, 72, 0, 0⟩
      = some [none, some ⟨8, 8, 0, 0⟩, some ⟨24, 136, 0, 0⟩, none, none, none, none, none] :=
  ⟨remove_entry_preserves_reachability shift_hash
      { caml_frame_descriptors :=
          [none, some ⟨8, 8, 0, 0⟩, some ⟨16, 72, 0, 0⟩, some ⟨24, 136, 0, 0⟩,
            none, none, none, none],
        caml_frame_descriptors_mask := 7,
        frametables := [⟨0, [⟨8, 8, 0, 0⟩, ⟨16, 72, 0, 0⟩, ⟨24, 136, 0, 0⟩]⟩],
        num_descr := 3 }
      ⟨16, 72, 0, 0⟩ (by decide) ⟨3, by decide⟩ (by decide) (by decide) (by decide),
    by decide⟩

/-! ## The registry and the capacity under registration and unregistration -/

theorem unlink_after_eq_erase (t : frametable) (l : List frametable) :
    unlink_after t l = l.erase t := by
  induction l with
  | nil => rfl
  | cons u us ih =>
    unfold unlink_after
    by_cases h : u = t
    · subst h; simp
    · rw [if_neg h, ih, List.erase_cons_tail (by simpa using h)]

theorem unlink_frametable_cases (t : frametable) (l : List frametable) :
    unlink_frametable t l = l ∨ unlink_frametable t l = l.erase t := by
  cases l with
  | nil => left; rfl
  | cons u us =>
    simp only [unlink_frametable]
    by_cases h : u = t
    · left; rw [if_pos h]
    · right; rw [if_neg h, unlink_after_eq_erase, List.erase_cons_tail (by simpa using h)]

theorem count_descriptors_perm {l1 l2 : List frametable} (h : l1.Perm l2) :
    count_descriptors l1 = count_descriptors l2 := by
  induction h with
  | nil => rfl
  | cons x _ ih => simp only [count_descriptors, ih]
  | swap x y l => simp only [count_descriptors]; omega
  | trans _ _ ih1 ih2 => rw [ih1, ih2]

theorem count_descriptors_sublist {l1 l2 : List frametable} (h : l1.Sublist l2) :
    count_descriptors l1 ≤ count_descriptors l2 := by
  induction h with
  | slnil => exact le_refl _
  | cons x _ ih => simp only [count_descriptors]; omega
  | cons₂ x _ ih => simp only [count_descriptors]; omega

theorem count_descriptors_subperm {l1 l2 : List frametable} (h : l1.Subperm l2) :
    count_descriptors l1 ≤ count_descriptors l2 := by
  obtain ⟨l, hperm, hsub⟩ := h
  rw [← count_descriptors_perm hperm]
  exact count_descriptors_sublist hsub

/-- What `init_frame_descriptors` returns, by branch. -/
theorem init_frame_descriptors_cases (hash : Nat → Nat) (s s1 : State) (ts : List frametable)
    (h : init_frame_descriptors hash s ts = some s1) :
    ts ≠ [] ∧ s1.frametables = ts ++ s.frametables ∧
    ((s.caml_frame_descriptors_mask + 1 < (s.num_descr + count_descriptors ts) * 2 ∧
        s1.num_descr = count_descriptors (ts ++ s.frametables) ∧
        ∃ k, s1.caml_frame_descriptors_mask + 1 = 4 * 2 ^ k ∧
          2 * count_descriptors (ts ++ s.frametables) ≤ 4 * 2 ^ k ∧
          ∀ j, j < k → 4 * 2 ^ j < 2 * count_descriptors (ts ++ s.frametables)) ∨
      (¬ s.caml_frame_descriptors_mask + 1 < (s.num_descr + count_descriptors ts) * 2 ∧
        s1.num_descr = s.num_descr + count_descriptors ts ∧
        s1.caml_frame_descriptors_mask = s.caml_frame_descriptors_mask)) := by
  have hne : ts ≠ [] := by
    intro hnil; subst hnil; simp [init_frame_descriptors] at h
  refine ⟨hne, ?_⟩
  by_cases hbranch : s.caml_frame_descriptors_mask + 1 < (s.num_descr + count_descriptors ts) * 2
  · obtain ⟨k, tbl, heq, hge, hmin, _, _, _⟩ := init_rebuild hash s ts hne hbranch
    rw [heq] at h
    have hs1 := Option.some.inj h
    subst hs1
    have hpos : 0 < 2 ^ k := Nat.two_pow_pos k
    exact ⟨rfl, Or.inl ⟨hbranch, rfl, k, by simp only; omega, hge, hmin⟩⟩
  · unfold init_frame_descriptors at h
    cases ts with
    | nil => exact absurd rfl hne
    | cons t tl =>
      simp only at h
      rw [if_neg hbranch] at h
      split at h
      · simp at h
      · have hs1 := Option.some.inj h
        subst hs1
        exact ⟨rfl, Or.inr ⟨hbranch, rfl, rfl⟩⟩

theorem unregister_cases (hash : Nat → Nat) (s s1 : State) (t : frametable)
    (h : caml_unregister_frametable hash t s = some s1) :
    s1.caml_frame_descriptors_mask = s.caml_frame_descriptors_mask ∧
      s1.num_descr = s.num_descr ∧
      s1.frametables = unlink_frametable t s.frametables := by
  unfold caml_unregister_frametable at h
  split at h
  · simp at h
  · have hs1 := Option.some.inj h
    subst hs1
    exact ⟨rfl, rfl, rfl⟩

theorem capacity_inv_register (hash : Nat → Nat) (s s1 : State) (ts live : List frametable)
    (h : init_frame_descriptors hash s ts = some s1)
    (hpow : ∃ p, s.caml_frame_descriptors_mask + 1 = 2 ^ p)
    (_hcap : 2 * s.num_descr ≤ s.caml_frame_descriptors_mask + 1)
    (hcnt : count_descriptors s.frametables ≤ s.num_descr)
    (hsub : live.Subperm s.frametables) :
    (∃ p, s1.caml_frame_descriptors_mask + 1 = 2 ^ p) ∧
      2 * s1.num_descr ≤ s1.caml_frame_descriptors_mask + 1 ∧
      count_descriptors s1.frametables ≤ s1.num_descr ∧
      (ts ++ live).Subperm s1.frametables := by
  obtain ⟨_, hft, hcase⟩ := init_frame_descriptors_cases hash s s1 ts h
  have hsub1 : (ts ++ live).Subperm s1.frametables := by
    rw [hft]
    exact (List.subperm_append_left ts).2 hsub
  rcases hcase with ⟨_, hnum, k, hmask, hge, _⟩ | ⟨hbranch, hnum, hmask⟩
  · refine ⟨⟨k + 2, ?_⟩, by omega, by rw [hft]; omega, hsub1⟩
    rw [hmask, pow_add]; omega
  · refine ⟨?_, by omega, ?_, hsub1⟩
    · rw [hmask]; exact hpow
    · rw [hft, count_descriptors_append]; omega

theorem capacity_inv_unregister (hash : Nat → Nat) (s s1 : State) (t : frametable)
    (live : List frametable) (h : caml_unregister_frametable hash t s = some s1)
    (hpow : ∃ p, s.caml_frame_descriptors_mask + 1 = 2 ^ p)
    (hcap : 2 * s.num_descr ≤ s.caml_frame_descriptors_mask + 1)
    (hcnt : count_descriptors s.frametables ≤ s.num_descr)
    (hsub : live.Subperm s.frametables) :
    (∃ p, s1.caml_frame_descriptors_mask + 1 = 2 ^ p) ∧
      2 * s1.num_descr ≤ s1.caml_frame_descriptors_mask + 1 ∧
      count_descriptors s1.frametables ≤ s1.num_descr ∧
      (live.erase t).Subperm s1.frametables := by
  obtain ⟨hmask, hnum, hft⟩ := unregister_cases hash s s1 t h
  have hsub1 : (live.erase t).Subperm s1.frametables := by
    rw [hft]
    rcases unlink_frametable_cases t s.frametables with he | he
    · rw [he]; exact (List.erase_subperm t live).trans hsub
    · rw [he]; exact List.Subperm.erase t hsub
  have hcnt1 : count_descriptors s1.frametables ≤ count_descriptors s.frametables := by
    rw [hft]
    rcases unlink_frametable_cases t s.frametables with he | he
    · rw [he]
    · rw [he]; exact count_descriptors_subperm (List.erase_subperm t s.frametables)
  refine ⟨by rw [hmask]; exact hpow, by omega, by omega, hsub1⟩

theorem capacity_inv_run (hash : Nat → Nat) :
    ∀ (ops : List Op) (s s1 : State) (live : List frametable), run hash s ops = some s1 →
      (∃ p, s.caml_frame_descriptors_mask + 1 = 2 ^ p) →
      2 * s.num_descr ≤ s.caml_frame_descriptors_mask + 1 →
      count_descriptors s.frametables ≤ s.num_descr →
      live.Subperm s.frametables →
      (∃ p, s1.caml_frame_descriptors_mask + 1 = 2 ^ p) ∧
        2 * s1.num_descr ≤ s1.caml_frame_descriptors_mask + 1 ∧
        count_descriptors s1.frametables ≤ s1.num_descr ∧
        (live_tables live ops).Subperm s1.frametables := by
  intro ops
  induction ops with
  | nil =>
    intro s s1 live h hpow hcap hcnt hsub
    have hs := Option.some.inj h
    subst hs
    exact ⟨hpow, hcap, hcnt, hsub⟩
  | cons op ops ih =>
    intro s s1 live h hpow hcap hcnt hsub
    unfold run at h
    split at h
    · simp at h
    · next s2 hop =>
      cases op with
      | init ts =>
        obtain ⟨h1, h2, h3, h4⟩ := capacity_inv_register hash s s2 ts.reverse live hop
          hpow hcap hcnt hsub
        exact ih s2 s1 _ h h1 h2 h3 h4
      | register t =>
        obtain ⟨h1, h2, h3, h4⟩ := capacity_inv_register hash s s2 [t] live hop
          hpow hcap hcnt hsub
        exact ih s2 s1 _ h h1 h2 h3 h4
      | unregister t =>
        obtain ⟨h1, h2, h3, h4⟩ := capacity_inv_unregister hash s s2 t live hop
          hpow hcap hcnt hsub
        exact ih s2 s1 _ h h1 h2 h3 h4

/-- C8.  Capacity invariant: in every state reached from the initial state by a sequence
of registrations and unregistrations, the capacity of the index is a power of two and is
at least twice the descriptor count of the tables registered and not yet unregistered. -/
theorem capacity_invariant (hash : Nat → Nat) (ops : List Op) (s : State)
    (h : run hash State.initial ops = some s) :
    (∃ p, s.capacity = 2 ^ p) ∧ 2 * count_descriptors (live_tables [] ops) ≤ s.capacity := by
  obtain ⟨hpow, hcap, hcnt, hsub⟩ := capacity_inv_run hash ops State.initial s [] h
    ⟨0, rfl⟩ (by decide) (by decide) (List.Subperm.refl _)
  have := count_descriptors_subperm hsub
  exact ⟨hpow, by unfold State.capacity; omega⟩

theorem capacity_invariant_witness :
    ∃ s, run shift_hash State.initial
        [Op.register sample_a, Op.register sample_b, Op.unregister sample_a,
          Op.register sample_c] = some s ∧
      (∃ p, s.capacity = 2 ^ p) ∧
      2 * count_descriptors (live_tables []
        [Op.register sample_a, Op.register sample_b, Op.unregister sample_a,
          Op.register sample_c]) ≤ s.capacity :=
  ⟨_, rfl, capacity_invariant shift_hash _ _ rfl⟩

/-- C9, amended.  When `init_frame_descriptors` takes the full-rebuild branch, it
returns; the registry is the new tables followed by the previous registry, `num_descr` is
the descriptor count recomputed over that merged list, and the new capacity is the
smallest power of two that is at least `4` and at least twice that count. -/
theorem rebuild_size (hash : Nat → Nat) (s : State) (ts : List frametable) (hne : ts ≠ [])
    (hbranch : s.capacity < (s.num_descr + count_descriptors ts) * 2) :
    ∃ s1, init_frame_descriptors hash s ts = some s1 ∧
      s1.frametables = ts ++ s.frametables ∧
      s1.num_descr = count_descriptors (ts ++ s.frametables) ∧
      (∃ q, s1.capacity = 2 ^ q) ∧ 4 ≤ s1.capacity ∧
      2 * count_descriptors (ts ++ s.frametables) ≤ s1.capacity ∧
      ∀ q, 4 ≤ 2 ^ q → 2 * count_descriptors (ts ++ s.frametables) ≤ 2 ^ q →
        s1.capacity ≤ 2 ^ q := by
  obtain ⟨k, tbl, heq, hge, hmin, _, _, _⟩ := init_rebuild hash s ts hne hbranch
  have hpos : 0 < 2 ^ k := Nat.two_pow_pos k
  refine ⟨_, heq, rfl, rfl, ⟨k + 2, ?_⟩, ?_, ?_, ?_⟩
  · unfold State.capacity; simp only; rw [pow_add]; omega
  · unfold State.capacity; simp only; omega
  · unfold State.capacity; simp only; omega
  · intro q h4 h2
    unfold State.capacity
    simp only
    have hq : 2 ≤ q := by
      by_contra hcon
      have hq1 : q ≤ 1 := by omega
      have : 2 ^ q ≤ 2 ^ 1 := Nat.pow_le_pow_right (by omega) hq1
      omega
    obtain ⟨m, rfl⟩ : ∃ m, q = m + 2 := ⟨q - 2, by omega⟩
    have hqm : 2 ^ (m + 2) = 4 * 2 ^ m := by rw [pow_add]; omega
    rw [hqm] at h2 ⊢
    have hkm : k ≤ m := by
      by_contra hcon
      have := hmin m (by omega)
      omega
    have : 2 ^ k ≤ 2 ^ m := Nat.pow_le_pow_right (by omega) hkm
    omega

theorem rebuild_size_witness :
    (sample_b :: ([] : List frametable)) ≠ [] ∧
    State.initial.capacity < (State.initial.num_descr + count_descriptors [sample_b]) * 2 ∧
    ∃ s1, init_frame_descriptors shift_hash State.initial [sample_b] = some s1 ∧
      s1.frametables = [sample_b] ++ State.initial.frametables ∧
      s1.num_descr = count_descriptors ([sample_b] ++ State.initial.frametables) ∧
      (∃ q, s1.capacity = 2 ^ q) ∧ 4 ≤ s1.capacity ∧
      2 * count_descriptors ([sample_b] ++ State.initial.frametables) ≤ s1.capacity ∧
      ∀ q, 4 ≤ 2 ^ q → 2 * count_descriptors ([sample_b] ++ State.initial.frametables) ≤ 2 ^ q →
        s1.capacity ≤ 2 ^ q :=
  ⟨by decide, by decide,
    rebuild_size shift_hash State.initial [sample_b] (by decide) (by decide)⟩

/-- C9 as stated fails: registering a table of one descriptor in the initial state takes
the full-rebuild branch and yields capacity `4`, although `2` is a power of two that is
at least twice the descriptor total. -/
theorem rebuild_size_not_smallest :
    State.initial.capacity < (State.initial.num_descr + count_descriptors [sample_b]) * 2 ∧
    ∃ s1, init_frame_descriptors shift_hash State.initial [sample_b] = some s1 ∧
      s1.capacity = 4 ∧ 2 * count_descriptors s1.frametables ≤ 2 ^ 1 ∧
      ¬ (∀ q, 2 * count_descriptors s1.frametables ≤ 2 ^ q → s1.capacity ≤ 2 ^ q) :=
  ⟨by decide, _, rfl, by decide, by decide,
    fun h => absurd (h 1 (by decide)) (by decide)⟩

/-- C10, amended.  For a registration or unregistration call that returns:
an unregistration leaves the capacity unchanged; a registration that does not reallocate
the index leaves it unchanged; a registration that reallocates strictly grows the
capacity when `num_descr` does not exceed the descriptor count of the registry at the
call. -/
theorem capacity_change (hash : Nat → Nat) (s s1 : State) (op : Op)
    (h : op.apply hash s = some s1) :
    (op.registers = false → s1.capacity = s.capacity) ∧
    (op.registers = true → op.reallocates s = false → s1.capacity = s.capacity) ∧
    (op.registers = true → op.reallocates s = true →
      s.num_descr ≤ count_descriptors s.frametables → s.capacity < s1.capacity) := by
  have hreg : ∀ ts, init_frame_descriptors hash s ts = some s1 →
      (decide (s.capacity < (s.num_descr + count_descriptors ts) * 2) = false →
        s1.capacity = s.capacity) ∧
      (decide (s.capacity < (s.num_descr + count_descriptors ts) * 2) = true →
        s.num_descr ≤ count_descriptors s.frametables → s.capacity < s1.capacity) := by
    intro ts hts
    obtain ⟨_, hft, hcase⟩ := init_frame_descriptors_cases hash s s1 ts hts
    unfold State.capacity
    rcases hcase with ⟨hb, _, k, hmask, hge, _⟩ | ⟨hb, _, hmask⟩
    · constructor
      · intro hd; simp only [decide_eq_false_iff_not] at hd; exact absurd hb hd
      · intro _ hle
        rw [count_descriptors_append] at hge
        omega
    · constructor
      · intro _; rw [hmask]
      · intro hd; simp only [decide_eq_true_eq] at hd; exact absurd hd hb
  cases op with
  | init ts =>
    obtain ⟨h1, h2⟩ := hreg ts.reverse h
    exact ⟨fun _ => by
      have hne := (init_frame_descriptors_cases hash s s1 ts.reverse h).1
      exfalso; apply hne
      have : ts = [] := by
        cases ts with
        | nil => rfl
        | cons a l => simp [Op.registers] at *
      subst this; rfl, fun _ hr => h1 hr, fun _ hr => h2 hr⟩
  | register t =>
    obtain ⟨h1, h2⟩ := hreg [t] h
    exact ⟨fun hr => by simp [Op.registers] at hr, fun _ hr => h1 hr, fun _ hr => h2 hr⟩
  | unregister t =>
    refine ⟨fun _ => ?_, fun hr => by simp [Op.registers] at hr,
      fun hr => by simp [Op.registers] at hr⟩
    unfold State.capacity
    rw [(unregister_cases hash s s1 t h).1]

theorem capacity_change_witness :
    ∃ s s1, run shift_hash State.initial [Op.register sample_a] = some s ∧
      Op.apply shift_hash s (Op.register sample_d) = some s1 ∧
      s.capacity < s1.capacity :=
  by
  refine ⟨_, _, rfl, rfl, ?_⟩
  refine (capacity_change shift_hash _ _ (Op.register sample_d) ?_).2.2 rfl (by decide)
    (by decide)
  rfl

/-- C10 as stated fails: after a table of three descriptors and a table of one are
registered and the first is unregistered, `num_descr` is still `4`; registering one more
descriptor reallocates the index, and the capacity goes from `8` down to `4`. -/
theorem capacity_shrinks :
    ∃ s s1, run shift_hash State.initial
        [Op.register sample_a, Op.register sample_b, Op.unregister sample_a] = some s ∧
      Op.apply shift_hash s (Op.register sample_c) = some s1 ∧
      s.capacity = 8 ∧ s1.capacity = 4 :=
  ⟨_, _, rfl, rfl, by decide, by decide⟩

/-- C3 (defect, shared with C4).  A table of one descriptor is registered and
unregistered, then a table of two descriptors is registered and unregistered.  No table is
registered any more, yet a scan of the index finds the descriptor of the first table: the
first unregistration left its node at the head of `frametables`, and the second
registration rebuilt the index from that list. -/
theorem stale_descriptor_after_unregister :
    ∃ s, run shift_hash State.initial
        [Op.register sample_b, Op.unregister sample_b, Op.register sample_d,
          Op.unregister sample_d] = some s ∧
      scan_index s.caml_frame_descriptors = sample_b.descrs ∧
      live_tables [] [Op.register sample_b, Op.unregister sample_b, Op.register sample_d,
          Op.unregister sample_d] = [] :=
  ⟨_, rfl, by decide, by decide⟩

/-- C4 (defect).  With `sample_a` at the head of the registry and `sample_b` behind it,
unregistering `sample_b` unlinks it, but unregistering `sample_a` leaves the registry list
as it was: `frametables` still starts with the node of `sample_a`. -/
theorem unregister_head_stays_listed :
    ∃ s, run shift_hash State.initial [Op.register sample_b, Op.register sample_a] = some s ∧
      s.frametables = [sample_a, sample_b] ∧
      (caml_unregister_frametable shift_hash sample_b s).map State.frametables
        = some [sample_a] ∧
      (caml_unregister_frametable shift_hash sample_a s).map State.frametables
        = some [sample_a, sample_b] :=
  ⟨_, rfl, by decide, by decide, by decide⟩

theorem unlink_frametable_head (t : frametable) (tl : List frametable) :
    unlink_frametable t (t :: tl) = t :: tl := by
  simp [unlink_frametable]

/-! ## The incremental darkening of the static global roots -/

theorem fields_from_length (t g : Nat) : ∀ (k j : Nat), (fields_from t g k j).length = k := by
  intro k
  induction k with
  | zero => intro j; rfl
  | succ k ih => intro j; simp [fields_from, ih]

theorem fields_from_drop (t g : Nat) :
    ∀ (r k j : Nat), (fields_from t g k j).drop r = fields_from t g (k - r) (j + r) := by
  intro r
  induction r with
  | zero => intro k j; simp
  | succ r ih =>
    intro k j
    cases k with
    | zero => simp [fields_from]
    | succ k =>
      simp only [fields_from, List.drop_succ_cons]
      rw [ih k (j + 1)]
      have h1 : k + 1 - (r + 1) = k - r := by omega
      have h2 : j + 1 + r = j + (r + 1) := by omega
      rw [h1, h2]

theorem slice_fields_suspend :
    ∀ (k : Nat) (c : Cursor) (r : Nat) (vis : List Slot), r < k →
      slice_fields k c ((r : Int) + 1) vis =
        Walk.suspended { c with j := c.j + r } 0
          (vis ++ (fields_from c.glob.1 c.glob.2 k c.j).take (r + 1)) := by
  intro k
  induction k with
  | zero => intro c r vis h; omega
  | succ k ih =>
    intro c r vis h
    unfold slice_fields
    simp only
    cases r with
    | zero =>
      simp [fields_from]
    | succ r =>
      have hne : ¬ (((r + 1 : Nat) : Int) + 1 - 1 = 0) := by omega
      have heq : (((r + 1 : Nat) : Int) + 1 - 1) = (r : Int) + 1 := by omega
      rw [if_neg hne, heq, ih _ r _ (by omega)]
      simp only [fields_from, List.take_succ_cons, List.append_assoc, List.singleton_append]
      congr 2
      cases c
      simp only [Cursor.mk.injEq, and_true, true_and]
      omega

theorem slice_fields_run :
    ∀ (k : Nat) (c : Cursor) (rem : Int) (vis : List Slot), (rem ≤ 0 ∨ (k : Int) < rem) →
      slice_fields k c rem vis =
        Walk.running { c with j := c.j + k } (rem - k)
          (vis ++ fields_from c.glob.1 c.glob.2 k c.j) := by
  intro k
  induction k with
  | zero => intro c rem vis _; simp [slice_fields, fields_from]
  | succ k ih =>
    intro c rem vis h
    unfold slice_fields
    simp only
    have hne : ¬ (rem - 1 = 0) := by omega
    rw [if_neg hne, ih _ _ _ (by omega)]
    simp only [fields_from, List.append_assoc, List.singleton_append]
    congr 1
    · cases c
      simp only [Cursor.mk.injEq, and_true, true_and]
      omega
    · push_cast; ring

theorem slice_containers_run :
    ∀ (cs : List (List Nat)) (c : Cursor) (rem : Int) (vis : List Slot),
      (rem ≤ 0 ∨ ((visit_containers c.glob.1 c.glob.2 cs).length : Int) < rem) →
      ∃ jj, slice_containers cs c rem vis =
        Walk.running { i := c.i, j := jj, glob := (c.glob.1, c.glob.2 + cs.length) }
          (rem - (visit_containers c.glob.1 c.glob.2 cs).length)
          (vis ++ visit_containers c.glob.1 c.glob.2 cs) := by
  intro cs
  induction cs with
  | nil =>
    intro c rem vis _
    exact ⟨c.j, by simp [slice_containers, visit_containers]⟩
  | cons blk rest ih =>
    intro c rem vis h
    simp only [visit_containers, List.length_append, fields_from_length] at h ⊢
    unfold slice_containers
    rw [slice_fields_run _ _ _ _ (by push_cast at h; omega)]
    simp only
    obtain ⟨jj, hjj⟩ := ih { i := c.i, j := 0 + blk.length, glob := (c.glob.1, c.glob.2 + 1) }
      (rem - blk.length) (vis ++ fields_from c.glob.1 c.glob.2 blk.length 0)
      (by simp only; push_cast at h; omega)
    refine ⟨jj, ?_⟩
    rw [hjj]
    simp only [List.length_cons, List.append_assoc]
    congr 1
    · simp only [Cursor.mk.injEq, Prod.mk.injEq, true_and]
      omega
    · push_cast; ring

theorem slice_containers_suspend :
    ∀ (cs : List (List Nat)) (c : Cursor) (r : Nat) (vis : List Slot),
      r < (visit_containers c.glob.1 c.glob.2 cs).length →
      ∃ a jj blk, cs[a]? = some blk ∧ jj < blk.length ∧
        slice_containers cs c ((r : Int) + 1) vis =
          Walk.suspended { i := c.i, j := jj, glob := (c.glob.1, c.glob.2 + a) } 0
            (vis ++ (visit_containers c.glob.1 c.glob.2 cs).take (r + 1)) ∧
        fields_from c.glob.1 (c.glob.2 + a) (blk.length - (jj + 1)) (jj + 1) ++
            visit_containers c.glob.1 (c.glob.2 + a + 1) (cs.drop (a + 1)) =
          (visit_containers c.glob.1 c.glob.2 cs).drop (r + 1) := by
  intro cs
  induction cs with
  | nil => intro c r vis h; simp [visit_containers] at h
  | cons blk rest ih =>
    intro c r vis h
    simp only [visit_containers, List.length_append, fields_from_length] at h ⊢
    unfold slice_containers
    by_cases hr : r < blk.length
    · rw [slice_fields_suspend _ _ _ _ hr]
      refine ⟨0, r, blk, by simp, hr, ?_, ?_⟩
      · simp only [Nat.add_zero, Nat.zero_add]
        rw [List.take_append_of_le_length (by rw [fields_from_length]; omega)]
      · rw [List.drop_append_of_le_length (by rw [fields_from_length]; omega),
          fields_from_drop]
        simp
    · rw [slice_fields_run _ _ _ _ (by right; omega)]
      simp only
      have hcast : ((r : Int) + 1 - (blk.length : Int)) = ((r - blk.length : Nat) : Int) + 1 := by
        omega
      rw [hcast]
      obtain ⟨a, jj, b, hb, hjj, hrun, hpend⟩ :=
        ih { i := c.i, j := 0 + blk.length, glob := (c.glob.1, c.glob.2 + 1) }
          (r - blk.length) (vis ++ fields_from c.glob.1 c.glob.2 blk.length 0)
          (by simp only; omega)
      simp only at hrun hpend
      have h1 : r + 1 - blk.length = r - blk.length + 1 := by omega
      have h2 : c.glob.2 + 1 + a = c.glob.2 + (a + 1) := by omega
      have hlen : (fields_from c.glob.1 c.glob.2 blk.length 0).length ≤ r + 1 := by
        rw [fields_from_length]; omega
      refine ⟨a + 1, jj, b, by simpa using hb, hjj, ?_, ?_⟩
      · rw [hrun, List.take_append_eq_append_take, List.take_of_length_le hlen,
          fields_from_length, h1, h2, List.append_assoc]
      · rw [List.drop_succ_cons, List.drop_append_eq_append_drop, List.drop_of_length_le hlen,
          fields_from_length, List.nil_append, h1, ← hpend, h2]

theorem slice_tables_run :
    ∀ (ts : List (List (List Nat))) (c : Cursor) (rem : Int) (vis : List Slot),
      (rem ≤ 0 ∨ ((visit_tables c.i ts).length : Int) < rem) →
      ∃ c1, slice_tables ts c rem vis =
        Walk.running c1 (rem - (visit_tables c.i ts).length) (vis ++ visit_tables c.i ts) := by
  intro ts
  induction ts with
  | nil =>
    intro c rem vis _
    exact ⟨c, by simp [slice_tables, visit_tables]⟩
  | cons t rest ih =>
    intro c rem vis h
    simp only [visit_tables, List.length_append] at h ⊢
    unfold slice_tables
    obtain ⟨jj, hjj⟩ := slice_containers_run t { c with glob := (c.i, 0) } rem vis
      (by simp only; push_cast at h; omega)
    simp only at hjj
    rw [hjj]
    simp only
    obtain ⟨c1, hc1⟩ := ih { i := c.i + 1, j := jj, glob := (c.i, 0 + t.length) }
      (rem - (visit_containers c.i 0 t).length) (vis ++ visit_containers c.i 0 t)
      (by simp only; push_cast at h; omega)
    simp only at hc1
    refine ⟨c1, ?_⟩
    rw [hc1, List.append_assoc]
    congr 1
    push_cast; ring

theorem slice_tables_suspend :
    ∀ (ts : List (List (List Nat))) (c : Cursor) (r : Nat) (vis : List Slot),
      r < (visit_tables c.i ts).length →
      ∃ b a jj t blk, ts[b]? = some t ∧ t[a]? = some blk ∧ jj < blk.length ∧
        slice_tables ts c ((r : Int) + 1) vis =
          Walk.suspended { i := c.i + b, j := jj, glob := (c.i + b, a) } 0
            (vis ++ (visit_tables c.i ts).take (r + 1)) ∧
        fields_from (c.i + b) a (blk.length - (jj + 1)) (jj + 1) ++
            visit_containers (c.i + b) (a + 1) (t.drop (a + 1)) ++
            visit_tables (c.i + b + 1) (ts.drop (b + 1)) =
          (visit_tables c.i ts).drop (r + 1) := by
  intro ts
  induction ts with
  | nil => intro c r vis h; simp [visit_tables] at h
  | cons t rest ih =>
    intro c r vis h
    simp only [visit_tables, List.length_append] at h ⊢
    unfold slice_tables
    by_cases hr : r < (visit_containers c.i 0 t).length
    · obtain ⟨a, jj, blk, hblk, hjj, hrun, hpend⟩ :=
        slice_containers_suspend t { c with glob := (c.i, 0) } r vis (by simp only; exact hr)
      simp only [Nat.zero_add] at hrun hpend
      refine ⟨0, a, jj, t, blk, by simp, hblk, hjj, ?_, ?_⟩
      · rw [hrun]
        simp only [Nat.add_zero]
        rw [List.take_append_of_le_length (by omega)]
      · simp only [Nat.add_zero, List.drop_succ_cons, List.drop_zero]
        rw [List.drop_append_of_le_length (by omega), ← hpend]
    · obtain ⟨jj0, hjj0⟩ := slice_containers_run t { c with glob := (c.i, 0) } ((r : Int) + 1) vis
        (by simp only; right; omega)
      simp only at hjj0
      rw [hjj0]
      simp only
      have hcast : ((r : Int) + 1 - ((visit_containers c.i 0 t).length : Int)) =
          ((r - (visit_containers c.i 0 t).length : Nat) : Int) + 1 := by omega
      rw [hcast]
      obtain ⟨b, a, jj, t1, blk, ht1, hblk, hjj, hrun, hpend⟩ :=
        ih { i := c.i + 1, j := jj0, glob := (c.i, 0 + t.length) }
          (r - (visit_containers c.i 0 t).length) (vis ++ visit_containers c.i 0 t)
          (by simp only; omega)
      simp only at hrun hpend
      have h1 : r + 1 - (visit_containers c.i 0 t).length
          = r - (visit_containers c.i 0 t).length + 1 := by omega
      have h2 : c.i + 1 + b = c.i + (b + 1) := by omega
      have hlen : (visit_containers c.i 0 t).length ≤ r + 1 := by omega
      refine ⟨b + 1, a, jj, t1, blk, by simpa using ht1, hblk, hjj, ?_, ?_⟩
      · rw [hrun, List.take_append_eq_append_take, List.take_of_length_le hlen, h1, h2,
          List.append_assoc]
      · rw [List.drop_succ_cons, List.drop_append_eq_append_drop, List.drop_of_length_le hlen,
          List.nil_append, h1, ← hpend, h2]

theorem start_walk_suspend (globals : Globals) (c : Cursor) (r : Nat)
    (h : r < (do_roots_globals globals).length) :
    ∃ c1, slice_tables globals { c with i := 0 } ((r : Int) + 1) [] =
        Walk.suspended c1 0 ((do_roots_globals globals).take (r + 1)) ∧
      c1.valid globals ∧ pending_after globals c1 = (do_roots_globals globals).drop (r + 1) := by
  unfold do_roots_globals at h ⊢
  obtain ⟨b, a, jj, t, blk, ht, hblk, hjj, hrun, hpend⟩ :=
    slice_tables_suspend globals { c with i := 0 } r [] (by simp only; exact h)
  simp only [Nat.zero_add, List.nil_append] at hrun hpend
  refine ⟨_, hrun, ⟨rfl, t, blk, ht, hblk, hjj⟩, ?_⟩
  simp only [pending_after, ht, hblk]
  exact hpend

theorem start_walk_run (globals : Globals) (c : Cursor) (rem : Int)
    (h : rem ≤ 0 ∨ ((do_roots_globals globals).length : Int) < rem) :
    ∃ c1, slice_tables globals { c with i := 0 } rem [] =
        Walk.running c1 (rem - (do_roots_globals globals).length) (do_roots_globals globals) := by
  unfold do_roots_globals at h ⊢
  obtain ⟨c1, hc1⟩ := slice_tables_run globals { c with i := 0 } rem [] (by simp only; exact h)
  simp only [List.nil_append] at hc1
  exact ⟨c1, hc1⟩

theorem resume_walk_run (globals : Globals) (c : Cursor) (rem : Int) (hv : c.valid globals)
    (h : rem ≤ 0 ∨ ((pending_after globals c).length : Int) < rem) :
    ∃ c1, slice_resume globals c rem =
        some (Walk.running c1 (rem - (pending_after globals c).length)
          (pending_after globals c)) := by
  obtain ⟨hg, t, blk, ht, hblk, hj⟩ := hv
  obtain ⟨i, j, ti, g⟩ := c
  simp only at hg ht hblk hj
  subst hg
  simp only [pending_after, ht, hblk, List.length_append, fields_from_length] at h ⊢
  simp only [slice_resume, ht, hblk]
  rw [slice_fields_run _ _ _ _ (by push_cast at h; omega)]
  simp only [List.nil_append]
  obtain ⟨jj, hjj⟩ := slice_containers_run (t.drop (g + 1))
    { i := ti, j := j + 1 + (blk.length - (j + 1)), glob := (ti, g + 1) }
    (rem - ((blk.length - (j + 1) : Nat) : Int))
    (fields_from ti g (blk.length - (j + 1)) (j + 1)) (by simp only; push_cast at h; omega)
  simp only at hjj
  rw [hjj]
  simp only
  obtain ⟨c1, hc1⟩ := slice_tables_run (globals.drop (ti + 1))
    { i := ti + 1, j := jj, glob := (ti, g + 1 + (t.drop (g + 1)).length) }
    (rem - ((blk.length - (j + 1) : Nat) : Int) -
      ((visit_containers ti (g + 1) (t.drop (g + 1))).length : Int))
    (fields_from ti g (blk.length - (j + 1)) (j + 1) ++
      visit_containers ti (g + 1) (t.drop (g + 1))) (by simp only; push_cast at h; omega)
  simp only at hc1
  refine ⟨c1, ?_⟩
  rw [hc1]
  congr 2
  push_cast; ring

theorem resume_walk_suspend (globals : Globals) (c : Cursor) (r : Nat) (hv : c.valid globals)
    (h : r < (pending_after globals c).length) :
    ∃ c1, slice_resume globals c ((r : Int) + 1) =
        some (Walk.suspended c1 0 ((pending_after globals c).take (r + 1))) ∧
      c1.valid globals ∧ pending_after globals c1 = (pending_after globals c).drop (r + 1) := by
  obtain ⟨hg, t, blk, ht, hblk, hj⟩ := hv
  obtain ⟨i, j, ti, g⟩ := c
  simp only at hg ht hblk hj
  subst hg
  simp only [pending_after, ht, hblk, List.length_append, fields_from_length] at h ⊢
  simp only [slice_resume, ht, hblk]
  by_cases h1 : r < blk.length - (j + 1)
  · -- the budget runs out in the container under `glob`
    rw [slice_fields_suspend _ _ _ _ h1]
    refine ⟨{ i := ti, j := j + 1 + r, glob := (ti, g) }, ?_,
      ⟨rfl, t, blk, ht, hblk, by simp only; omega⟩, ?_⟩
    · simp only [List.nil_append]
      rw [List.append_assoc, List.take_append_of_le_length (by rw [fields_from_length]; omega)]
    · simp only [List.nil_append, ht, hblk]
      rw [List.append_assoc, List.append_assoc,
        List.drop_append_of_le_length (by rw [fields_from_length]; omega), fields_from_drop]
      have e1 : blk.length - (j + 1 + r + 1) = blk.length - (j + 1) - (r + 1) := by omega
      have e2 : j + 1 + r + 1 = j + 1 + (r + 1) := by omega
      rw [e1, e2]
  · rw [slice_fields_run _ _ _ _ (by right; omega)]
    simp only [List.nil_append]
    have hF : (fields_from ti g (blk.length - (j + 1)) (j + 1)).length ≤ r + 1 := by
      rw [fields_from_length]; omega
    have hcast : ((r : Int) + 1 - ((blk.length - (j + 1) : Nat) : Int)) =
        ((r - (blk.length - (j + 1)) : Nat) : Int) + 1 := by omega
    have e1 : r + 1 - (blk.length - (j + 1)) = r - (blk.length - (j + 1)) + 1 := by omega
    rw [hcast]
    by_cases h2 : r - (blk.length - (j + 1)) <
        (visit_containers ti (g + 1) (t.drop (g + 1))).length
    · -- the budget runs out in a later container of the same table
      obtain ⟨a, jj, b, hb, hjj, hrun, hpend⟩ := slice_containers_suspend (t.drop (g + 1))
        { i := ti, j := j + 1 + (blk.length - (j + 1)), glob := (ti, g + 1) }
        (r - (blk.length - (j + 1)))
        (fields_from ti g (blk.length - (j + 1)) (j + 1)) (by simp only; exact h2)
      simp only at hrun hpend
      rw [hrun]
      rw [List.getElem?_drop] at hb
      rw [List.drop_drop] at hpend
      refine ⟨{ i := ti, j := jj, glob := (ti, g + 1 + a) }, ?_, ⟨rfl, t, b, ht, hb, hjj⟩, ?_⟩
      · rw [List.append_assoc, List.take_append_eq_append_take, List.take_of_length_le hF,
          fields_from_length, e1,
          List.take_append_of_le_length (by omega)]
      · simp only [ht, hb]
        rw [List.append_assoc (fields_from ti g (blk.length - (j + 1)) (j + 1)),
          List.drop_append_eq_append_drop, List.drop_of_length_le hF, fields_from_length,
          List.nil_append, e1, List.drop_append_of_le_length (by omega), ← hpend]
        simp only [Nat.add_assoc]
    · -- the budget runs out in a later table
      obtain ⟨jj0, hjj0⟩ := slice_containers_run (t.drop (g + 1))
        { i := ti, j := j + 1 + (blk.length - (j + 1)), glob := (ti, g + 1) }
        (((r - (blk.length - (j + 1)) : Nat) : Int) + 1)
        (fields_from ti g (blk.length - (j + 1)) (j + 1)) (by simp only; right; omega)
      simp only at hjj0
      rw [hjj0]
      simp only
      have hC : (visit_containers ti (g + 1) (t.drop (g + 1))).length ≤
          r - (blk.length - (j + 1)) + 1 := by omega
      have hcast2 : (((r - (blk.length - (j + 1)) : Nat) : Int) + 1 -
          ((visit_containers ti (g + 1) (t.drop (g + 1))).length : Int)) =
          ((r - (blk.length - (j + 1)) - (visit_containers ti (g + 1) (t.drop (g + 1))).length
            : Nat) : Int) + 1 := by omega
      have e2 : r - (blk.length - (j + 1)) + 1 -
          (visit_containers ti (g + 1) (t.drop (g + 1))).length =
          r - (blk.length - (j + 1)) - (visit_containers ti (g + 1) (t.drop (g + 1))).length
            + 1 := by omega
      rw [hcast2]
      obtain ⟨b, a, jj, t1, blk1, ht1, hblk1, hjj, hrun, hpend⟩ :=
        slice_tables_suspend (globals.drop (ti + 1))
          { i := ti + 1, j := jj0, glob := (ti, g + 1 + (t.drop (g + 1)).length) }
          (r - (blk.length - (j + 1)) - (visit_containers ti (g + 1) (t.drop (g + 1))).length)
          (fields_from ti g (blk.length - (j + 1)) (j + 1) ++
            visit_containers ti (g + 1) (t.drop (g + 1))) (by simp only; omega)
      simp only at hrun hpend
      rw [hrun]
      rw [List.getElem?_drop] at ht1
      rw [List.drop_drop] at hpend
      refine ⟨{ i := ti + 1 + b, j := jj, glob := (ti + 1 + b, a) }, ?_,
        ⟨rfl, t1, blk1, ht1, hblk1, hjj⟩, ?_⟩
      · rw [List.append_assoc, List.append_assoc, List.take_append_eq_append_take,
          List.take_of_length_le hF, fields_from_length, e1,
          List.take_append_eq_append_take, List.take_of_length_le hC, e2]
      · simp only [ht1, hblk1]
        rw [List.append_assoc (fields_from ti g (blk.length - (j + 1)) (j + 1)),
          List.drop_append_eq_append_drop, List.drop_of_length_le hF, fields_from_length,
          List.nil_append, e1, List.drop_append_eq_append_drop, List.drop_of_length_le hC,
          List.nil_append, e2, ← hpend]
        simp only [Nat.add_assoc]

theorem slice_suspends (globals : Globals) (st : SliceState) (r : Nat)
    (hv : st.valid globals) (h : r < (st.pending globals).length) :
    ∃ res, caml_darken_all_roots_slice globals st ((r : Int) + 1) = some res ∧
      res.ret = 0 ∧ res.state.do_resume = true ∧ res.state.valid globals ∧
      res.visited = (st.pending globals).take (r + 1) ∧
      res.state.pending globals = (st.pending globals).drop (r + 1) ∧
      res.state.roots_count = to_uintnat (st.roots_count + ((r : Int) + 1)) ∧
      res.state.caml_incremental_roots_count = st.caml_incremental_roots_count := by
  unfold caml_darken_all_roots_slice
  cases hdr : st.do_resume with
  | false =>
    simp only [SliceState.pending, hdr, Bool.false_eq_true, if_false] at h ⊢
    obtain ⟨c1, hrun, hv1, hp1⟩ := start_walk_suspend globals st.cursor r h
    rw [hrun]
    exact ⟨_, rfl, rfl, rfl, fun _ => hv1, rfl, by simp only [if_true]; exact hp1, rfl, rfl⟩
  | true =>
    simp only [SliceState.pending, hdr, if_true] at h ⊢
    obtain ⟨c1, hrun, hv1, hp1⟩ := resume_walk_suspend globals st.cursor r (hv hdr) h
    rw [hrun]
    exact ⟨_, rfl, rfl, rfl, fun _ => hv1, rfl, by simp only [if_true]; exact hp1, rfl, rfl⟩

theorem slice_finishes (globals : Globals) (st : SliceState) (work : Int)
    (hv : st.valid globals)
    (h : work ≤ 0 ∨ ((st.pending globals).length : Int) < work) :
    ∃ res, caml_darken_all_roots_slice globals st work = some res ∧
      res.ret = work - (st.pending globals).length ∧ res.state.do_resume = false ∧
      res.state.roots_count = 0 ∧ res.visited = st.pending globals ∧
      res.state.caml_incremental_roots_count =
        to_uintnat (st.roots_count + (st.pending globals).length) := by
  unfold caml_darken_all_roots_slice
  cases hdr : st.do_resume with
  | false =>
    simp only [SliceState.pending, hdr, Bool.false_eq_true, if_false] at h ⊢
    obtain ⟨c1, hrun⟩ := start_walk_run globals st.cursor work h
    rw [hrun]
    refine ⟨_, rfl, rfl, rfl, rfl, rfl, ?_⟩
    simp only
    congr 1
    ring
  | true =>
    simp only [SliceState.pending, hdr, if_true] at h ⊢
    obtain ⟨c1, hrun⟩ := resume_walk_run globals st.cursor work (hv hdr) h
    rw [hrun]
    refine ⟨_, rfl, rfl, rfl, rfl, rfl, ?_⟩
    simp only
    congr 1
    ring

theorem drive_spec (globals : Globals) :
    ∀ (budgets : List Int) (st : SliceState), st.valid globals → (∀ w ∈ budgets, 0 < w) →
      ∃ st1 vis rets, drive globals st budgets = some (st1, vis, rets) ∧
        ((∃ n r, rets = List.replicate n 0 ++ [r] ∧ 0 < r ∧ vis = st.pending globals ∧
            st1.do_resume = false) ∨
          (rets = List.replicate budgets.length 0 ∧
            vis ++ st1.pending globals = st.pending globals ∧
            (vis.length : Int) = budgets.sum ∧ st1.valid globals)) := by
  intro budgets
  induction budgets with
  | nil =>
    intro st hv _
    exact ⟨st, [], [], rfl, Or.inr ⟨rfl, by simp, by simp, hv⟩⟩
  | cons w ws ih =>
    intro st hv hpos
    have hw : 0 < w := hpos w (List.mem_cons_self _ _)
    have hws : ∀ x ∈ ws, 0 < x := fun x hx => hpos x (List.mem_cons_of_mem _ hx)
    unfold drive
    by_cases hle : w ≤ ((st.pending globals).length : Int)
    · have hcast : ((w.toNat - 1 : Nat) : Int) + 1 = w := by omega
      obtain ⟨res, hres, hret, hdr, hv1, hvis, hpend, _, _⟩ :=
        slice_suspends globals st (w.toNat - 1) hv (by omega)
      rw [hcast] at hres
      rw [hres]
      simp only [hret, lt_self_iff_false, if_false]
      obtain ⟨st1, vis, rets, hdrive, hcases⟩ := ih res.state hv1 hws
      rw [hdrive]
      refine ⟨st1, res.visited ++ vis, 0 :: rets, rfl, ?_⟩
      have htd : (st.pending globals).take (w.toNat - 1 + 1) ++
          (st.pending globals).drop (w.toNat - 1 + 1) = st.pending globals :=
        List.take_append_drop _ _
      rcases hcases with ⟨n, r, hrets, hr, hvis1, hidle⟩ | ⟨hrets, hsplit, hlen, hv2⟩
      · left
        refine ⟨n + 1, r, ?_, hr, ?_, hidle⟩
        · rw [hrets, List.replicate_succ, List.cons_append]
        · rw [hvis, hvis1, hpend]; exact htd
      · right
        refine ⟨?_, ?_, ?_, hv2⟩
        · rw [hrets, List.length_cons, List.replicate_succ]
        · rw [List.append_assoc, hsplit, hvis, hpend]; exact htd
        · rw [List.length_append, List.sum_cons, hvis, List.length_take]
          push_cast
          rw [hlen]
          omega
    · obtain ⟨res, hres, hret, hdr, _, hvis, _⟩ :=
        slice_finishes globals st w hv (by right; omega)
      rw [hres]
      have hposret : 0 < res.ret := by rw [hret]; omega
      simp only [hposret, if_true]
      exact ⟨res.state, res.visited, [res.ret], rfl,
        Or.inl ⟨0, res.ret, by simp, hposret, hvis, hdr⟩⟩

theorem mem_fields_from (t g : Nat) :
    ∀ (k j : Nat) (s : Slot), s ∈ fields_from t g k j →
      s.table = t ∧ s.container = g ∧ j ≤ s.field := by
  intro k
  induction k with
  | zero => intro j s h; simp [fields_from] at h
  | succ k ih =>
    intro j s h
    simp only [fields_from, List.mem_cons] at h
    rcases h with rfl | h
    · exact ⟨rfl, rfl, le_refl _⟩
    · obtain ⟨h1, h2, h3⟩ := ih _ _ h
      exact ⟨h1, h2, by omega⟩

theorem fields_from_nodup (t g : Nat) : ∀ (k j : Nat), (fields_from t g k j).Nodup := by
  intro k
  induction k with
  | zero => intro j; simp [fields_from]
  | succ k ih =>
    intro j
    simp only [fields_from, List.nodup_cons]
    refine ⟨?_, ih _⟩
    intro h
    have := (mem_fields_from t g _ _ _ h).2.2
    simp only at this
    omega

theorem mem_visit_containers (i : Nat) :
    ∀ (cs : List (List Nat)) (g : Nat) (s : Slot), s ∈ visit_containers i g cs →
      s.table = i ∧ g ≤ s.container := by
  intro cs
  induction cs with
  | nil => intro g s h; simp [visit_containers] at h
  | cons blk rest ih =>
    intro g s h
    simp only [visit_containers, List.mem_append] at h
    rcases h with h | h
    · obtain ⟨h1, h2, _⟩ := mem_fields_from _ _ _ _ _ h
      exact ⟨h1, by omega⟩
    · obtain ⟨h1, h2⟩ := ih _ _ h
      exact ⟨h1, by omega⟩

theorem visit_containers_nodup (i : Nat) :
    ∀ (cs : List (List Nat)) (g : Nat), (visit_containers i g cs).Nodup := by
  intro cs
  induction cs with
  | nil => intro g; simp [visit_containers]
  | cons blk rest ih =>
    intro g
    simp only [visit_containers]
    refine List.Nodup.append (fields_from_nodup _ _ _ _) (ih _) ?_
    intro s h1 h2
    have a := (mem_fields_from _ _ _ _ _ h1).2.1
    have b := (mem_visit_containers _ _ _ _ h2).2
    omega

theorem mem_visit_tables :
    ∀ (ts : List (List (List Nat))) (i : Nat) (s : Slot), s ∈ visit_tables i ts →
      i ≤ s.table := by
  intro ts
  induction ts with
  | nil => intro i s h; simp [visit_tables] at h
  | cons t rest ih =>
    intro i s h
    simp only [visit_tables, List.mem_append] at h
    rcases h with h | h
    · have := (mem_visit_containers _ _ _ _ h).1
      omega
    · have := ih _ _ h
      omega

theorem visit_tables_nodup :
    ∀ (ts : List (List (List Nat))) (i : Nat), (visit_tables i ts).Nodup := by
  intro ts
  induction ts with
  | nil => intro i; simp [visit_tables]
  | cons t rest ih =>
    intro i
    simp only [visit_tables]
    refine List.Nodup.append (visit_containers_nodup _ _ _) (ih _) ?_
    intro s h1 h2
    have a := (mem_visit_containers _ _ _ _ h1).1
    have b := mem_visit_tables _ _ _ h2
    omega

theorem visit_containers_length (i : Nat) :
    ∀ (cs : List (List Nat)) (g : Nat),
      (visit_containers i g cs).length = (cs.map List.length).sum := by
  intro cs
  induction cs with
  | nil => intro g; rfl
  | cons blk rest ih =>
    intro g
    simp only [visit_containers, List.length_append, fields_from_length, ih, List.map_cons,
      List.sum_cons]

theorem visit_tables_length :
    ∀ (ts : List (List (List Nat))) (i : Nat),
      (visit_tables i ts).length = (ts.map (fun t => (t.map List.length).sum)).sum := by
  intro ts
  induction ts with
  | nil => intro i; rfl
  | cons t rest ih =>
    intro i
    simp only [visit_tables, List.length_append, visit_containers_length, ih, List.map_cons,
      List.sum_cons]

theorem do_roots_globals_length (globals : Globals) :
    (do_roots_globals globals).length = total_fields globals :=
  visit_tables_length globals 0

theorem do_roots_globals_nodup (globals : Globals) : (do_roots_globals globals).Nodup :=
  visit_tables_nodup globals 0

/-- C5.  Incremental completeness and equivalence with the full pass: for a fixed set of
static global roots and strictly positive budgets, calling the slice from the idle state
until it first returns a positive value does return each time; when a positive value is
returned, the slots visited by the successive slices, concatenated, are exactly the slots
visited by the static-global loop of `caml_do_roots`, in its order, each of the
`total_fields` fields exactly once, all earlier calls returned `0`, and the coordinator is
idle again; and this happens as soon as the budgets add up to more than the number of
fields. -/
theorem incremental_walk_complete (globals : Globals) (st : SliceState) (budgets : List Int)
    (hidle : st.do_resume = false) (hpos : ∀ w ∈ budgets, 0 < w) :
    ∃ st1 vis rets, drive globals st budgets = some (st1, vis, rets) ∧
      ((∃ r ∈ rets, 0 < r) →
        vis = do_roots_globals globals ∧ vis.Nodup ∧ vis.length = total_fields globals ∧
          st1.do_resume = false ∧ ∃ r, 0 < r ∧ rets = List.replicate (rets.length - 1) 0 ++ [r]) ∧
      ((total_fields globals : Int) < budgets.sum → ∃ r ∈ rets, 0 < r) := by
  have hv : st.valid globals := by
    intro h; rw [hidle] at h; exact absurd h (by decide)
  have hpend : st.pending globals = do_roots_globals globals := by
    simp [SliceState.pending, hidle]
  obtain ⟨st1, vis, rets, hdrive, hcases⟩ := drive_spec globals budgets st hv hpos
  refine ⟨st1, vis, rets, hdrive, ?_, ?_⟩
  · rintro ⟨r, hr, hrpos⟩
    rcases hcases with ⟨n, r1, hrets, hr1, hvis, hdone⟩ | ⟨hrets, _, _, _⟩
    · rw [hpend] at hvis
      refine ⟨hvis, ?_, ?_, hdone, r1, hr1, ?_⟩
      · rw [hvis]; exact do_roots_globals_nodup globals
      · rw [hvis]; exact do_roots_globals_length globals
      · rw [hrets]; simp
    · rw [hrets] at hr
      have := List.eq_of_mem_replicate hr
      omega
  · intro hsum
    rcases hcases with ⟨n, r1, hrets, hr1, _, _⟩ | ⟨_, hsplit, hlen, _⟩
    · exact ⟨r1, by rw [hrets]; simp, hr1⟩
    · exfalso
      have h1 : vis.length ≤ (st.pending globals).length := by
        rw [← hsplit, List.length_append]; omega
      rw [hpend, do_roots_globals_length] at h1
      omega

theorem incremental_walk_complete_witness :
    (SliceState.idle.do_resume = false ∧ ∀ w ∈ [(1 : Int), 3, 1000], 0 < w) ∧
    ∃ st1 vis rets, drive [[[10, 11], [12]], [], [[], [13, 14, 15]]] SliceState.idle [1, 3, 1000]
        = some (st1, vis, rets) ∧
      ((∃ r ∈ rets, 0 < r) →
        vis = do_roots_globals [[[10, 11], [12]], [], [[], [13, 14, 15]]] ∧ vis.Nodup ∧
          vis.length = total_fields [[[10, 11], [12]], [], [[], [13, 14, 15]]] ∧
          st1.do_resume = false ∧ ∃ r, 0 < r ∧ rets = List.replicate (rets.length - 1) 0 ++ [r]) ∧
      ((total_fields [[[10, 11], [12]], [], [[], [13, 14, 15]]] : Int) <
          ([1, 3, 1000] : List Int).sum → ∃ r ∈ rets, 0 < r) :=
  ⟨⟨rfl, by decide⟩,
    incremental_walk_complete [[[10, 11], [12]], [], [[], [13, 14, 15]]] SliceState.idle
      [1, 3, 1000] rfl (by decide)⟩

theorem slice_positive_budget (globals : Globals) (st : SliceState) (work : Int)
    (hv : st.valid globals) (hw : 0 < work) :
    ∃ res, caml_darken_all_roots_slice globals st work = some res ∧
      res.state.valid globals ∧
      res.visited = (st.pending globals).take work.toNat ∧
      (work ≤ (st.pending globals).length → res.ret = 0 ∧ res.state.do_resume = true) ∧
      (((st.pending globals).length : Int) < work →
        res.ret = work - (st.pending globals).length ∧ res.state.do_resume = false ∧
          res.state.roots_count = 0) := by
  by_cases hle : work ≤ ((st.pending globals).length : Int)
  · have hcast : ((work.toNat - 1 : Nat) : Int) + 1 = work := by omega
    obtain ⟨res, hres, hret, hdr, hv1, hvis, _, _, _⟩ :=
      slice_suspends globals st (work.toNat - 1) hv (by omega)
    rw [hcast] at hres
    have hn : work.toNat - 1 + 1 = work.toNat := by omega
    rw [hn] at hvis
    exact ⟨res, hres, hv1, hvis, fun _ => ⟨hret, hdr⟩, fun h => absurd hle (by omega)⟩
  · obtain ⟨res, hres, hret, hdr, hrc, hvis, _⟩ :=
      slice_finishes globals st work hv (by right; omega)
    refine ⟨res, hres, ?_, ?_, fun h => absurd h hle, fun _ => ⟨hret, hdr, hrc⟩⟩
    · intro h; rw [hdr] at h; exact absurd h (by decide)
    · rw [hvis, List.take_of_length_le (by omega)]

/-- C6, amended.  For a budget `work > 0` and a coordinator state that is idle or
suspended at a field, one call of the slice returns.  When at least `work` fields are
still to be visited (also when exactly `work` are), it visits `work` of them, returns `0`
and is left resuming at a field.  Otherwise it visits all that remain, returns the strictly positive
leftover `work` minus the number of fields visited in this call, and is reset to idle
with `roots_count = 0`.  Hence a strictly positive return value implies that every
remaining field has been visited; and when the calls are driven with positive budgets,
every call before the last returns `0`. -/
theorem slice_return_protocol (globals : Globals) (st : SliceState) (work : Int)
    (hv : st.valid globals) (hw : 0 < work) :
    (∃ res, caml_darken_all_roots_slice globals st work = some res ∧
      res.state.valid globals ∧
      (work ≤ (st.pending globals).length →
        res.ret = 0 ∧ res.state.do_resume = true ∧ (res.visited.length : Int) = work) ∧
      (((st.pending globals).length : Int) < work →
        res.ret = work - res.visited.length ∧ 0 < res.ret ∧ res.state.do_resume = false ∧
          res.state.roots_count = 0 ∧ res.visited = st.pending globals) ∧
      (0 < res.ret → res.visited = st.pending globals ∧ res.state.do_resume = false)) ∧
    (∀ budgets : List Int, (∀ w ∈ budgets, 0 < w) →
      ∃ st1 vis rets, drive globals st budgets = some (st1, vis, rets) ∧
        (rets = List.replicate budgets.length 0 ∨
          ∃ n r, rets = List.replicate n 0 ++ [r] ∧ 0 < r ∧ st1.do_resume = false)) := by
  constructor
  · obtain ⟨res, hres, hvres, hvis, hzero, hposi⟩ :=
      slice_positive_budget globals st work hv hw
    have hfin : ((st.pending globals).length : Int) < work →
        res.visited = st.pending globals := by
      intro h; rw [hvis, List.take_of_length_le (by omega)]
    refine ⟨res, hres, hvres, ?_, ?_, ?_⟩
    · intro h
      obtain ⟨h1, h2⟩ := hzero h
      refine ⟨h1, h2, ?_⟩
      rw [hvis, List.length_take]
      omega
    · intro h
      obtain ⟨h1, h2, h3⟩ := hposi h
      refine ⟨?_, by omega, h2, h3, hfin h⟩
      rw [hfin h]; exact h1
    · intro hret
      by_cases hle : work ≤ ((st.pending globals).length : Int)
      · have := (hzero hle).1
        omega
      · exact ⟨hfin (by omega), (hposi (by omega)).2.1⟩
  · intro budgets hpos
    obtain ⟨st1, vis, rets, hdrive, hcases⟩ := drive_spec globals budgets st hv hpos
    refine ⟨st1, vis, rets, hdrive, ?_⟩
    rcases hcases with ⟨n, r, h1, h2, _, h4⟩ | ⟨h1, _⟩
    · exact Or.inr ⟨n, r, h1, h2, h4⟩
    · exact Or.inl h1

theorem slice_return_protocol_witness :
    (SliceState.valid [[[10, 11], [12]]] SliceState.idle ∧ (0 : Int) < 3) ∧
    ((∃ res, caml_darken_all_roots_slice [[[10, 11], [12]]] SliceState.idle 3 = some res ∧
      res.state.valid [[[10, 11], [12]]] ∧
      ((3 : Int) ≤ (SliceState.idle.pending [[[10, 11], [12]]]).length →
        res.ret = 0 ∧ res.state.do_resume = true ∧ (res.visited.length : Int) = 3) ∧
      (((SliceState.idle.pending [[[10, 11], [12]]]).length : Int) < 3 →
        res.ret = 3 - res.visited.length ∧ 0 < res.ret ∧ res.state.do_resume = false ∧
          res.state.roots_count = 0 ∧
          res.visited = SliceState.idle.pending [[[10, 11], [12]]]) ∧
      (0 < res.ret →
        res.visited = SliceState.idle.pending [[[10, 11], [12]]] ∧
          res.state.do_resume = false)) ∧
    (∀ budgets : List Int, (∀ w ∈ budgets, 0 < w) →
      ∃ st1 vis rets, drive [[[10, 11], [12]]] SliceState.idle budgets = some (st1, vis, rets) ∧
        (rets = List.replicate budgets.length 0 ∨
          ∃ n r, rets = List.replicate n 0 ++ [r] ∧ 0 < r ∧ st1.do_resume = false))) :=
  ⟨⟨fun h => absurd h (by decide), by decide⟩,
    slice_return_protocol [[[10, 11], [12]]] SliceState.idle 3
      (fun h => absurd h (by decide)) (by decide)⟩

/-- C6 as stated fails: with a single field and a budget of `1`, the call visits the
field, so that every static global root has been darkened and nothing remains to visit,
and returns `0`, not a strictly positive value. -/
theorem slice_returns_zero_when_done :
    ∃ res, caml_darken_all_roots_slice [[[10]]] SliceState.idle 1 = some res ∧
      res.visited = do_roots_globals [[[10]]] ∧ res.state.pending [[[10]]] = [] ∧
      res.ret = 0 :=
  ⟨_, rfl, by decide, by decide, by decide⟩

/-- The work bound for positive budgets.  For a budget `work > 0` and a coordinator state
that is idle or suspended at a field, one call of the slice returns and hands at most `work`
global root fields to `caml_darken`.  The bound of the comment of the function ("at most
[work] global roots") is met on these budgets; `work = 0` is the budget on which it is not. -/
theorem slice_work_bound (globals : Globals) (st : SliceState) (work : Int)
    (hv : st.valid globals) (hw : 0 < work) :
    ∃ res, caml_darken_all_roots_slice globals st work = some res ∧
      (res.visited.length : Int) ≤ work := by
  obtain ⟨res, hres, _, hvis, _, _⟩ := slice_positive_budget globals st work hv hw
  refine ⟨res, hres, ?_⟩
  rw [hvis, List.length_take]
  omega

theorem slice_work_bound_witness :
    (SliceState.valid [[[10, 11], [12]]] SliceState.idle ∧ (0 : Int) < 2) ∧
    ∃ res, caml_darken_all_roots_slice [[[10, 11], [12]]] SliceState.idle 2 = some res ∧
      (res.visited.length : Int) ≤ 2 :=
  ⟨⟨fun h => absurd h (by decide), by decide⟩,
    slice_work_bound [[[10, 11], [12]]] SliceState.idle 2
      (fun h => absurd h (by decide)) (by decide)⟩

/-- C7 (defect).  The comment of `caml_darken_all_roots_slice` promises a call of
`caml_darken` on at most `work` global roots.  With a budget of `0`, the idle coordinator
and a single field, the call hands that field to `caml_darken`, one more than the budget,
and returns `-1`: the budget is decremented after the darkening and compared with `0` by
equality, so a budget of `0` goes negative and the walk never suspends. -/
theorem slice_zero_budget_visits :
    ∃ res, caml_darken_all_roots_slice [[[10]]] SliceState.idle 0 = some res ∧
      res.visited = [⟨0, 0, 0⟩] ∧ ¬ ((res.visited.length : Int) ≤ 0) ∧ res.ret = -1 :=
  ⟨_, rfl, by decide, by decide, by decide⟩

/-! ## The stride of the descriptors -/

theorem land_neg_pow_two (w k y : Nat) (hk : k ≤ w) (hy : y < 2 ^ w) :
    y &&& (2 ^ w - 2 ^ k) = y / 2 ^ k * 2 ^ k := by
  have h1 : 2 ^ w - 2 ^ k = 2 ^ k * (2 ^ (w - k) - 1) := by
    have : 2 ^ w = 2 ^ k * 2 ^ (w - k) := by rw [← pow_add]; congr 1; omega
    rw [this, Nat.mul_sub, Nat.mul_one]
  have h2 : y / 2 ^ k * 2 ^ k = 2 ^ k * (y >>> k) := by
    rw [Nat.shiftRight_eq_div_pow, Nat.mul_comm]
  rw [h1, h2]
  apply Nat.eq_of_testBit_eq
  intro i
  rw [Nat.testBit_and, Nat.testBit_mul_pow_two, Nat.testBit_mul_pow_two,
    Nat.testBit_two_pow_sub_one, Nat.testBit_shiftRight]
  by_cases hik : i ≥ k
  · have e : k + (i - k) = i := by omega
    rw [e]
    by_cases hiw : i < w
    · have : i - k < w - k := by omega
      simp [hik, this]
    · have hlt : y < 2 ^ i :=
        lt_of_lt_of_le hy (Nat.pow_le_pow_right (by omega) (by omega))
      rw [Nat.testBit_lt_two_pow hlt]
      simp
  · simp [hik]

theorem next_frame_descr_eq (P k : Nat) (hP : P = 2 ^ k) (d : frame_descr)
    (hfit : fits P d = true) : next_frame_descr P d = descr_end P d := by
  unfold fits at hfit
  simp only [decide_eq_true_eq] at hfit
  have hk : k ≤ 8 * P := by
    have := Nat.lt_two_pow k
    omega
  have hPpos : 0 < P := by rw [hP]; exact Nat.two_pow_pos k
  have hsum : d.addr + P + 2 + 2 + 2 * d.num_live + P - 1 < 2 ^ (8 * P) := by omega
  have hmask : ((d.addr + P + 2 + 2 + 2 * d.num_live + P - 1) % 2 ^ (8 * P)) &&&
      (2 ^ (8 * P) - P) = round_up P (d.addr + P + 2 + 2 + 2 * d.num_live) := by
    rw [Nat.mod_eq_of_lt hsum]
    unfold round_up
    rw [hP]
    exact land_neg_pow_two (8 * 2 ^ k) k _ (by rw [← hP]; exact hk) (by rw [← hP]; exact hsum)
  have hle : round_up P (d.addr + P + 2 + 2 + 2 * d.num_live) ≤
      d.addr + P + 2 + 2 + 2 * d.num_live + P - 1 := by
    unfold round_up
    exact Nat.div_mul_le_self _ _
  unfold next_frame_descr descr_end
  simp only
  rw [hmask, Nat.and_one_is_mod]
  by_cases hc : d.frame_size % 2 = 1 ∧ d.frame_size ≠ 65535
  · have hc1 : d.frame_size % 2 ≠ 0 ∧ d.frame_size ≠ 65535 := ⟨by omega, hc.2⟩
    rw [if_pos hc1, if_pos hc]
    exact Nat.mod_eq_of_lt (by omega)
  · have hc1 : ¬ (d.frame_size % 2 ≠ 0 ∧ d.frame_size ≠ 65535) := by
      intro h; exact hc ⟨by omega, h.2⟩
    rw [if_neg hc1, if_neg hc]
    rfl

theorem table_descrs_laid_out (P k : Nat) (hP : P = 2 ^ k) (mem : Nat → Option frame_descr) :
    ∀ (ds : List frame_descr) (a : Nat), laid_out P a ds = true →
      (∀ d ∈ ds, fits P d = true) → (∀ d ∈ ds, mem d.addr = some d) →
      table_descrs P mem ds.length a = some ds := by
  intro ds
  induction ds with
  | nil => intro a _ _ _; rfl
  | cons d ds ih =>
    intro a hlaid hfits hmem
    simp only [laid_out, Bool.and_eq_true, decide_eq_true_eq] at hlaid
    obtain ⟨haddr, hrest⟩ := hlaid
    have hd := hmem d (List.mem_cons_self _ _)
    rw [haddr] at hd
    simp only [List.length_cons, table_descrs, hd]
    rw [next_frame_descr_eq P k hP d (hfits d (List.mem_cons_self _ _)),
      ih _ hrest (fun e he => hfits e (List.mem_cons_of_mem _ he))
        (fun e he => hmem e (List.mem_cons_of_mem _ he))]

/-- C11.  Descriptor stride: for a pointer size `P` that is a power of two, and a
descriptor at address `d.addr` with live-slot count `d.num_live` and frame-size field
`d.frame_size` whose record ends inside the address space, `next_frame_descr` returns
`d.addr + P + 2 + 2 + 2 * d.num_live` rounded up to the next multiple of `P`, plus `8`
exactly when the low bit of the frame size is set and the frame size is not `0xFFFF`;
and iterating it from the table base plus one word, count times, enumerates exactly the
descriptors of a table laid out as the count followed by the descriptor records. -/
theorem descriptor_stride (P k : Nat) (hP : P = 2 ^ k) :
    (∀ d : frame_descr, fits P d = true →
      next_frame_descr P d =
        round_up P (d.addr + P + 2 + 2 + 2 * d.num_live) +
          (if d.frame_size % 2 = 1 ∧ d.frame_size ≠ 0xFFFF then 8 else 0)) ∧
    (∀ (t : frametable) (mem : Nat → Option frame_descr),
      laid_out P (t.base + P) t.descrs = true → (∀ d ∈ t.descrs, fits P d = true) →
      (∀ d ∈ t.descrs, mem d.addr = some d) →
      table_descrs P mem t.descrs.length (t.base + P) = some t.descrs) :=
  ⟨fun d hfit => next_frame_descr_eq P k hP d hfit,
    fun t mem hlaid hfits hmem => table_descrs_laid_out P k hP mem t.descrs _ hlaid hfits hmem⟩

theorem descriptor_stride_witness :
    (8 = 2 ^ 3) ∧
    next_frame_descr 8 ⟨4128, 808, 33, 0⟩ = round_up 8 (4128 + 8 + 2 + 2 + 2 * 0) + 8 ∧
    next_frame_descr 8 ⟨4128, 808, 33, 0⟩ = 4152 ∧
    table_descrs 8 sample_layout.mem sample_layout.descrs.length (sample_layout.base + 8)
      = some sample_layout.descrs :=
  ⟨by decide, (descriptor_stride 8 3 (by decide)).1 ⟨4128, 808, 33, 0⟩ (by decide),
    by decide,
    (descriptor_stride 8 3 (by decide)).2 sample_layout sample_layout.mem (by decide)
      (by decide) (by decide)⟩

/-! ## What deletion and insertion do to the contents of the index -/

theorem scan_index_set_some (y : frame_descr) :
    ∀ (tbl : Index) (k : Nat), tbl[k]? = some none →
      (scan_index (tbl.set k (some y))).Perm (y :: scan_index tbl) := by
  intro tbl
  induction tbl with
  | nil => intro k h; simp at h
  | cons a rest ih =>
    intro k h
    cases k with
    | zero =>
      simp only [List.getElem?_cons_zero, Option.some.injEq] at h
      subst h
      simp [scan_index]
    | succ k =>
      simp only [List.getElem?_cons_succ] at h
      have := ih k h
      cases a with
      | none => simpa [scan_index] using this
      | some z =>
        simp only [scan_index, List.set_cons_succ, List.filterMap_cons_some, id] at this ⊢
        exact (List.Perm.cons z this).trans (List.Perm.swap y z _)

theorem scan_index_set_none (y : frame_descr) :
    ∀ (tbl : Index) (k : Nat), tbl[k]? = some (some y) →
      (scan_index tbl).Perm (y :: scan_index (tbl.set k none)) := by
  intro tbl
  induction tbl with
  | nil => intro k h; simp at h
  | cons a rest ih =>
    intro k h
    cases k with
    | zero =>
      simp only [List.getElem?_cons_zero, Option.some.injEq] at h
      subst h
      simp [scan_index]
    | succ k =>
      simp only [List.getElem?_cons_succ] at h
      have := ih k h
      cases a with
      | none => simpa [scan_index] using this
      | some z =>
        simp only [scan_index, List.set_cons_succ, List.filterMap_cons_some, id] at this ⊢
        exact (List.Perm.cons z this).trans (List.Perm.swap y z _)

theorem shift_entries_perm (hash : Nat → Nat) (mask : Nat) :
    ∀ (fuel : Nat) (tbl : Index) (j i : Nat) (tbl1 : Index),
      shift_entries hash mask fuel tbl j i = some tbl1 → tbl[j]? = some none →
      tbl1.length = tbl.length ∧ (scan_index tbl1).Perm (scan_index tbl) := by
  intro fuel
  induction fuel with
  | zero => intro tbl j i tbl1 h _; simp [shift_entries] at h
  | succ f ih =>
    intro tbl j i tbl1 h hgap
    unfold shift_entries at h
    simp only at h
    rcases hslot : tbl[(i + 1) &&& mask]? with _ | slot
    · rw [hslot] at h; simp at h
    · cases slot with
      | none =>
        rw [hslot] at h
        simp only [Option.some.injEq] at h
        subst h
        exact ⟨rfl, List.Perm.refl _⟩
      | some y =>
        rw [hslot] at h
        simp only at h
        split at h
        · exact ih tbl j _ tbl1 h hgap
        · have hne : j ≠ (i + 1) &&& mask := by
            intro heq; rw [← heq, hgap] at hslot; simp at hslot
          have hlt : (i + 1) &&& mask < tbl.length := (List.getElem?_eq_some.1 hslot).1
          have h1 : ((tbl.set j (some y)).set ((i + 1) &&& mask) none)[(i + 1) &&& mask]?
              = some none := by
            rw [List.getElem?_set_self (by rw [List.length_set]; exact hlt)]
          obtain ⟨hl, hp⟩ := ih _ _ _ tbl1 h h1
          refine ⟨by rw [hl, List.length_set, List.length_set], hp.trans ?_⟩
          have hA := scan_index_set_some y tbl j hgap
          have hB := scan_index_set_none y (tbl.set j (some y)) ((i + 1) &&& mask)
            (by rw [List.getElem?_set_ne hne]; exact hslot)
          exact (List.perm_cons y).1 (hB.symm.trans hA)

theorem find_entry_found (tbl : Index) (mask : Nat) (d : frame_descr) :
    ∀ (fuel i k : Nat), find_entry tbl mask d fuel i = some k → tbl[k]? = some (some d) := by
  intro fuel
  induction fuel with
  | zero => intro i k h; simp [find_entry] at h
  | succ f ih =>
    intro i k h
    unfold find_entry at h
    rcases hslot : tbl[i]? with _ | slot
    · rw [hslot] at h; simp at h
    · rw [hslot] at h
      simp only at h
      split at h
      · next hs =>
        simp only [Option.some.injEq] at h
        subst h; rw [hslot, hs]
      · exact ih _ _ h

theorem remove_entry_perm (hash : Nat → Nat) (mask : Nat) (tbl tbl1 : Index) (d : frame_descr)
    (h : remove_entry hash mask tbl d = some tbl1) :
    tbl1.length = tbl.length ∧ (scan_index tbl).Perm (d :: scan_index tbl1) := by
  unfold remove_entry at h
  split at h
  · simp at h
  · next i0 hfind =>
    have hd := find_entry_found tbl mask d _ _ _ hfind
    have hlt : i0 < tbl.length := (List.getElem?_eq_some.1 hd).1
    obtain ⟨hl, hp⟩ := shift_entries_perm hash mask _ _ _ _ tbl1 h
      (by rw [List.getElem?_set_self hlt])
    refine ⟨by rw [hl, List.length_set], ?_⟩
    exact (scan_index_set_none d tbl i0 hd).trans (List.Perm.cons d hp.symm)

/-- C14.  `remove_entry` removes exactly one entry: in an index whose capacity is a power
of two, that has an empty slot and contains `d`, `remove_entry d` returns, the non-empty
slot contents afterwards are, as a multiset, those before the call minus one occurrence
of `d`, and the number of slots is unchanged (the mask is not written). -/
theorem remove_entry_removes_one (hash : Nat → Nat) (s : State) (d : frame_descr)
    (hlen : s.caml_frame_descriptors.length = s.capacity) (hp : ∃ p, s.capacity = 2 ^ p)
    (hempty : none ∈ s.caml_frame_descriptors)
    (hd : d ∈ scan_index s.caml_frame_descriptors) :
    ∃ tbl1, remove_entry hash s.caml_frame_descriptors_mask s.caml_frame_descriptors d
        = some tbl1 ∧
      (scan_index tbl1).Perm ((scan_index s.caml_frame_descriptors).erase d) ∧
      tbl1.length = s.capacity := by
  obtain ⟨p, hp⟩ := hp
  obtain ⟨E, hE⟩ := List.mem_iff_getElem?.1 hempty
  obtain ⟨S, hS⟩ := (mem_scan_index _ _).1 hd
  obtain ⟨tbl1, hrem, _, _⟩ := remove_entry_spec hash hlen hp hE hS
  obtain ⟨hl, hperm⟩ := remove_entry_perm hash _ _ _ _ hrem
  refine ⟨tbl1, hrem, ?_, by rw [hl, hlen]⟩
  have h1 := List.perm_cons_erase hd
  exact ((List.perm_cons d).1 (hperm.symm.trans h1))

theorem remove_entry_removes_one_witness :
    ∃ tbl1, remove_entry shift_hash 7
        [none, some ⟨8, 8, 0, 0⟩, some ⟨16, 72, 0, 0⟩, some ⟨24, 136, 0, 0⟩,
          none, none, none, none] ⟨8, 8, 0, 0⟩ = some tbl1 ∧
      (scan_index tbl1).Perm
        ((scan_index [none, some ⟨8, 8, 0, 0⟩, some ⟨16, 72, 0, 0⟩, some ⟨24, 136, 0, 0⟩,
          none, none, none, none]).erase ⟨8, 8, 0, 0⟩) ∧
      tbl1.length = 8 :=
  remove_entry_removes_one shift_hash
    { caml_frame_descriptors :=
        [none, some ⟨8, 8, 0, 0⟩, some ⟨16, 72, 0, 0⟩, some ⟨24, 136, 0, 0⟩,
          none, none, none, none],
      caml_frame_descriptors_mask := 7,
      frametables := [sample_a], num_descr := 3 }
    ⟨8, 8, 0, 0⟩ (by decide) ⟨3, by decide⟩ (by decide) (by decide)

/-! ## Termination of `remove_entry` -/

theorem shift_scan_fst (hash : Nat → Nat) (mask : Nat) :
    ∀ (fuel : Nat) (tbl : Index) (j i : Nat),
      shift_entries hash mask fuel tbl j i =
        (shift_scan hash mask fuel tbl j i).map (fun r => r.1) := by
  intro fuel
  induction fuel with
  | zero => intro tbl j i; rfl
  | succ f ih =>
    intro tbl j i
    unfold shift_entries shift_scan
    simp only
    rcases tbl[(i + 1) &&& mask]? with _ | slot
    · rfl
    · cases slot with
      | none => rfl
      | some y =>
        simp only
        split
        · exact ih _ _ _
        · exact ih _ _ _

theorem insert_probe_run {tbl : Index} {mask p E s : Nat} (hp : mask + 1 = 2 ^ p)
    (hE : E ≤ mask) (hempty : tbl[E]? = some none) (hs : s ≤ mask)
    (hsempty : tbl[s]? = some none) :
    ∀ (fuel a : Nat), a ≤ mask → rank (mask + 1) E a ≤ rank (mask + 1) E s →
      (∀ x, x ≤ mask → rank (mask + 1) E a ≤ rank (mask + 1) E x →
        rank (mask + 1) E x < rank (mask + 1) E s → ∃ y, tbl[x]? = some (some y)) →
      rank (mask + 1) E s - rank (mask + 1) E a < fuel →
      insert_probe tbl mask fuel a = some s := by
  intro fuel
  induction fuel with
  | zero => intro a _ _ _ hf; omega
  | succ f ih =>
    intro a ha hle hocc hf
    unfold insert_probe
    by_cases has : a = s
    · subst has; rw [hsempty]
    · have hlt : rank (mask + 1) E a < rank (mask + 1) E s := by
        rcases Nat.lt_or_ge (rank (mask + 1) E a) (rank (mask + 1) E s) with h1 | h1
        · exact h1
        · have heq : rank (mask + 1) E a = rank (mask + 1) E s := by omega
          exact absurd (rank_inj (by omega) (by omega) (by omega) heq) has
      obtain ⟨y, hy⟩ := hocc a ha (le_refl _) hlt
      rw [hy]
      simp only
      have hne : a ≠ E := by
        intro heq; subst heq; rw [hempty] at hy; simp at hy
      have hr := rank_next hp hE ha hne
      refine ih _ (land_mask_le hp a ha) (by omega) ?_ (by omega)
      intro x hx h1 h2
      exact hocc x hx (by omega) h2

theorem shift_scan_spec (hash : Nat → Nat) {mask p E : Nat} (hp : mask + 1 = 2 ^ p)
    (hE : E ≤ mask) :
    ∀ (fuel : Nat) (tbl : Index) (j i : Nat), tbl.length = mask + 1 → j ≤ mask → i ≤ mask →
      tbl[E]? = some none → j ≠ E → i ≠ E →
      rank (mask + 1) E j ≤ rank (mask + 1) E i →
      tbl[j]? = some none →
      (∀ x, x ≤ mask → rank (mask + 1) E j < rank (mask + 1) E x →
        rank (mask + 1) E x ≤ rank (mask + 1) E i → ∃ y, tbl[x]? = some (some y)) →
      mask - rank (mask + 1) E i < fuel →
      ∃ tbl1 j1 i1, shift_scan hash mask fuel tbl j i = some (tbl1, j1, i1) ∧
        tbl1.length = mask + 1 ∧ tbl1[E]? = some none ∧ j1 ≤ mask ∧ i1 ≤ mask ∧ j1 ≠ E ∧
        tbl1[j1]? = some none ∧ tbl1[i1]? = some none ∧
        rank (mask + 1) E j1 < rank (mask + 1) E i1 ∧
        (∀ x, x ≤ mask → rank (mask + 1) E j1 < rank (mask + 1) E x →
          rank (mask + 1) E x < rank (mask + 1) E i1 → ∃ y, tbl1[x]? = some (some y)) := by
  intro fuel
  induction fuel with
  | zero => intro tbl j i _ _ _ _ _ _ _ _ _ hf; omega
  | succ f ih =>
    intro tbl j i hlen hj hi hempty hjE hiE hji hgap hocc hf
    have hr := rank_next hp hE hi hiE
    have hi1 := land_mask_le hp i hi
    have hrl := rank_lt (n := mask + 1) (E := E) (x := (i + 1) &&& mask) (by omega) (by omega)
    have hi1j : (i + 1) &&& mask ≠ j := by
      intro h; rw [h] at hr; omega
    unfold shift_scan
    simp only
    rcases hslot : tbl[(i + 1) &&& mask]? with _ | slot
    · rw [List.getElem?_eq_none_iff] at hslot; omega
    · cases slot with
      | none =>
        simp only
        refine ⟨tbl, j, _, rfl, hlen, hempty, hj, hi1, hjE, hgap, hslot, by omega, ?_⟩
        intro x hx h1 h2
        exact hocc x hx h1 (by omega)
      | some y =>
        simp only
        have hi1E : (i + 1) &&& mask ≠ E := by
          intro h; rw [h, hempty] at hslot; simp at hslot
        split
        · refine ih tbl j _ hlen hj hi1 hempty hjE hi1E (by omega) hgap ?_ (by omega)
          intro x hx h1 h2
          by_cases hxi : rank (mask + 1) E x ≤ rank (mask + 1) E i
          · exact hocc x hx h1 hxi
          · have heq : rank (mask + 1) E x = rank (mask + 1) E ((i + 1) &&& mask) := by omega
            have := rank_inj (by omega) (by omega) (by omega) heq
            rw [this]; exact ⟨y, hslot⟩
        · refine ih ((tbl.set j (some y)).set ((i + 1) &&& mask) none) _ _
            (by rw [List.length_set, List.length_set]; exact hlen) hi1 hi1 ?_ hi1E hi1E
            (le_refl _) ?_ ?_ (by omega)
          · rw [List.getElem?_set_ne hi1E, List.getElem?_set_ne hjE]; exact hempty
          · rw [List.getElem?_set_self (by rw [List.length_set]; omega)]
          · intro x hx h1 h2; omega

/-- C20.  `remove_entry` terminates: in an index whose capacity is a power of two, that
contains `d` and has an empty slot, the search loop stops within `capacity` probes at a
slot holding `d`, and the backward-shift loop stops within `capacity` probes; it stops
at the first empty slot met by probing from the slot after the final gap. -/
theorem remove_entry_terminates (hash : Nat → Nat) (s : State) (d : frame_descr)
    (hlen : s.caml_frame_descriptors.length = s.capacity) (hp : ∃ p, s.capacity = 2 ^ p)
    (hempty : none ∈ s.caml_frame_descriptors)
    (hd : d ∈ scan_index s.caml_frame_descriptors) :
    ∃ i0 tbl1 j i,
      find_entry s.caml_frame_descriptors s.caml_frame_descriptors_mask d s.capacity
        (Hash_retaddr hash s.caml_frame_descriptors_mask d.retaddr) = some i0 ∧
      s.caml_frame_descriptors[i0]? = some (some d) ∧
      shift_scan hash s.caml_frame_descriptors_mask s.capacity
        (s.caml_frame_descriptors.set i0 none) i0 i0 = some (tbl1, j, i) ∧
      remove_entry hash s.caml_frame_descriptors_mask s.caml_frame_descriptors d = some tbl1 ∧
      tbl1[j]? = some none ∧ tbl1[i]? = some none ∧
      insert_probe tbl1 s.caml_frame_descriptors_mask s.capacity
        ((j + 1) &&& s.caml_frame_descriptors_mask) = some i := by
  obtain ⟨p, hp⟩ := hp
  unfold State.capacity at hlen hp ⊢
  obtain ⟨E, hEm⟩ := List.mem_iff_getElem?.1 hempty
  obtain ⟨S, hS⟩ := (mem_scan_index _ _).1 hd
  have hE := getElem?_le_of_some hlen hEm
  have hSle := getElem?_le_of_some hlen hS
  have hhd := Hash_retaddr_le hash s.caml_frame_descriptors_mask d.retaddr
  have hrd := rank_lt (n := s.caml_frame_descriptors_mask + 1) (E := S)
    (x := Hash_retaddr hash s.caml_frame_descriptors_mask d.retaddr) (by omega) (by omega)
  obtain ⟨i0, hfind, hi0, hi0d⟩ := find_entry_total hlen hp hSle hS
    (s.caml_frame_descriptors_mask + 1)
    (Hash_retaddr hash s.caml_frame_descriptors_mask d.retaddr) hhd (by omega)
  have hi0E : i0 ≠ E := by
    intro h; rw [h, hEm] at hi0d; simp at hi0d
  have hri0 := rank_lt (n := s.caml_frame_descriptors_mask + 1) (E := E) (x := i0)
    (by omega) (by omega)
  obtain ⟨tbl1, j, i, hscan, hl1, hE1, hj, hi, hjE, hgap, hstop, hlt, hocc⟩ :=
    shift_scan_spec hash hp hE (s.caml_frame_descriptors_mask + 1)
      (s.caml_frame_descriptors.set i0 none) i0 i0 (by rw [List.length_set]; exact hlen)
      hi0 hi0 (by rw [List.getElem?_set_ne hi0E]; exact hEm) hi0E hi0E (le_refl _)
      (by rw [List.getElem?_set_self (by omega)]) (by intro x _ h1 h2; omega) (by omega)
  refine ⟨i0, tbl1, j, i, hfind, hi0d, hscan, ?_, hgap, hstop, ?_⟩
  · unfold remove_entry
    rw [hlen, hfind]
    simp only
    rw [shift_scan_fst, hscan]
    rfl
  · have hr := rank_next hp hE hj hjE
    have hri := rank_lt (n := s.caml_frame_descriptors_mask + 1) (E := E) (x := i)
      (by omega) (by omega)
    refine insert_probe_run hp hE hE1 hi hstop _ _ (land_mask_le hp j hj) (by omega) ?_
      (by omega)
    intro x hx h1 h2
    exact hocc x hx (by omega) h2

theorem remove_entry_terminates_witness :
    ∃ i0 tbl1 j i,
      find_entry [none, some ⟨8, 8, 0, 0⟩, some ⟨16, 72, 0, 0⟩, some ⟨24, 136, 0, 0⟩,
          none, none, none, none] 7 ⟨8, 8, 0, 0⟩ 8
        (Hash_retaddr shift_hash 7 8) = some i0 ∧
      [none, some ⟨8, 8, 0, 0⟩, some ⟨16, 72, 0, 0⟩, some ⟨24, 136, 0, 0⟩,
          none, none, none, none][i0]? = some (some (⟨8, 8, 0, 0⟩ : frame_descr)) ∧
      shift_scan shift_hash 7 8
        ([none, some ⟨8, 8, 0, 0⟩, some ⟨16, 72, 0, 0⟩, some ⟨24, 136, 0, 0⟩,
          none, none, none, none].set i0 none) i0 i0 = some (tbl1, j, i) ∧
      remove_entry shift_hash 7
        [none, some ⟨8, 8, 0, 0⟩, some ⟨16, 72, 0, 0⟩, some ⟨24, 136, 0, 0⟩,
          none, none, none, none] ⟨8, 8, 0, 0⟩ = some tbl1 ∧
      tbl1[j]? = some none ∧ tbl1[i]? = some none ∧
      insert_probe tbl1 7 8 ((j + 1) &&& 7) = some i :=
  remove_entry_terminates shift_hash
    { caml_frame_descriptors :=
        [none, some ⟨8, 8, 0, 0⟩, some ⟨16, 72, 0, 0⟩, some ⟨24, 136, 0, 0⟩,
          none, none, none, none],
      caml_frame_descriptors_mask := 7,
      frametables := [sample_a], num_descr := 3 }
    ⟨8, 8, 0, 0⟩ (by decide) ⟨3, by decide⟩ (by decide) (by decide)

/-! ## Insertion in place, and the entry counter -/

theorem occupied_eq_scan_length (tbl : Index) : occupied tbl = (scan_index tbl).length := by
  unfold occupied scan_index
  induction tbl with
  | nil => rfl
  | cons a rest ih =>
    cases a with
    | none => simpa using ih
    | some z => simp [List.countP_cons, ih]

theorem insert_descr_frame (hash : Nat → Nat) (mask : Nat) (tbl tbl1 : Index) (d : frame_descr)
    (h : insert_descr hash mask tbl d = some tbl1) :
    tbl1.length = tbl.length ∧
      (∀ (x : Nat) (e : frame_descr), tbl[x]? = some (some e) → tbl1[x]? = some (some e)) ∧
      (scan_index tbl1).Perm (d :: scan_index tbl) := by
  unfold insert_descr at h
  split at h
  · simp at h
  · next k hk =>
    simp only [Option.some.injEq] at h
    subst h
    have hempty := insert_probe_empty tbl mask _ _ _ hk
    refine ⟨by rw [List.length_set], ?_, scan_index_set_some d tbl k hempty⟩
    intro x e hx
    have hne : k ≠ x := by
      intro heq; subst heq; rw [hempty] at hx; simp at hx
    rw [List.getElem?_set_ne hne]; exact hx

theorem fill_table_frame (hash : Nat → Nat) (mask : Nat) :
    ∀ (ds : List frame_descr) (tbl tbl1 : Index), fill_table hash mask ds tbl = some tbl1 →
      tbl1.length = tbl.length ∧
        (∀ (x : Nat) (e : frame_descr), tbl[x]? = some (some e) → tbl1[x]? = some (some e)) ∧
        (scan_index tbl1).Perm (ds ++ scan_index tbl) := by
  intro ds
  induction ds with
  | nil =>
    intro tbl tbl1 h
    simp only [fill_table, Option.some.injEq] at h
    subst h
    exact ⟨rfl, fun _ _ hx => hx, List.Perm.refl _⟩
  | cons d ds ih =>
    intro tbl tbl1 h
    unfold fill_table at h
    split at h
    · simp at h
    · next t1 h1 =>
      obtain ⟨hl1, hk1, hp1⟩ := insert_descr_frame hash mask _ _ _ h1
      obtain ⟨hl2, hk2, hp2⟩ := ih _ _ h
      refine ⟨by rw [hl2, hl1], fun x e hx => hk2 x e (hk1 x e hx), ?_⟩
      refine hp2.trans ?_
      refine (List.Perm.append_left ds hp1).trans ?_
      simp only [List.cons_append]
      exact List.perm_middle

theorem fill_hashtable_frame (hash : Nat → Nat) (mask : Nat) :
    ∀ (ts : List frametable) (tbl tbl1 : Index), fill_hashtable hash mask ts tbl = some tbl1 →
      tbl1.length = tbl.length ∧
        (∀ (x : Nat) (e : frame_descr), tbl[x]? = some (some e) → tbl1[x]? = some (some e)) ∧
        (scan_index tbl1).Perm (all_descrs ts ++ scan_index tbl) := by
  intro ts
  induction ts with
  | nil =>
    intro tbl tbl1 h
    simp only [fill_hashtable, Option.some.injEq] at h
    subst h
    exact ⟨rfl, fun _ _ hx => hx, List.Perm.refl _⟩
  | cons t ts ih =>
    intro tbl tbl1 h
    unfold fill_hashtable at h
    split at h
    · simp at h
    · next t1 h1 =>
      obtain ⟨hl1, hk1, hp1⟩ := fill_table_frame hash mask _ _ _ h1
      obtain ⟨hl2, hk2, hp2⟩ := ih _ _ h
      refine ⟨by rw [hl2, hl1], fun x e hx => hk2 x e (hk1 x e hx), ?_⟩
      refine hp2.trans ?_
      refine (List.Perm.append_left (all_descrs ts) hp1).trans ?_
      simp only [all_descrs, List.append_assoc]
      exact List.perm_append_comm_assoc _ _ _

theorem remove_entries_frame (hash : Nat → Nat) (mask : Nat) :
    ∀ (ds : List frame_descr) (tbl tbl1 : Index), remove_entries hash mask ds tbl = some tbl1 →
      tbl1.length = tbl.length ∧ occupied tbl1 + ds.length = occupied tbl := by
  intro ds
  induction ds with
  | nil =>
    intro tbl tbl1 h
    simp only [remove_entries, Option.some.injEq] at h
    subst h
    exact ⟨rfl, rfl⟩
  | cons d ds ih =>
    intro tbl tbl1 h
    unfold remove_entries at h
    split at h
    · simp at h
    · next t1 h1 =>
      obtain ⟨hl1, hp1⟩ := remove_entry_perm hash mask _ _ _ h1
      obtain ⟨hl2, ho2⟩ := ih _ _ h
      refine ⟨by rw [hl2, hl1], ?_⟩
      have h3 := hp1.length_eq
      rw [List.length_cons, ← occupied_eq_scan_length tbl, ← occupied_eq_scan_length t1] at h3
      rw [List.length_cons]
      omega

theorem index_inv_unregister (hash : Nat → Nat) (s s1 : State) (t : frametable)
    (h : caml_unregister_frametable hash t s = some s1) (hinv : IndexInv s) : IndexInv s1 := by
  obtain ⟨hpow, hlen, hocc, hcap⟩ := hinv
  unfold caml_unregister_frametable at h
  split at h
  · simp at h
  · next tbl hrem =>
    simp only [Option.some.injEq] at h
    subst h
    obtain ⟨hl, ho⟩ := remove_entries_frame hash _ _ _ _ hrem
    refine ⟨hpow, ?_, by simp only; omega, hcap⟩
    rcases hlen with hlen | ⟨hnil, hmask, hzero⟩
    · exact Or.inl (by simp only; omega)
    · refine Or.inr ⟨?_, hmask, hzero⟩
      simp only
      rw [hnil] at hl
      exact List.length_eq_zero.1 hl

theorem index_inv_register (hash : Nat → Nat) (s : State) (ts : List frametable)
    (hne : ts ≠ []) (hinv : IndexInv s) :
    ∃ s1, init_frame_descriptors hash s ts = some s1 ∧ IndexInv s1 := by
  by_cases hbranch : s.caml_frame_descriptors_mask + 1 < (s.num_descr + count_descriptors ts) * 2
  · obtain ⟨s1, h1, h2, _, _⟩ := init_rebuild_inv hash s ts hne hbranch
    exact ⟨s1, h1, h2⟩
  · obtain ⟨⟨p, hp⟩, hlen, hocc, hcap⟩ := hinv
    have hunfold : ∀ tbl, fill_hashtable hash s.caml_frame_descriptors_mask ts
        s.caml_frame_descriptors = some tbl →
        init_frame_descriptors hash s ts =
          some { caml_frame_descriptors := tbl,
                 caml_frame_descriptors_mask := s.caml_frame_descriptors_mask,
                 frametables := ts ++ s.frametables,
                 num_descr := s.num_descr + count_descriptors ts } := by
      intro tbl hfill
      unfold init_frame_descriptors
      cases ts with
      | nil => exact absurd rfl hne
      | cons t tl =>
        simp only
        rw [if_neg hbranch, hfill]
    rcases hlen with hlen | ⟨hnil, hmask, hzero⟩
    · obtain ⟨tbl, hfill, hl, ho, _, _⟩ := fill_hashtable_spec hash hp ts
        s.caml_frame_descriptors hlen (by omega)
      exact ⟨_, hunfold tbl hfill, ⟨⟨p, hp⟩, Or.inl (by simp only; omega), by simp only; omega,
        by simp only; omega⟩⟩
    · have hcount : count_descriptors ts = 0 := by omega
      have hfill := fill_hashtable_nothing hash s.caml_frame_descriptors_mask ts
        s.caml_frame_descriptors hcount
      exact ⟨_, hunfold _ hfill, ⟨⟨p, hp⟩, Or.inr ⟨hnil, hmask, by simp only; omega⟩,
        by simp only; omega, by simp only; omega⟩⟩

theorem index_inv_apply (hash : Nat → Nat) (s s1 : State) (op : Op)
    (h : op.apply hash s = some s1) (hinv : IndexInv s) : IndexInv s1 := by
  have hreg : ∀ ts, init_frame_descriptors hash s ts = some s1 → IndexInv s1 := by
    intro ts hts
    have hne := (init_frame_descriptors_cases hash s s1 ts hts).1
    obtain ⟨s2, h2, hinv2⟩ := index_inv_register hash s ts hne hinv
    rw [hts] at h2
    rw [Option.some.inj h2]
    exact hinv2
  cases op with
  | init ts => exact hreg ts.reverse h
  | register t => exact hreg [t] h
  | unregister t => exact index_inv_unregister hash s s1 t h hinv

theorem index_inv_run (hash : Nat → Nat) :
    ∀ (ops : List Op) (s s1 : State), run hash s ops = some s1 → IndexInv s → IndexInv s1 := by
  intro ops
  induction ops with
  | nil =>
    intro s s1 h hinv
    rw [← Option.some.inj h]; exact hinv
  | cons op ops ih =>
    intro s s1 h hinv
    unfold run at h
    split at h
    · simp at h
    · next s2 hop => exact ih s2 s1 h (index_inv_apply hash s s2 op hop hinv)

/-- C15.  Insertion probing terminates: an index whose capacity is a power of two and
that holds strictly fewer occupied slots than its capacity gives every probe loop of
`fill_hashtable` an empty slot within `capacity` probes; and in every state reached by
registrations and unregistrations, every registration call returns, all its insertions
done, in a state that still holds strictly fewer occupied slots than its capacity. -/
theorem insertion_probes_terminate (hash : Nat → Nat) (ops : List Op) (s : State)
    (h : run hash State.initial ops = some s) :
    (∀ (tbl : Index) (mask p : Nat) (d : frame_descr), tbl.length = mask + 1 →
      mask + 1 = 2 ^ p → occupied tbl < tbl.length →
      ∃ k, insert_probe tbl mask tbl.length (Hash_retaddr hash mask d.retaddr) = some k ∧
        tbl[k]? = some none) ∧
    (∀ op : Op, op.registers = true →
      ∃ s1, op.apply hash s = some s1 ∧
        occupied s1.caml_frame_descriptors < s1.capacity) := by
  constructor
  · intro tbl mask p d hlen hp hocc
    obtain ⟨E, hE, hempty⟩ := exists_empty_slot tbl hocc
    have hh := Hash_retaddr_le hash mask d.retaddr
    have hr := rank_lt (n := mask + 1) (E := E) (x := Hash_retaddr hash mask d.retaddr)
      (by omega) (by omega)
    obtain ⟨k, hk⟩ := insert_probe_total hlen hp (by omega) hempty tbl.length
      (Hash_retaddr hash mask d.retaddr) hh (by omega)
    exact ⟨k, hk, insert_probe_empty tbl mask _ _ _ hk⟩
  · intro op hop
    have hinv := index_inv_run hash ops _ _ h initial_inv
    have hts : ∀ ts, ts ≠ [] → ∃ s1, init_frame_descriptors hash s ts = some s1 ∧
        occupied s1.caml_frame_descriptors < s1.capacity := by
      intro ts hne
      obtain ⟨s1, h1, ⟨⟨p, hp⟩, _, hocc, hcap⟩⟩ := index_inv_register hash s ts hne hinv
      refine ⟨s1, h1, ?_⟩
      unfold State.capacity
      have hpos : 0 < 2 ^ p := Nat.two_pow_pos p
      omega
    cases op with
    | init ts =>
      have hne : ts.reverse ≠ [] := by
        intro hnil
        have : ts = [] := by simpa using hnil
        subst this
        simp [Op.registers] at hop
      exact hts ts.reverse hne
    | register t => exact hts [t] (by simp)
    | unregister t => simp [Op.registers] at hop

theorem insertion_probes_terminate_witness :
    ∃ s, run shift_hash State.initial
        [Op.register sample_a, Op.register sample_b, Op.unregister sample_a] = some s ∧
      ∃ s1, Op.apply shift_hash s (Op.register sample_c) = some s1 ∧
        occupied s1.caml_frame_descriptors < s1.capacity := by
  refine ⟨_, rfl, ?_⟩
  exact (insertion_probes_terminate shift_hash
    [Op.register sample_a, Op.register sample_b, Op.unregister sample_a] _ rfl).2
    (Op.register sample_c) rfl

/-- C16.  In-place extension leaves the existing index untouched: when
`init_frame_descriptors` takes the insert-in-place branch and returns, the capacity is
unchanged, every slot occupied before the call holds the same descriptor afterwards, the
stored descriptors afterwards are those stored before together with the descriptors of
the new tables, and the registry list is the new tables followed by the previous
registry list; and in every state reached by registrations and unregistrations the call
does return. -/
theorem inplace_extension (hash : Nat → Nat) (s : State) (ts : List frametable)
    (hne : ts ≠ []) (hbranch : ¬ s.capacity < (s.num_descr + count_descriptors ts) * 2) :
    (∀ s1, init_frame_descriptors hash s ts = some s1 →
      s1.capacity = s.capacity ∧
      s1.caml_frame_descriptors.length = s.caml_frame_descriptors.length ∧
      (∀ (x : Nat) (e : frame_descr), s.caml_frame_descriptors[x]? = some (some e) →
        s1.caml_frame_descriptors[x]? = some (some e)) ∧
      (scan_index s1.caml_frame_descriptors).Perm
        (all_descrs ts ++ scan_index s.caml_frame_descriptors) ∧
      s1.frametables = ts ++ s.frametables) ∧
    (∀ ops : List Op, run hash State.initial ops = some s →
      ∃ s1, init_frame_descriptors hash s ts = some s1) := by
  constructor
  · intro s1 h1
    unfold State.capacity at hbranch ⊢
    unfold init_frame_descriptors at h1
    cases ts with
    | nil => exact absurd rfl hne
    | cons t tl =>
      simp only at h1
      rw [if_neg hbranch] at h1
      split at h1
      · simp at h1
      · next tbl hfill =>
        simp only [Option.some.injEq] at h1
        subst h1
        obtain ⟨hl, hk, hp⟩ := fill_hashtable_frame hash _ _ _ _ hfill
        exact ⟨rfl, hl, hk, hp, rfl⟩
  · intro ops h
    have hinv := index_inv_run hash ops _ _ h initial_inv
    obtain ⟨s1, h1, _⟩ := index_inv_register hash s ts hne hinv
    exact ⟨s1, h1⟩

theorem inplace_extension_witness :
    ∃ s s1, run shift_hash State.initial [Op.register sample_a] = some s ∧
      init_frame_descriptors shift_hash s [sample_b] = some s1 ∧
      s1.capacity = s.capacity ∧
      s1.caml_frame_descriptors.length = s.caml_frame_descriptors.length ∧
      (∀ (x : Nat) (e : frame_descr), s.caml_frame_descriptors[x]? = some (some e) →
        s1.caml_frame_descriptors[x]? = some (some e)) ∧
      (scan_index s1.caml_frame_descriptors).Perm
        (all_descrs [sample_b] ++ scan_index s.caml_frame_descriptors) ∧
      s1.frametables = [sample_b] ++ s.frametables := by
  refine ⟨_, _, rfl, rfl, ?_⟩
  refine (inplace_extension shift_hash _ [sample_b] (by decide) (by decide)).1 _ ?_
  rfl

/-- C19.  The entry counter is a sound over-approximation: in every state reached by
registrations and unregistrations, `num_descr` is at least the number of occupied slots
and the capacity is at least twice `num_descr`; an unregistration leaves `num_descr` as
it is, an in-place registration adds the new descriptors to it, and a full rebuild sets it
to the exact descriptor total of the registry. -/
theorem entry_counter_sound (hash : Nat → Nat) (ops : List Op) (s : State)
    (h : run hash State.initial ops = some s) :
    occupied s.caml_frame_descriptors ≤ s.num_descr ∧ 2 * s.num_descr ≤ s.capacity ∧
    (∀ t s1, caml_unregister_frametable hash t s = some s1 → s1.num_descr = s.num_descr) ∧
    (∀ ts s1, init_frame_descriptors hash s ts = some s1 →
      (s.capacity < (s.num_descr + count_descriptors ts) * 2 →
        s1.num_descr = count_descriptors s1.frametables) ∧
      (¬ s.capacity < (s.num_descr + count_descriptors ts) * 2 →
        s1.num_descr = s.num_descr + count_descriptors ts)) := by
  obtain ⟨_, _, hocc, hcap⟩ := index_inv_run hash ops _ _ h initial_inv
  refine ⟨hocc, hcap, ?_, ?_⟩
  · intro t s1 hun
    exact (unregister_cases hash s s1 t hun).2.1
  · intro ts s1 hinit
    obtain ⟨_, hft, hcase⟩ := init_frame_descriptors_cases hash s s1 ts hinit
    unfold State.capacity
    rcases hcase with ⟨hb, hnum, _⟩ | ⟨hb, hnum, _⟩
    · exact ⟨fun _ => by rw [hnum, hft], fun hn => absurd hb hn⟩
    · exact ⟨fun hy => absurd hy hb, fun _ => hnum⟩

theorem entry_counter_sound_witness :
    ∃ s, run shift_hash State.initial
        [Op.register sample_a, Op.register sample_b, Op.unregister sample_a] = some s ∧
      occupied s.caml_frame_descriptors ≤ s.num_descr ∧ 2 * s.num_descr ≤ s.capacity ∧
      (∀ t s1, caml_unregister_frametable shift_hash t s = some s1 →
        s1.num_descr = s.num_descr) ∧
      (∀ ts s1, init_frame_descriptors shift_hash s ts = some s1 →
        (s.capacity < (s.num_descr + count_descriptors ts) * 2 →
          s1.num_descr = count_descriptors s1.frametables) ∧
        (¬ s.capacity < (s.num_descr + count_descriptors ts) * 2 →
          s1.num_descr = s.num_descr + count_descriptors ts)) := by
  refine ⟨_, rfl, ?_⟩
  exact entry_counter_sound shift_hash
    [Op.register sample_a, Op.register sample_b, Op.unregister sample_a] _ rfl

/-! ## The instrumentation counter -/

theorem to_uintnat_add (a b : Int) :
    to_uintnat ((to_uintnat a : Int) + b) = to_uintnat (a + b) := by
  unfold to_uintnat
  have h : (((a % 2 ^ 64).toNat : Nat) : Int) = a % 2 ^ 64 :=
    Int.toNat_of_nonneg (Int.emod_nonneg _ (by norm_num))
  rw [h, Int.emod_add_emod]

theorem drive_counts (globals : Globals) :
    ∀ (budgets : List Int) (st st1 : SliceState) (vis : List Slot) (rets : List Int),
      st.valid globals → (∀ w ∈ budgets, 0 < w) →
      drive globals st budgets = some (st1, vis, rets) → (∃ r ∈ rets, 0 < r) →
      st1.caml_incremental_roots_count =
        to_uintnat ((st.roots_count : Int) + ((st.pending globals).length : Int)) := by
  intro budgets
  induction budgets with
  | nil =>
    intro st st1 vis rets _ _ h hr
    simp only [drive, Option.some.injEq, Prod.mk.injEq] at h
    obtain ⟨r, hr, _⟩ := hr
    rw [← h.2.2] at hr
    simp at hr
  | cons w ws ih =>
    intro st st1 vis rets hv hpos h hr
    have hw : 0 < w := hpos w (List.mem_cons_self _ _)
    have hws : ∀ x ∈ ws, 0 < x := fun x hx => hpos x (List.mem_cons_of_mem _ hx)
    unfold drive at h
    by_cases hle : w ≤ ((st.pending globals).length : Int)
    · have hcast : ((w.toNat - 1 : Nat) : Int) + 1 = w := by omega
      obtain ⟨res, hres, hret, _, hv1, _, hpend, hrc, _⟩ :=
        slice_suspends globals st (w.toNat - 1) hv (by omega)
      rw [hcast] at hres hrc
      rw [hres] at h
      simp only [hret, lt_self_iff_false, if_false] at h
      split at h
      · simp at h
      · next st2 vis2 rets2 hdrive =>
        simp only [Option.some.injEq, Prod.mk.injEq] at h
        obtain ⟨h1, _, h3⟩ := h
        have hr2 : ∃ r ∈ rets2, 0 < r := by
          obtain ⟨r, hr, hrpos⟩ := hr
          rw [← h3] at hr
          rcases List.mem_cons.1 hr with h0 | hmem
          · omega
          · exact ⟨r, hmem, hrpos⟩
        have := ih res.state st2 vis2 rets2 hv1 hws hdrive hr2
        rw [← h1, this, hrc, to_uintnat_add, hpend, List.length_drop]
        congr 1
        omega
    · obtain ⟨res, hres, hret, _, _, _, hcnt⟩ :=
        slice_finishes globals st w hv (by right; omega)
      rw [hres] at h
      have hposret : 0 < res.ret := by rw [hret]; omega
      simp only [hposret, if_true, Option.some.injEq, Prod.mk.injEq] at h
      rw [← h.1, hcnt]

/-- C17.  Instrumentation counter: for a fixed set of static global roots and strictly
positive budgets, when a walk driven from the idle state (with `roots_count = 0`)
completes, `caml_incremental_roots_count` is the number of fields visited across all
slices of the walk, which is the total number `N` of fields, as held in an unsigned
word of 64 bits: it equals `N` whenever `N` is below `2 ^ 64`. -/
theorem instrumentation_counter (globals : Globals) (st : SliceState) (budgets : List Int)
    (hidle : st.do_resume = false) (hcount : st.roots_count = 0)
    (hpos : ∀ w ∈ budgets, 0 < w) :
    ∃ st1 vis rets, drive globals st budgets = some (st1, vis, rets) ∧
      ((∃ r ∈ rets, 0 < r) →
        vis.length = total_fields globals ∧
        st1.caml_incremental_roots_count = vis.length % 2 ^ 64 ∧
        (total_fields globals < 2 ^ 64 →
          st1.caml_incremental_roots_count = total_fields globals)) := by
  have hv : st.valid globals := by
    intro h; rw [hidle] at h; exact absurd h (by decide)
  have hpend : st.pending globals = do_roots_globals globals := by
    simp [SliceState.pending, hidle]
  obtain ⟨st1, vis, rets, hdrive, hcases⟩ := drive_spec globals budgets st hv hpos
  refine ⟨st1, vis, rets, hdrive, ?_⟩
  intro hr
  have hcnt := drive_counts globals budgets st st1 vis rets hv hpos hdrive hr
  have hvis : vis.length = total_fields globals := by
    rcases hcases with ⟨n, r1, _, _, hvis, _⟩ | ⟨hrets, _, _, _⟩
    · rw [hvis, hpend, do_roots_globals_length]
    · obtain ⟨r, hr1, hrpos⟩ := hr
      rw [hrets] at hr1
      have := List.eq_of_mem_replicate hr1
      omega
  rw [hcount, hpend, do_roots_globals_length] at hcnt
  have hmod : st1.caml_incremental_roots_count = total_fields globals % 2 ^ 64 := by
    rw [hcnt]
    unfold to_uintnat
    omega
  refine ⟨hvis, by rw [hvis]; exact hmod, ?_⟩
  intro hlt
  rw [hmod, Nat.mod_eq_of_lt hlt]

theorem instrumentation_counter_witness :
    ∃ st1 vis rets, drive [[[10, 11], [12]], [], [[], [13, 14, 15]]] SliceState.idle [1, 3, 1000]
        = some (st1, vis, rets) ∧
      ((∃ r ∈ rets, 0 < r) →
        vis.length = total_fields [[[10, 11], [12]], [], [[], [13, 14, 15]]] ∧
        st1.caml_incremental_roots_count = vis.length % 2 ^ 64 ∧
        (total_fields [[[10, 11], [12]], [], [[], [13, 14, 15]]] < 2 ^ 64 →
          st1.caml_incremental_roots_count =
            total_fields [[[10, 11], [12]], [], [[], [13, 14, 15]]])) :=
  instrumentation_counter [[[10, 11], [12]], [], [[], [13, 14, 15]]] SliceState.idle
    [1, 3, 1000] rfl rfl (by decide)

/-! ## The passes over all the roots -/

theorem scan_fields_events (act : Nat → Nat) (ev : Nat → Nat → Event) (val : Slot → Nat)
    (i g : Nat) :
    ∀ (vs : List Nat) (j : Nat),
      (∀ (k v : Nat), vs[k]? = some v → val ⟨i, g, j + k⟩ = v) →
      (scan_fields act ev j vs).2 =
        (fields_from i g vs.length j).map (fun s => ev s.field (val s)) := by
  intro vs
  induction vs with
  | nil => intro j _; rfl
  | cons v rest ih =>
    intro j hval
    simp only [scan_fields, List.length_cons, fields_from, List.map_cons]
    have h0 := hval 0 v (by simp)
    simp only [Nat.add_zero] at h0
    rw [h0, ih (j + 1)]
    intro k w hk
    have := hval (k + 1) w (by simpa using hk)
    rw [← this]
    congr 2
    omega

theorem scan_containers_events (act : Nat → Nat) (ev : Nat → Nat → Nat → Event)
    (val : Slot → Nat) (i : Nat) :
    ∀ (cs : List (List Nat)) (g : Nat),
      (∀ (a : Nat) (blk : List Nat) (k v : Nat), cs[a]? = some blk → blk[k]? = some v →
        val ⟨i, g + a, k⟩ = v) →
      (scan_containers act ev g cs).2 =
        (visit_containers i g cs).map (fun s => ev s.container s.field (val s)) := by
  intro cs
  induction cs with
  | nil => intro g _; rfl
  | cons blk rest ih =>
    intro g hval
    simp only [scan_containers, visit_containers, List.map_append]
    rw [ih (g + 1), scan_fields_events act (ev g) val i g blk 0]
    · congr 1
      apply List.map_congr_left
      intro s hs
      rw [(mem_fields_from _ _ _ _ _ hs).2.1]
    · intro k v hk
      have := hval 0 blk k v (by simp) hk
      simpa using this
    · intro a b k v ha hk
      have := hval (a + 1) b k v (by simpa using ha) hk
      rw [← this]
      congr 2
      omega

theorem mem_visit_tables_lt :
    ∀ (ts : List (List (List Nat))) (i : Nat) (s : Slot), s ∈ visit_tables i ts →
      s.table < i + ts.length := by
  intro ts
  induction ts with
  | nil => intro i s h; simp [visit_tables] at h
  | cons t rest ih =>
    intro i s h
    simp only [visit_tables, List.mem_append] at h
    rcases h with h | h
    · have := (mem_visit_containers _ _ _ _ h).1
      simp only [List.length_cons]; omega
    · have := ih _ _ h
      simp only [List.length_cons]; omega

theorem scan_tables_events (act : Nat → Nat) (ev : Nat → Nat → Nat → Nat → Event)
    (val : Slot → Nat) :
    ∀ (ts : List (List (List Nat))) (i : Nat),
      (∀ (b : Nat) (t : List (List Nat)) (a : Nat) (blk : List Nat) (k v : Nat),
        ts[b]? = some t → t[a]? = some blk → blk[k]? = some v → val ⟨i + b, a, k⟩ = v) →
      (scan_tables act ev i ts).2 =
        (visit_tables i ts).map (fun s => ev s.table s.container s.field (val s)) := by
  intro ts
  induction ts with
  | nil => intro i _; rfl
  | cons t rest ih =>
    intro i hval
    simp only [scan_tables, visit_tables, List.map_append]
    rw [ih (i + 1), scan_containers_events act (ev i) val i t 0]
    · congr 1
      apply List.map_congr_left
      intro s hs
      rw [(mem_visit_containers _ _ _ _ hs).1]
    · intro a blk k v ha hk
      have := hval 0 t a blk k v (by simp) ha hk
      simpa using this
    · intro b t1 a blk k v hb ha hk
      have := hval (b + 1) t1 a blk k v (by simpa using hb) ha hk
      rw [← this]
      congr 2
      omega

theorem scan_tables_trace (act : Nat → Nat) (ev : Nat → Nat → Nat → Nat → Event)
    (gl : List (List (List Nat))) :
    (scan_tables act ev 0 gl).2 =
      (visit_tables 0 gl).map (fun s => ev s.table s.container s.field (field_value gl s)) := by
  apply scan_tables_events
  intro b t a blk k v hb ha hk
  unfold field_value
  simp only [Nat.zero_add, List.getD_eq_getElem?_getD, hb, Option.getD_some, ha, hk]

theorem scan_fields_map (act : Nat → Nat) (ev : Nat → Nat → Event) :
    ∀ (vs : List Nat) (j : Nat), (scan_fields act ev j vs).1 = vs.map act := by
  intro vs
  induction vs with
  | nil => intro j; rfl
  | cons v rest ih => intro j; simp only [scan_fields, List.map_cons, ih]

theorem scan_containers_map (act : Nat → Nat) (ev : Nat → Nat → Nat → Event) :
    ∀ (cs : List (List Nat)) (g : Nat),
      (scan_containers act ev g cs).1 = cs.map (fun blk => blk.map act) := by
  intro cs
  induction cs with
  | nil => intro g; rfl
  | cons blk rest ih =>
    intro g; simp only [scan_containers, List.map_cons, ih, scan_fields_map]

theorem scan_tables_map (act : Nat → Nat) (ev : Nat → Nat → Nat → Nat → Event) :
    ∀ (ts : List (List (List Nat))) (i : Nat),
      (scan_tables act ev i ts).1 = ts.map (fun t => t.map (fun blk => blk.map act)) := by
  intro ts
  induction ts with
  | nil => intro i; rfl
  | cons t rest ih =>
    intro i; simp only [scan_tables, List.map_cons, ih, scan_containers_map]

theorem scan_tables_id (ev : Nat → Nat → Nat → Nat → Event) (ts : List (List (List Nat)))
    (i : Nat) : (scan_tables id ev i ts).1 = ts := by
  rw [scan_tables_map]
  simp

theorem do_roots_events (hash : Nat → Nat) (caml_frametable : List frametable)
    (act : Nat → Nat) (do_globals is_compaction : Int) (r : RootSet) :
    (caml_do_roots hash caml_frametable act do_globals is_compaction r).map (fun x => x.2) =
      (ensure_frame_descriptors hash caml_frametable r.frames).map (fun _ =>
        (if do_globals ≠ 0 then
            (do_roots_globals r.caml_globals).map
              (fun s => Event.visit (Root.static s) (field_value r.caml_globals s))
          else []) ++
        (visit_tables 0 r.caml_dyn_globals).map
          (fun s => Event.visit (Root.dynamic s) (field_value r.caml_dyn_globals s)) ++
        (if is_compaction = 0 then [Event.scan_stack r.caml_current_stack] else []) ++
        [Event.visit Root.current_stack r.caml_current_stack] ++
        (visit_tables 0 r.caml_local_roots).map
          (fun s => Event.visit (Root.local_root s) (field_value r.caml_local_roots s)) ++
        [Event.scan_global_roots, Event.final_do_strong_roots] ++
        (if r.caml_scan_roots_hook = true then [Event.hook is_compaction] else [])) := by
  unfold caml_do_roots
  cases ensure_frame_descriptors hash caml_frametable r.frames with
  | none => rfl
  | some frames =>
    simp only [Option.map_some', caml_do_local_roots, Option.some.injEq]
    rw [scan_tables_trace act _ r.caml_dyn_globals, scan_tables_trace act _ r.caml_local_roots]
    by_cases hg : do_globals ≠ 0
    · simp only [if_pos hg]
      rw [scan_tables_trace act _ r.caml_globals]
      simp only [do_roots_globals, List.append_assoc]
    · simp only [if_neg hg, List.append_assoc]

/-- C12, amended.  Traversal order of `caml_do_roots`: the pass fails only if the lazy
initialisation of the frame descriptors fails, and otherwise its trace of visitor and
collaborator invocations is, in this order: the fields of the static global tables
(present if and only if `do_globals` is non-zero), the fields of the dynamic global
tables, the external stack walker on the current stack (if and only if `is_compaction`
is zero), the visitor on the variable `caml_current_stack` itself (always), the items of
the local-root blocks, the external global C roots provider, the strong finalizer roots
provider, and the embedder hook (once, with `is_compaction`, if and only if
`caml_scan_roots_hook` is set). -/
theorem do_roots_traversal_order (hash : Nat → Nat) (caml_frametable : List frametable)
    (act : Nat → Nat) (do_globals is_compaction : Int) (r : RootSet) :
    (caml_do_roots hash caml_frametable act do_globals is_compaction r).map (fun x => x.2) =
      (ensure_frame_descriptors hash caml_frametable r.frames).map (fun _ =>
        (if do_globals ≠ 0 then
            (do_roots_globals r.caml_globals).map
              (fun s => Event.visit (Root.static s) (field_value r.caml_globals s))
          else []) ++
        (visit_tables 0 r.caml_dyn_globals).map
          (fun s => Event.visit (Root.dynamic s) (field_value r.caml_dyn_globals s)) ++
        (if is_compaction = 0 then [Event.scan_stack r.caml_current_stack] else []) ++
        [Event.visit Root.current_stack r.caml_current_stack] ++
        (visit_tables 0 r.caml_local_roots).map
          (fun s => Event.visit (Root.local_root s) (field_value r.caml_local_roots s)) ++
        [Event.scan_global_roots, Event.final_do_strong_roots] ++
        (if r.caml_scan_roots_hook = true then [Event.hook is_compaction] else [])) ∧
    (r.frames.caml_frame_descriptors ≠ [] →
      ensure_frame_descriptors hash caml_frametable r.frames = some r.frames) :=
  ⟨do_roots_events hash caml_frametable act do_globals is_compaction r,
    fun h => by unfold ensure_frame_descriptors; rw [if_neg h]⟩

/-- C12 as stated fails: in a full pass over two static tables with nothing else, the
visitor is called on `caml_current_stack` between the stack walker and the global C
roots provider, an invocation that the claimed trace does not have. -/
theorem do_roots_visits_current_stack :
    ∃ r1 evs, caml_do_roots shift_hash [sample_b] id 1 0 sample_roots = some (r1, evs) ∧
      evs = [Event.visit (Root.static ⟨0, 0, 0⟩) 101, Event.visit (Root.static ⟨0, 0, 1⟩) 102,
        Event.visit (Root.static ⟨1, 0, 0⟩) 103, Event.visit (Root.static ⟨1, 0, 1⟩) 104,
        Event.scan_stack 500, Event.visit Root.current_stack 500,
        Event.scan_global_roots, Event.final_do_strong_roots] ∧
      evs ≠ [Event.visit (Root.static ⟨0, 0, 0⟩) 101, Event.visit (Root.static ⟨0, 0, 1⟩) 102,
        Event.visit (Root.static ⟨1, 0, 0⟩) 103, Event.visit (Root.static ⟨1, 0, 1⟩) 104,
        Event.scan_stack 500, Event.scan_global_roots, Event.final_do_strong_roots] :=
  ⟨_, _, rfl, by decide, by decide⟩

theorem visited_roots_append (l1 l2 : List Event) :
    visited_roots (l1 ++ l2) = visited_roots l1 ++ visited_roots l2 := by
  induction l1 with
  | nil => rfl
  | cons e l ih =>
    cases e <;> simp [visited_roots, ih]

theorem visited_roots_map (mk : Slot → Root) (val : Slot → Nat) (l : List Slot) :
    visited_roots (l.map (fun s => Event.visit (mk s) (val s))) = l.map mk := by
  induction l with
  | nil => rfl
  | cons s l ih => simp [visited_roots, ih]

/-- C13, amended.  End-to-end global enumeration: with two static global tables, each
holding a single container with two fields, no dynamic globals, no local-root blocks and
no hook, a full pass `caml_do_roots (f, 1, 0)` with an identity visitor invokes the
visitor on the four fields in the order `r1, r2, r3, r4` and then on
`caml_current_stack`, and leaves all of them unchanged.  In general a pass with
`do_globals` non-zero applies the visitor to every field of every container of every
static global table, in the order of `caml_do_roots`, then to the fields of the dynamic
global tables, `caml_current_stack` and the local roots, and to nothing else; an identity
visitor leaves the roots unchanged. -/
theorem do_roots_global_enumeration :
    (∃ r1, caml_do_roots shift_hash [sample_b] id 1 0 sample_roots =
        some (r1, [Event.visit (Root.static ⟨0, 0, 0⟩) 101,
          Event.visit (Root.static ⟨0, 0, 1⟩) 102, Event.visit (Root.static ⟨1, 0, 0⟩) 103,
          Event.visit (Root.static ⟨1, 0, 1⟩) 104, Event.scan_stack 500,
          Event.visit Root.current_stack 500, Event.scan_global_roots,
          Event.final_do_strong_roots]) ∧
      r1.caml_globals = [[[101, 102]], [[103, 104]]] ∧ r1.caml_current_stack = 500) ∧
    (∀ (hash : Nat → Nat) (caml_frametable : List frametable) (act : Nat → Nat)
      (do_globals is_compaction : Int) (r r1 : RootSet) (evs : List Event),
      do_globals ≠ 0 →
      caml_do_roots hash caml_frametable act do_globals is_compaction r = some (r1, evs) →
      visited_roots evs =
        (do_roots_globals r.caml_globals).map Root.static ++
          (visit_tables 0 r.caml_dyn_globals).map Root.dynamic ++ [Root.current_stack] ++
          (visit_tables 0 r.caml_local_roots).map Root.local_root) ∧
    (∀ (hash : Nat → Nat) (caml_frametable : List frametable)
      (do_globals is_compaction : Int) (r r1 : RootSet) (evs : List Event),
      caml_do_roots hash caml_frametable id do_globals is_compaction r = some (r1, evs) →
      r1.caml_globals = r.caml_globals ∧ r1.caml_dyn_globals = r.caml_dyn_globals ∧
        r1.caml_current_stack = r.caml_current_stack ∧
        r1.caml_local_roots = r.caml_local_roots) := by
  refine ⟨⟨_, rfl, by decide, by decide⟩, ?_, ?_⟩
  · intro hash caml_frametable act do_globals is_compaction r r1 evs hg h
    have htr := do_roots_events hash caml_frametable act do_globals is_compaction r
    rw [h] at htr
    cases hens : ensure_frame_descriptors hash caml_frametable r.frames with
    | none => rw [hens] at htr; simp at htr
    | some fr =>
      rw [hens] at htr
      simp only [Option.map_some', Option.some.injEq, if_pos hg] at htr
      rw [htr]
      simp only [visited_roots_append, visited_roots_map]
      by_cases hc : is_compaction = 0
      · by_cases hh : r.caml_scan_roots_hook = true <;>
          simp [hc, hh, visited_roots]
      · by_cases hh : r.caml_scan_roots_hook = true <;>
          simp [hc, hh, visited_roots]
  · intro hash caml_frametable do_globals is_compaction r r1 evs h
    unfold caml_do_roots at h
    cases hens : ensure_frame_descriptors hash caml_frametable r.frames with
    | none => rw [hens] at h; simp at h
    | some fr =>
      rw [hens] at h
      simp only [Option.some.injEq, Prod.mk.injEq] at h
      obtain ⟨h1, _⟩ := h
      subst h1
      simp only [caml_do_local_roots, scan_tables_id, id]
      refine ⟨?_, trivial, trivial, trivial⟩
      by_cases hg : do_globals ≠ 0
      · simp only [if_pos hg, scan_tables_id]
      · simp only [if_neg hg]

/-- C13 as stated fails: in that pass the visitor is invoked on five slots, the four
fields and `caml_current_stack`, not on exactly four. -/
theorem do_roots_visits_five_slots :
    ∃ r1 evs, caml_do_roots shift_hash [sample_b] id 1 0 sample_roots = some (r1, evs) ∧
      visited_roots evs =
        [Root.static ⟨0, 0, 0⟩, Root.static ⟨0, 0, 1⟩, Root.static ⟨1, 0, 0⟩,
          Root.static ⟨1, 0, 1⟩, Root.current_stack] ∧
      (visited_roots evs).length ≠ 4 :=
  ⟨_, _, rfl, by decide, by decide⟩

/-! ## The cursor of the minor collection over the static global tables -/

end Roots
